import Mathlib

/-!
# csvr container library (`string_st.c`): Text, Row, Table and the tokenizer

A shallow embedding of `src/string_st.c`.

Conventions of the embedding.

* A C pointer that may be `NULL` is an `Option`; `none` is `NULL`.
* An allocated block is a `List` holding exactly the allocated cells
  (bytes for a Text buffer, slots for a Row or Table array).  Bytes are `Nat`
  values; the byte `0` is the string terminator.
* A function that mutates the object behind a pointer and returns that pointer
  is a function returning the new state of the object.  Where such a function
  can also return `NULL` without touching the object (`s_append_c`,
  `s_append_l`), it returns an `Option`: `none` is that `NULL`, and a caller
  that does not use the returned value keeps the state it passed.
* Undefined behaviour of the C program (dereferencing `NULL`, reading or
  writing outside an allocated block) is the explicit result `Except.error`.
* `calloc` is taken to succeed, also for a request of zero cells (where it
  yields an empty block), so the `return NULL` paths that follow a failed
  allocation do not appear.
* `size_t` is 64 bits wide.  Subtractions that can wrap are written modulo
  `2 ^ 64`; additions of lengths are not wrapped: a sum of sizes of live
  objects stays far below `2 ^ 64`.
* Objects are owned exclusively (no Text is referenced by two Rows), so values
  are nested and `free` has no observable effect.
-/

namespace Csvr

/-! ## Macros -/

def DEFAULT_MEMORY_LEN : Nat := 256

def STRING_SUCCESS : Int := 0

def STRING_FAILURE : Int := -1

/-- Number of values of `size_t`. -/
def SIZE_MOD : Nat := 2 ^ 64

/-- Value of `sizeof(size_t)`. -/
def SIZEOF_SIZE_T : Nat := 8

/-- The value of `(size_t) STRING_FAILURE`. -/
def SIZE_FAILURE : Nat := SIZE_MOD - 1

/-- Subtraction of one on `size_t`, wrapping at zero. -/
def size_pred (n : Nat) : Nat := (n + SIZE_MOD - 1) % SIZE_MOD

/-! ## Faults and memory blocks -/

/-- Undefined behaviour a call can run into. -/
inductive Fault where
  | null_deref
  | out_of_bounds
deriving DecidableEq

/-- Read cell `i` of an allocated block. -/
def load {α : Type} (blk : List α) (i : Nat) : Except Fault α :=
  match blk[i]? with
  | some x => .ok x
  | none => .error .out_of_bounds

/-- Write cell `i` of an allocated block. -/
def store {α : Type} (blk : List α) (i : Nat) (x : α) : Except Fault (List α) :=
  if i < blk.length then .ok (blk.set i x) else .error .out_of_bounds

/-- The call `memcpy(dst, src, n)` on two blocks: the new state of `dst`. -/
def memcpy {α : Type} (dst src : List α) (n : Nat) : Except Fault (List α) :=
  if n ≤ src.length ∧ n ≤ dst.length then .ok (src.take n ++ dst.drop n)
  else .error .out_of_bounds

/-- A counted loop `for (i = start; i < start + count; i++) body`. -/
def for_loop {σ : Type} (body : Nat → σ → Except Fault σ) :
    Nat → Nat → σ → Except Fault σ
  | 0, _, s => .ok s
  | k + 1, i, s =>
    match body i s with
    | .error e => .error e
    | .ok s1 => for_loop body k (i + 1) s1

/-- The scan `while (src[n] != 0) n++` over the block that starts at `src`. -/
def strlen : List Nat → Except Fault Nat
  | [] => .error .out_of_bounds
  | c :: rest =>
    if c = 0 then .ok 0
    else
      match strlen rest with
      | .error e => .error e
      | .ok n => .ok (n + 1)

/-! ## Struct declarations -/

structure STRING_ST where
  l : Option (List Nat)
  len : Nat
  mlen : Nat
deriving DecidableEq

structure VECTOR_ST where
  strs : Option (List (Option STRING_ST))
  len : Nat
  mlen : Nat
deriving DecidableEq

structure TABLE_ST where
  vs : Option (List (Option VECTOR_ST))
  len : Nat
  mlen : Nat
deriving DecidableEq

/-! ## Text -/

def new_empty_str_s (sz : Nat) : STRING_ST :=
  { l := some (List.replicate (sz * SIZEOF_SIZE_T) 0), len := 0, mlen := sz }

def new_empty_str : STRING_ST := new_empty_str_s DEFAULT_MEMORY_LEN

/-- The pointer `s_append_c(dst, ch)` returns, with the state of `*dst` after
the call; `none` is the `NULL` returned for a `NULL` `dst` or a `NULL` buffer,
and `*dst` is then unchanged. -/
def s_append_c (dst : Option STRING_ST) (ch : Nat) : Except Fault (Option STRING_ST) :=
  match dst with
  | none => .ok none
  | some t =>
    match t.l with
    | none => .ok none
    | some buf =>
      let len := t.len
      let mlen := t.mlen
      let grown : Except Fault (List Nat × Nat) :=
        if len = size_pred mlen then
          match memcpy (List.replicate (mlen + DEFAULT_MEMORY_LEN) 0) buf mlen with
          | .error e => .error e
          | .ok tmp => .ok (tmp, mlen + DEFAULT_MEMORY_LEN)
        else .ok (buf, mlen)
      match grown with
      | .error e => .error e
      | .ok (buf1, mlen1) =>
        match store buf1 len ch with
        | .error e => .error e
        | .ok buf2 =>
          match store buf2 (len + 1) 0 with
          | .error e => .error e
          | .ok buf3 => .ok (some { l := some buf3, len := len + 1, mlen := mlen1 })

/-- The loop `for (i = 0; i < n; i++) dst->l[i + olen] = src[i]`. -/
def s_append_l_copy (src : List Nat) (olen : Nat) (n : Nat) (buf : List Nat) :
    Except Fault (List Nat) :=
  for_loop (fun i b =>
    match load src i with
    | .error e => .error e
    | .ok c => store b (i + olen) c) n 0 buf

/-- The pointer `s_append_l(dst, src)` returns, with the state of `*dst` after
the call; `src` is the block the literal pointer points into.  `none` is the
`NULL` returned for a `NULL` `dst` or a `NULL` buffer, and `*dst` is then
unchanged. -/
def s_append_l (dst : Option STRING_ST) (src : List Nat) : Except Fault (Option STRING_ST) :=
  match dst with
  | none => .ok none
  | some t =>
    match t.l with
    | none => .ok none
    | some buf =>
      match strlen src with
      | .error e => .error e
      | .ok n =>
        let olen := t.len
        let len := t.len + n
        let mlen := t.mlen
        let grown : Except Fault (List Nat × Nat) :=
          if len ≥ mlen then
            match memcpy (List.replicate (len + 1) 0) buf mlen with
            | .error e => .error e
            | .ok tmp => .ok (tmp, len + 1)
          else .ok (buf, mlen)
        match grown with
        | .error e => .error e
        | .ok (buf1, mlen1) =>
          match s_append_l_copy src olen n buf1 with
          | .error e => .error e
          | .ok buf2 =>
            match store buf2 len 0 with
            | .error e => .error e
            | .ok buf3 => .ok (some { l := some buf3, len := len, mlen := mlen1 })

/-- The call `new_str(s)`: the value `s_append_l` returns is not used. -/
def new_str (s : List Nat) : Except Fault (Option STRING_ST) :=
  let str := new_empty_str
  match s_append_l (some str) s with
  | .error e => .error e
  | .ok none => .ok (some str)
  | .ok (some str1) => .ok (some str1)

/-- The call `new_str_s(s, str_len)`: the sum `str_len + 1` is formed on
`size_t`. -/
def new_str_s (s : List Nat) (str_len : Nat) : Except Fault (Option STRING_ST) :=
  let str := new_empty_str_s ((str_len + 1) % SIZE_MOD)
  match s_append_l (some str) s with
  | .error e => .error e
  | .ok none => .ok (some str)
  | .ok (some str1) => .ok (some str1)

/-- First loop of the concat functions: the sum of the lengths of the present
sources. -/
def s_concat_total : List (Option STRING_ST) → Nat
  | [] => 0
  | none :: rest => s_concat_total rest
  | some t :: rest => t.len + s_concat_total rest

/-- Second loop of `s_concat`; the value `s_append_l` returns is not used, and
the new Text is unchanged when that value is `NULL`. -/
def s_concat_loop : List (Option STRING_ST) → Option STRING_ST →
    Except Fault (Option STRING_ST)
  | [], acc => .ok acc
  | none :: rest, acc => s_concat_loop rest acc
  | some t :: rest, acc =>
    match t.l with
    | none => s_concat_loop rest acc
    | some buf =>
      match s_append_l acc buf with
      | .error e => .error e
      | .ok none => s_concat_loop rest acc
      | .ok (some acc1) => s_concat_loop rest (some acc1)

/-- The call `s_concat(n, ...)` with the `n` variadic arguments as a list. -/
def s_concat (srcs : List (Option STRING_ST)) : Except Fault (Option STRING_ST) :=
  s_concat_loop srcs (some (new_empty_str_s (s_concat_total srcs)))

def s_copy (src : Option STRING_ST) : Except Fault (Option STRING_ST) :=
  match src with
  | none => .error .null_deref
  | some t =>
    let len := t.len
    let mlen := t.mlen
    match (new_empty_str_s mlen).l, t.l with
    | some dbuf, some sbuf =>
      match memcpy dbuf sbuf mlen with
      | .error e => .error e
      | .ok buf => .ok (some { l := some buf, len := len, mlen := mlen })
    | _, _ => .error .null_deref

def del_str (str : Option STRING_ST) : Except Fault Int :=
  match str with
  | none => .error .null_deref
  | some t =>
    match t.l with
    | none => .ok STRING_FAILURE
    | some _ => .ok STRING_SUCCESS

def s_get_len (str : Option STRING_ST) : Nat :=
  match str with
  | none => SIZE_FAILURE
  | some t => t.len

def s_get_mlen (str : Option STRING_ST) : Nat :=
  match str with
  | none => SIZE_FAILURE
  | some t => t.mlen

def s_get_str_l (str : Option STRING_ST) : Option (List Nat) :=
  match str with
  | none => none
  | some t => t.l

/-! ## Row -/

def new_vector_s (sz : Nat) : VECTOR_ST :=
  { strs := some (List.replicate sz none), len := 0, mlen := sz }

def new_vector : VECTOR_ST := new_vector_s DEFAULT_MEMORY_LEN

/-- State of `*dst` after `v_append(dst, src)`. -/
def v_append (dst : Option VECTOR_ST) (src : Option STRING_ST) : Except Fault VECTOR_ST :=
  match dst with
  | none => .error .null_deref
  | some v =>
    let len := v.len + 1
    let mlen := v.mlen
    match v.strs with
    | none => .error .null_deref
    | some slots =>
      let grown : Except Fault (List (Option STRING_ST) × Nat) :=
        if len > mlen then
          match memcpy (List.replicate (len + 1) none) slots mlen with
          | .error e => .error e
          | .ok tmp => .ok (tmp, len)
        else .ok (slots, mlen)
      match grown with
      | .error e => .error e
      | .ok (slots1, mlen1) =>
        match store slots1 (len - 1) src with
        | .error e => .error e
        | .ok slots2 => .ok { strs := some slots2, len := len, mlen := mlen1 }

/-- First loop of `v_concat`: absent sources are skipped. -/
def v_concat_total : List (Option VECTOR_ST) → Nat
  | [] => 0
  | none :: rest => v_concat_total rest
  | some v :: rest => v.len + v_concat_total rest

/-- Inner loop of `v_concat`: `for (j = 0; j < tmp->len; j++)
v_append(v, s_copy(tmp->strs[j]))`. -/
def v_concat_inner (tmp : VECTOR_ST) (acc : VECTOR_ST) : Except Fault VECTOR_ST :=
  for_loop (fun j a =>
    match tmp.strs with
    | none => .error .null_deref
    | some slots =>
      match load slots j with
      | .error e => .error e
      | .ok x =>
        match s_copy x with
        | .error e => .error e
        | .ok c => v_append (some a) c) tmp.len 0 acc

/-- Second loop of `v_concat`: `tmp->len` is read without a test of `tmp`. -/
def v_concat_loop : List (Option VECTOR_ST) → VECTOR_ST → Except Fault VECTOR_ST
  | [], acc => .ok acc
  | none :: _, _ => .error .null_deref
  | some tmp :: rest, acc =>
    match v_concat_inner tmp acc with
    | .error e => .error e
    | .ok acc1 => v_concat_loop rest acc1

/-- The call `v_concat(n, ...)` with the `n` variadic arguments as a list. -/
def v_concat (srcs : List (Option VECTOR_ST)) : Except Fault VECTOR_ST :=
  v_concat_loop srcs (new_vector_s (v_concat_total srcs))

/-- The loop of `v_copy`: `dst->strs[i] = s_copy(src->strs[i])`. -/
def v_copy_loop (sslots : Option (List (Option STRING_ST))) (len : Nat)
    (dslots : List (Option STRING_ST)) : Except Fault (List (Option STRING_ST)) :=
  for_loop (fun i d =>
    match sslots with
    | none => .error .null_deref
    | some slots =>
      match load slots i with
      | .error e => .error e
      | .ok x =>
        match s_copy x with
        | .error e => .error e
        | .ok c => store d i c) len 0 dslots

def v_copy (src : Option VECTOR_ST) : Except Fault VECTOR_ST :=
  match src with
  | none => .error .null_deref
  | some v =>
    let len := v.len
    let mlen := v.mlen
    match (new_vector_s mlen).strs with
    | none => .error .null_deref
    | some dslots =>
      match v_copy_loop v.strs len dslots with
      | .error e => .error e
      | .ok d => .ok { strs := some d, len := len, mlen := mlen }

def v_get_len (v : Option VECTOR_ST) : Nat :=
  match v with
  | none => SIZE_FAILURE
  | some r => r.len

def v_get_mlen (v : Option VECTOR_ST) : Nat :=
  match v with
  | none => SIZE_FAILURE
  | some r => r.mlen

def v_get_str (v : Option VECTOR_ST) (index : Nat) : Except Fault (Option STRING_ST) :=
  match v with
  | none => .ok none
  | some r =>
    match r.strs with
    | none => .ok none
    | some slots => load slots index

def v_get_str_l (v : Option VECTOR_ST) (index : Nat) : Except Fault (Option (List Nat)) :=
  match v with
  | none => .ok none
  | some r =>
    match r.strs with
    | none => .ok none
    | some slots =>
      match load slots index with
      | .error e => .error e
      | .ok none => .ok none
      | .ok (some t) => .ok (s_get_str_l (some t))

/-- The loop of `del_vector`: absent slots are skipped. -/
def del_vector_loop (slots : List (Option STRING_ST)) (len : Nat) : Except Fault Unit :=
  for_loop (fun i _ =>
    match load slots i with
    | .error e => .error e
    | .ok none => .ok ()
    | .ok (some t) =>
      match del_str (some t) with
      | .error e => .error e
      | .ok _ => .ok ()) len 0 ()

def del_vector (v : Option VECTOR_ST) : Except Fault Int :=
  match v with
  | none => .ok STRING_FAILURE
  | some r =>
    match r.strs with
    | none => .ok STRING_FAILURE
    | some slots =>
      match del_vector_loop slots r.len with
      | .error e => .error e
      | .ok _ => .ok STRING_SUCCESS

/-! ## Tokenizer -/

/-- Loop state of `parse_delimited_c`: the Row `v`, the scratch buffer `l`,
the fill index `i` and the flag `append`. -/
structure ParseState where
  v : VECTOR_ST
  l : List Nat
  i : Nat
  append : Bool
deriving DecidableEq

/-- The flush `if (append) s_append_l(v_get_str(v, v_get_len(v) - 1), l);
else v_append(v, new_str(l));`, which the function has twice. -/
def parse_flush (v : VECTOR_ST) (l : List Nat) (append : Bool) : Except Fault VECTOR_ST :=
  if append then
    let index := size_pred (v_get_len (some v))
    match v_get_str (some v) index with
    | .error e => .error e
    | .ok p =>
      match s_append_l p l with
      | .error e => .error e
      | .ok none => .ok v
      | .ok (some t) =>
        match v.strs with
        | none => .ok v
        | some slots => .ok { v with strs := some (slots.set index (some t)) }
  else
    match new_str l with
    | .error e => .error e
    | .ok p => v_append (some v) p

/-- The loop `while ((c = *sl++)) { ... }` over the block `sl` points into. -/
def parse_loop (d : Nat) : List Nat → ParseState → Except Fault ParseState
  | [], _ => .error .out_of_bounds
  | c :: sl, st =>
    if c = 0 then .ok st
    else if c = d ∨ st.i = DEFAULT_MEMORY_LEN - 1 then
      match parse_flush st.v st.l st.append with
      | .error e => .error e
      | .ok v1 =>
        parse_loop d sl
          { v := v1, l := List.replicate DEFAULT_MEMORY_LEN 0,
            append := decide (st.i = DEFAULT_MEMORY_LEN - 1), i := 0 }
    else
      match store st.l st.i c with
      | .error e => .error e
      | .ok l1 => parse_loop d sl { st with l := l1, i := st.i + 1 }

def parse_delimited_c (s : Option STRING_ST) (d : Nat) : Except Fault VECTOR_ST :=
  match s with
  | none => .error .null_deref
  | some t =>
    match t.l with
    | none => .error .null_deref
    | some sl =>
      match parse_loop d sl
          { v := new_vector, l := List.replicate DEFAULT_MEMORY_LEN 0, i := 0,
            append := false } with
      | .error e => .error e
      | .ok st => parse_flush st.v st.l st.append

/-! ## Table -/

def new_table_s (sz : Nat) : TABLE_ST :=
  { vs := some (List.replicate sz none), len := 0, mlen := sz }

def new_table : TABLE_ST := new_table_s DEFAULT_MEMORY_LEN

/-- State of `*dst` after `t_append(dst, src)`. -/
def t_append (dst : Option TABLE_ST) (src : Option VECTOR_ST) : Except Fault TABLE_ST :=
  match dst with
  | none => .error .null_deref
  | some t =>
    let len := t.len + 1
    let mlen := t.mlen
    match t.vs with
    | none => .error .null_deref
    | some slots =>
      let grown : Except Fault (List (Option VECTOR_ST) × Nat) :=
        if len > mlen then
          match memcpy (List.replicate (len + 1) none) slots mlen with
          | .error e => .error e
          | .ok tmp => .ok (tmp, len)
        else .ok (slots, mlen)
      match grown with
      | .error e => .error e
      | .ok (slots1, mlen1) =>
        match store slots1 (len - 1) src with
        | .error e => .error e
        | .ok slots2 => .ok { vs := some slots2, len := len, mlen := mlen1 }

/-- First loop of `t_concat`: absent sources are skipped. -/
def t_concat_total : List (Option TABLE_ST) → Nat
  | [] => 0
  | none :: rest => t_concat_total rest
  | some t :: rest => t.len + t_concat_total rest

/-- Inner loop of `t_concat`: `for (j = 0; j < tmp->len; j++)
t_append(t, v_copy(tmp->vs[j]))`. -/
def t_concat_inner (tmp : TABLE_ST) (acc : TABLE_ST) : Except Fault TABLE_ST :=
  for_loop (fun j a =>
    match tmp.vs with
    | none => .error .null_deref
    | some slots =>
      match load slots j with
      | .error e => .error e
      | .ok x =>
        match v_copy x with
        | .error e => .error e
        | .ok c => t_append (some a) (some c)) tmp.len 0 acc

/-- Second loop of `t_concat`: `tmp->len` is read without a test of `tmp`. -/
def t_concat_loop : List (Option TABLE_ST) → TABLE_ST → Except Fault TABLE_ST
  | [], acc => .ok acc
  | none :: _, _ => .error .null_deref
  | some tmp :: rest, acc =>
    match t_concat_inner tmp acc with
    | .error e => .error e
    | .ok acc1 => t_concat_loop rest acc1

/-- The call `t_concat(n, ...)` with the `n` variadic arguments as a list. -/
def t_concat (srcs : List (Option TABLE_ST)) : Except Fault TABLE_ST :=
  t_concat_loop srcs (new_table_s (t_concat_total srcs))

/-- The loop of `t_copy`: `dst->vs[i] = v_copy(src->vs[i])`. -/
def t_copy_loop (sslots : Option (List (Option VECTOR_ST))) (len : Nat)
    (dslots : List (Option VECTOR_ST)) : Except Fault (List (Option VECTOR_ST)) :=
  for_loop (fun i d =>
    match sslots with
    | none => .error .null_deref
    | some slots =>
      match load slots i with
      | .error e => .error e
      | .ok x =>
        match v_copy x with
        | .error e => .error e
        | .ok c => store d i (some c)) len 0 dslots

def t_copy (src : Option TABLE_ST) : Except Fault TABLE_ST :=
  match src with
  | none => .error .null_deref
  | some t =>
    let len := t.len
    let mlen := t.mlen
    match (new_table_s mlen).vs with
    | none => .error .null_deref
    | some dslots =>
      match t_copy_loop t.vs len dslots with
      | .error e => .error e
      | .ok d => .ok { vs := some d, len := len, mlen := mlen }

def t_get_len (t : Option TABLE_ST) : Nat :=
  match t with
  | none => SIZE_FAILURE
  | some x => x.len

def t_get_mlen (t : Option TABLE_ST) : Nat :=
  match t with
  | none => SIZE_FAILURE
  | some x => x.mlen

def t_get_vector (t : Option TABLE_ST) (index : Nat) : Except Fault (Option VECTOR_ST) :=
  match t with
  | none => .ok none
  | some x =>
    match x.vs with
    | none => .ok none
    | some slots => load slots index

def t_get_str (t : Option TABLE_ST) (i j : Nat) : Except Fault (Option STRING_ST) :=
  match t with
  | none => .ok none
  | some x =>
    match x.vs with
    | none => .ok none
    | some slots =>
      match load slots i with
      | .error e => .error e
      | .ok none => .ok none
      | .ok (some r) =>
        match r.strs with
        | none => .ok none
        | some cells => load cells j

def t_get_str_l (t : Option TABLE_ST) (i j : Nat) : Except Fault (Option (List Nat)) :=
  match t with
  | none => .ok none
  | some x =>
    match x.vs with
    | none => .ok none
    | some slots =>
      match load slots i with
      | .error e => .error e
      | .ok none => .ok none
      | .ok (some r) =>
        match r.strs with
        | none => .ok none
        | some cells =>
          match load cells j with
          | .error e => .error e
          | .ok none => .ok none
          | .ok (some _) => v_get_str_l (some r) j

def check_table (t : Option TABLE_ST) : Option TABLE_ST :=
  match t with
  | none => none
  | some x =>
    match x.vs with
    | none => none
    | some _ => some x

/-- The loop of `del_table`: absent rows are skipped. -/
def del_table_loop (slots : List (Option VECTOR_ST)) (len : Nat) : Except Fault Unit :=
  for_loop (fun i _ =>
    match load slots i with
    | .error e => .error e
    | .ok none => .ok ()
    | .ok (some r) =>
      match del_vector (some r) with
      | .error e => .error e
      | .ok _ => .ok ()) len 0 ()

def del_table (t : Option TABLE_ST) : Except Fault Int :=
  match check_table t with
  | none => .ok STRING_FAILURE
  | some x =>
    match x.vs with
    | none => .error .null_deref
    | some slots =>
      match del_table_loop slots x.len with
      | .error e => .error e
      | .ok _ => .ok STRING_SUCCESS

/-- The loop `max_length = max_length > vs[i]->len ? max_length : vs[i]->len`
of `t_get_max_vector_len` and of `transpose`. -/
def max_length_loop (vs : Option (List (Option VECTOR_ST))) (len : Nat) : Except Fault Nat :=
  for_loop (fun i m =>
    match vs with
    | none => .error .null_deref
    | some slots =>
      match load slots i with
      | .error e => .error e
      | .ok none => .error .null_deref
      | .ok (some r) => .ok (if m > r.len then m else r.len)) len 0 0

def t_get_max_vector_len (t : Option TABLE_ST) : Except Fault Nat :=
  match t with
  | none => .error .null_deref
  | some x => max_length_loop x.vs x.len

/-- Second loop of `transpose`: `t_append(dst, new_vector())`, `max_length`
times. -/
def transpose_rows (max_length : Nat) (dst : TABLE_ST) : Except Fault TABLE_ST :=
  for_loop (fun _ a => t_append (some a) (some new_vector)) max_length 0 dst

/-- Inner loop of `transpose` for the source row `r`: `for (j = 0;
j < max_length && j < r->len; j++)`, skipping an absent cell and otherwise
appending a copy of the cell to `dst->vs[j]`. -/
def transpose_inner (max_length : Nat) (r : VECTOR_ST) (dst : TABLE_ST) :
    Except Fault TABLE_ST :=
  for_loop (fun j a =>
    match r.strs with
    | none => .error .null_deref
    | some cells =>
      match load cells j with
      | .error e => .error e
      | .ok none => .ok a
      | .ok (some c) =>
        match s_copy (some c) with
        | .error e => .error e
        | .ok cp =>
          match a.vs with
          | none => .error .null_deref
          | some dslots =>
            match load dslots j with
            | .error e => .error e
            | .ok drow =>
              match v_append drow cp with
              | .error e => .error e
              | .ok drow1 => .ok { a with vs := some (dslots.set j (some drow1)) })
    (min max_length r.len) 0 dst

/-- Third loop of `transpose`, over the source rows. -/
def transpose_fill (max_length : Nat) (slots : List (Option VECTOR_ST)) (len : Nat)
    (dst : TABLE_ST) : Except Fault TABLE_ST :=
  for_loop (fun i a =>
    match load slots i with
    | .error e => .error e
    | .ok none => .error .null_deref
    | .ok (some r) => transpose_inner max_length r a) len 0 dst

/-- The call `transpose(src)`: the new Table, or `none` when `check_table`
rejects `src`.  `new_table` is declared without parameters, so the argument
`max_length` the source passes to it has no effect. -/
def transpose (src : Option TABLE_ST) : Except Fault (Option TABLE_ST) :=
  match check_table src with
  | none => .ok none
  | some t =>
    match t.vs with
    | none => .error .null_deref
    | some slots =>
      let len := t.len
      match max_length_loop t.vs len with
      | .error e => .error e
      | .ok max_length =>
        match transpose_rows max_length new_table with
        | .error e => .error e
        | .ok dst0 =>
          match transpose_fill max_length slots len dst0 with
          | .error e => .error e
          | .ok dst =>
            match del_table (some t) with
            | .error e => .error e
            | .ok _ => .ok (some dst)

/-! ## Vocabulary of the statements -/

/-- Logical value of a Text: the bytes `[0, len)` of its buffer. -/
def STRING_ST.content (t : STRING_ST) : List Nat :=
  match t.l with
  | none => []
  | some buf => buf.take t.len

/-- Bytes `[0, mlen)` of the buffer of a Text. -/
def STRING_ST.bytes (t : STRING_ST) : List Nat :=
  match t.l with
  | none => []
  | some buf => buf.take t.mlen

/-- The buffer of a Text is an allocated block of at least `mlen` bytes. -/
def STRING_ST.alloc (t : STRING_ST) : Prop :=
  match t.l with
  | none => False
  | some buf => t.mlen ≤ buf.length

instance (t : STRING_ST) : Decidable t.alloc := by
  unfold STRING_ST.alloc; split <;> infer_instance

/-- Text invariant of the data model: the buffer is allocated,
`capacity ≥ length + 1`, and the byte at index `length` is zero. -/
def STRING_ST.inv (t : STRING_ST) : Prop :=
  match t.l with
  | none => False
  | some buf => t.len + 1 ≤ t.mlen ∧ t.mlen ≤ buf.length ∧ buf[t.len]? = some 0

instance (t : STRING_ST) : Decidable t.inv := by
  unfold STRING_ST.inv; split <;> infer_instance

/-- Slots `[0, len)` of a Row. -/
def VECTOR_ST.elems (v : VECTOR_ST) : List (Option STRING_ST) :=
  match v.strs with
  | none => []
  | some slots => slots.take v.len

/-- The slot array of a Row is an allocated block of at least `mlen` slots and
`length ≤ capacity`. -/
def VECTOR_ST.alloc (v : VECTOR_ST) : Prop :=
  match v.strs with
  | none => False
  | some slots => v.len ≤ v.mlen ∧ v.mlen ≤ slots.length

instance (v : VECTOR_ST) : Decidable v.alloc := by
  unfold VECTOR_ST.alloc; split <;> infer_instance

/-- A Row whose slots below its length are the present Texts `ts`, each
satisfying the Text invariant. -/
def RowRep (v : VECTOR_ST) (ts : List STRING_ST) : Prop :=
  v.alloc ∧ v.elems = ts.map some ∧ ∀ t ∈ ts, t.inv

/-- Logical values of a list of slots, when all of them are present. -/
def contents_of : List (Option STRING_ST) → Option (List (List Nat))
  | [] => some []
  | none :: _ => none
  | some t :: rest =>
    match contents_of rest with
    | none => none
    | some r => some (t.content :: r)

/-- Logical values of the elements of a Row, when all of them are present. -/
def VECTOR_ST.contents (v : VECTOR_ST) : Option (List (List Nat)) :=
  contents_of v.elems

/-- The flush of `parse_delimited_c` on token values: with the continuation
flag the scratch content extends the last token, without it the scratch
content is a new token. -/
def tok_flush (toks : List (List Nat)) (acc : List Nat) (ap : Bool) : List (List Nat) :=
  if ap then toks.dropLast ++ [toks.getLastD [] ++ acc] else toks ++ [acc]

/-- The scan of `parse_delimited_c` on token values: `toks` are the tokens
flushed so far, `acc` the scratch content, `ap` the continuation flag. -/
def tok_loop (d : Nat) : List Nat → List (List Nat) → List Nat → Bool → List (List Nat)
  | [], toks, acc, ap => tok_flush toks acc ap
  | c :: cs, toks, acc, ap =>
    if c = d ∨ acc.length = DEFAULT_MEMORY_LEN - 1 then
      tok_loop d cs (tok_flush toks acc ap) [] (decide (acc.length = DEFAULT_MEMORY_LEN - 1))
    else tok_loop d cs toks (acc ++ [c]) ap

/-- The scratch buffer, holding `i` bytes, is never full when a byte of the
remaining input is read. -/
def never_full (d : Nat) : List Nat → Nat → Prop
  | [], _ => True
  | c :: cs, i =>
    i ≠ DEFAULT_MEMORY_LEN - 1 ∧ (if c = d then never_full d cs 0 else never_full d cs (i + 1))

/-- Appending the bytes of `bs` to a Text one at a time, by successive calls
of `s_append_c`. -/
def s_append_c_list : List Nat → Option STRING_ST → Except Fault (Option STRING_ST)
  | [], dst => .ok dst
  | b :: bs, dst =>
    match s_append_c dst b with
    | .error e => .error e
    | .ok dst1 => s_append_c_list bs dst1

/-- A slot that holds a present Text with an allocated buffer. -/
def slot_full : Option STRING_ST → Prop
  | none => False
  | some t => t.alloc

instance (x : Option STRING_ST) : Decidable (slot_full x) := by
  cases x <;> unfold slot_full <;> infer_instance

/-- A Row whose slots below its length all hold a present Text with an
allocated buffer. -/
def VECTOR_ST.full (v : VECTOR_ST) : Prop :=
  match v.strs with
  | none => False
  | some cells => v.len ≤ cells.length ∧ ∀ x ∈ cells.take v.len, slot_full x

instance (v : VECTOR_ST) : Decidable v.full := by
  unfold VECTOR_ST.full; split <;> infer_instance

/-- The slot `y` holds a copy of the Text in the slot `x`: same length, same
capacity, same bytes `[0, capacity)`. -/
def IsCopySlot (x y : Option STRING_ST) : Prop :=
  ∃ t c, x = some t ∧ y = some c ∧ c.len = t.len ∧ c.mlen = t.mlen ∧ c.bytes = t.bytes
    ∧ c.alloc

/-- A cell that is absent, or holds a Text with an allocated buffer. -/
def cell_alloc : Option STRING_ST → Prop
  | none => True
  | some t => t.alloc

instance (x : Option STRING_ST) : Decidable (cell_alloc x) := by
  cases x <;> unfold cell_alloc <;> infer_instance

/-- A Row whose slot array is present and holds its `len` slots, each of them
absent or a Text with an allocated buffer. -/
def VECTOR_ST.cells_ok (v : VECTOR_ST) : Prop :=
  match v.strs with
  | none => False
  | some cells => v.len ≤ cells.length ∧ ∀ x ∈ cells.take v.len, cell_alloc x

instance (v : VECTOR_ST) : Decidable v.cells_ok := by
  unfold VECTOR_ST.cells_ok; split <;> infer_instance

/-- A present Row that satisfies `cells_ok`. -/
def row_ok : Option VECTOR_ST → Prop
  | none => False
  | some r => r.cells_ok

instance (x : Option VECTOR_ST) : Decidable (row_ok x) := by
  cases x <;> unfold row_ok <;> infer_instance

/-- A Table whose row array is present and holds its `len` rows, all of them
present and satisfying `cells_ok`. -/
def TABLE_ST.rows_ok (t : TABLE_ST) : Prop :=
  match t.vs with
  | none => False
  | some slots => t.len ≤ slots.length ∧ ∀ x ∈ slots.take t.len, row_ok x

instance (t : TABLE_ST) : Decidable t.rows_ok := by
  unfold TABLE_ST.rows_ok; split <;> infer_instance

/-- The present rows of a Table, in order. -/
def TABLE_ST.rows (t : TABLE_ST) : List VECTOR_ST :=
  match t.vs with
  | none => []
  | some slots => (slots.take t.len).filterMap id

/-- The greatest row length, 0 for no rows. -/
def max_len (rs : List VECTOR_ST) : Nat :=
  (rs.map VECTOR_ST.len).foldr max 0

/-- The present cells `(i, j)` of the rows `i` with `j < length (row i)`, in row
order. -/
def column (j : Nat) (rs : List VECTOR_ST) : List STRING_ST :=
  rs.filterMap (fun r => r.elems[j]?.join)

/-- A run of steps `f x` over the elements `x` of a list, stopping at the
first fault. -/
def fold_steps {α σ : Type} (f : α → σ → Except Fault σ) : List α → σ → Except Fault σ
  | [], s => .ok s
  | x :: xs, s =>
    match f x s with
    | .error e => .error e
    | .ok s1 => fold_steps f xs s1

/-- The destination of `transpose` while it is filled: `m` rows, all present,
row `j` holding copies of the cells `f j`. -/
def ColRep (d : TABLE_ST) (m : Nat) (f : Nat → List (Option STRING_ST)) : Prop :=
  ∃ dslots, d.vs = some dslots ∧ d.len = m ∧ d.len ≤ d.mlen ∧ d.mlen ≤ dslots.length
    ∧ ∀ j < m, ∃ row, dslots[j]? = some (some row) ∧ row.alloc
        ∧ List.Forall₂ IsCopySlot (f j) row.elems

/-- The cell a Row contributes to a column: the Text of the slot when the
slot exists and is present, nothing otherwise. -/
def cell_list : Option (Option STRING_ST) → List (Option STRING_ST)
  | some (some t) => [some t]
  | _ => []

/-- A slot that holds a present Text with an allocated buffer and
`length ≤ capacity`. -/
def text_valid : Option STRING_ST → Prop
  | none => False
  | some t => t.alloc ∧ t.len ≤ t.mlen

instance (x : Option STRING_ST) : Decidable (text_valid x) := by
  cases x <;> unfold text_valid <;> infer_instance

/-- A Row of length `k` whose `k` cells are all present valid Texts. -/
def VECTOR_ST.rect_row (v : VECTOR_ST) (k : Nat) : Prop :=
  match v.strs with
  | none => False
  | some cells => v.len = k ∧ k ≤ cells.length ∧ ∀ x ∈ cells.take k, text_valid x

instance (v : VECTOR_ST) (k : Nat) : Decidable (v.rect_row k) := by
  unfold VECTOR_ST.rect_row; split <;> infer_instance

/-- A present Row that satisfies `rect_row k`. -/
def rect_slot (k : Nat) : Option VECTOR_ST → Prop
  | none => False
  | some r => r.rect_row k

instance (k : Nat) (x : Option VECTOR_ST) : Decidable (rect_slot k x) := by
  cases x <;> unfold rect_slot <;> infer_instance

/-- A Table whose `len` rows are all present and all have length `k`, every
cell being a present valid Text. -/
def TABLE_ST.rect (t : TABLE_ST) (k : Nat) : Prop :=
  match t.vs with
  | none => False
  | some slots => t.len ≤ slots.length ∧ ∀ x ∈ slots.take t.len, rect_slot k x

instance (t : TABLE_ST) (k : Nat) : Decidable (t.rect k) := by
  unfold TABLE_ST.rect; split <;> infer_instance

/-- The slots `x` and `y` hold Texts with the same length, capacity, bytes
`[0, capacity)` and content. -/
def SameText (x y : Option STRING_ST) : Prop :=
  ∃ a b, x = some a ∧ y = some b ∧ b.len = a.len ∧ b.mlen = a.mlen ∧ b.bytes = a.bytes
    ∧ b.content = a.content

/-- The bytes of `bs` without those at a 0-based position `p` with
`p mod 256 = 255`. -/
def drop_boundary_bytes (bs : List Nat) : List Nat :=
  (bs.enum.filter (fun p => decide (p.1 % 256 ≠ 255))).map Prod.snd

/-- The bytes of `cs` that the scan stores when it starts with `i` bytes in the
scratch buffer and meets no delimiter: the byte read at `i = 255` is skipped. -/
def keep_bytes : Nat → List Nat → List Nat
  | _, [] => []
  | i, c :: cs =>
    if i = DEFAULT_MEMORY_LEN - 1 then keep_bytes 0 cs else c :: keep_bytes (i + 1) cs

/-- A Row with `length ≤ capacity`, a slot array of at least `capacity` slots,
and every slot at an index `≥ length` absent (as `calloc` leaves it). -/
def VECTOR_ST.spare_absent (v : VECTOR_ST) : Prop :=
  match v.strs with
  | none => False
  | some slots => v.len ≤ v.mlen ∧ v.mlen ≤ slots.length ∧ ∀ x ∈ slots.drop v.len, x = none

instance (v : VECTOR_ST) : Decidable v.spare_absent := by
  unfold VECTOR_ST.spare_absent; split <;> infer_instance

/-- A Table with `length ≤ capacity`, a row array of at least `capacity` slots,
and every slot at an index `≥ length` absent. -/
def TABLE_ST.spare_absent (t : TABLE_ST) : Prop :=
  match t.vs with
  | none => False
  | some rows => t.len ≤ t.mlen ∧ t.mlen ≤ rows.length ∧ ∀ x ∈ rows.drop t.len, x = none

instance (t : TABLE_ST) : Decidable t.spare_absent := by
  unfold TABLE_ST.spare_absent; split <;> infer_instance

/-- The Texts the library produces: results of the constructors (`new_empty_str_s`
with a requested capacity of at least 1), of `s_concat` with at least one
present source, of `s_copy`, and of `s_append_c` and `s_append_l` applied
to a produced Text. -/
inductive TextProduced : STRING_ST → Prop where
  | empty : TextProduced new_empty_str
  | empty_s (sz : Nat) : 1 ≤ sz → TextProduced (new_empty_str_s sz)
  | str (lit : List Nat) (t : STRING_ST) : new_str lit = .ok (some t) → TextProduced t
  | str_s (lit : List Nat) (h : Nat) (t : STRING_ST) :
      new_str_s lit h = .ok (some t) → TextProduced t
  | concat (srcs : List (Option STRING_ST)) (t : STRING_ST) :
      (∀ x ∈ srcs.filterMap id, TextProduced x) → srcs.filterMap id ≠ [] →
      s_concat srcs = .ok (some t) → TextProduced t
  | copy (s t : STRING_ST) : TextProduced s → s_copy (some s) = .ok (some t) → TextProduced t
  | append_c (s : STRING_ST) (b : Nat) (t : STRING_ST) :
      TextProduced s → s.len < SIZE_MOD → s_append_c (some s) b = .ok (some t) →
      TextProduced t
  | append_l (s : STRING_ST) (lit : List Nat) (t : STRING_ST) :
      TextProduced s → s_append_l (some s) lit = .ok (some t) → TextProduced t

/-- The row array of a Table is an allocated block of at least `mlen` slots and
`length ≤ capacity`. -/
def TABLE_ST.alloc (t : TABLE_ST) : Prop :=
  match t.vs with
  | none => False
  | some rows => t.len ≤ t.mlen ∧ t.mlen ≤ rows.length

instance (t : TABLE_ST) : Decidable t.alloc := by
  unfold TABLE_ST.alloc; split <;> infer_instance

/-- A present Row with `length ≤ capacity` whose slots below its length all
hold a present Text with an allocated buffer. -/
def copy_row_ok : Option VECTOR_ST → Prop
  | none => False
  | some r => r.full ∧ r.len ≤ r.mlen

instance (x : Option VECTOR_ST) : Decidable (copy_row_ok x) := by
  cases x <;> unfold copy_row_ok <;> infer_instance

/-- A Table with `length ≤ capacity` whose row array holds its `len` rows, each
of them satisfying `copy_row_ok`. -/
def TABLE_ST.copyable (t : TABLE_ST) : Prop :=
  match t.vs with
  | none => False
  | some rows => t.len ≤ t.mlen ∧ t.len ≤ rows.length ∧ ∀ x ∈ rows.take t.len, copy_row_ok x

instance (t : TABLE_ST) : Decidable t.copyable := by
  unfold TABLE_ST.copyable; split <;> infer_instance

/-- A Table whose spare slots are absent and whose rows all have their spare
slots absent. -/
def TABLE_ST.rows_spare_absent (t : TABLE_ST) : Prop :=
  t.spare_absent ∧ ∀ r ∈ t.rows, r.spare_absent

instance (t : TABLE_ST) : Decidable t.rows_spare_absent := by
  unfold TABLE_ST.rows_spare_absent; infer_instance

/-! ## Memory blocks and Text appends -/

theorem load_ok {α : Type} {blk : List α} {i : Nat} {x : α} (h : blk[i]? = some x) :
    load blk i = .ok x := by
  simp [load, h]

theorem store_ok {α : Type} {blk : List α} {i : Nat} (x : α) (h : i < blk.length) :
    store blk i x = .ok (blk.set i x) := by
  simp [store, h]

theorem memcpy_ok {α : Type} (dst src : List α) (n : Nat) (h1 : n ≤ src.length)
    (h2 : n ≤ dst.length) : memcpy dst src n = .ok (src.take n ++ dst.drop n) := by
  simp [memcpy, h1, h2]

theorem strlen_ok (bs rest : List Nat) (h0 : 0 ∉ bs) :
    strlen (bs ++ 0 :: rest) = .ok bs.length := by
  induction bs with
  | nil => simp [strlen]
  | cons b bs ih =>
    have hb : b ≠ 0 := by
      intro h; apply h0; simp [h]
    have h0b : 0 ∉ bs := by
      intro h; apply h0; simp [h]
    simp [strlen, hb, ih h0b]

/-- The copy loop of `s_append_l` writes `src[i .. i + k)` to
`buf[i + olen .. i + olen + k)`. -/
theorem for_loop_copy (src : List Nat) (olen : Nat) :
    ∀ (k i : Nat) (buf : List Nat), i + k ≤ src.length → i + olen + k ≤ buf.length →
      for_loop (fun i b =>
        match load src i with
        | .error e => .error e
        | .ok c => store b (i + olen) c) k i buf
      = .ok (buf.take (i + olen) ++ (src.drop i).take k ++ buf.drop (i + olen + k)) := by
  intro k
  induction k with
  | zero => intro i buf _ _; simp [for_loop]
  | succ k ih =>
    intro i buf h1 h2
    have hi : i < src.length := by omega
    have hload : load src i = .ok src[i] := by
      apply load_ok; simp [hi]
    have hb : i + olen < buf.length := by omega
    simp only [for_loop, hload, store_ok _ hb]
    rw [ih (i + 1) _ (by omega) (by simp; omega)]
    congr 1
    have e1 : (buf.set (i + olen) (src[i])).take (i + 1 + olen)
        = buf.take (i + olen) ++ [src[i]] := by
      rw [List.set_eq_take_append_cons_drop, if_pos hb, show i + 1 + olen = (i + olen) + 1 by omega]
      rw [List.take_append_eq_append_take]
      simp [List.take_take, List.length_take, Nat.min_eq_left (Nat.le_of_lt hb)]
    have e2 : (buf.set (i + olen) (src[i])).drop (i + 1 + olen + k)
        = buf.drop (i + olen + (k + 1)) := by
      rw [List.drop_set_of_lt _ _ (by omega)]
      congr 1; omega
    have e3 : (src.drop i).take (k + 1) = src[i] :: (src.drop (i + 1)).take k := by
      rw [List.drop_eq_getElem_cons hi, List.take_succ_cons]
    rw [e1, e2, e3]; simp

theorem s_append_l_copy_ok (src : List Nat) (olen n : Nat) (buf : List Nat)
    (h1 : n ≤ src.length) (h2 : olen + n ≤ buf.length) :
    s_append_l_copy src olen n buf
      = .ok (buf.take olen ++ src.take n ++ buf.drop (olen + n)) := by
  unfold s_append_l_copy
  rw [for_loop_copy src olen n 0 buf (by omega) (by omega)]
  simp

/-- The two writing steps of `s_append_l` (copy loop, then the terminator) on
a block with room for them. -/
theorem s_append_l_write (bs rest : List Nat) (olen : Nat) (buf1 : List Nat)
    (h : olen + bs.length + 1 ≤ buf1.length) :
    ∃ buf3, (match s_append_l_copy (bs ++ 0 :: rest) olen bs.length buf1 with
        | Except.error e => Except.error e
        | Except.ok buf2 => store buf2 (olen + bs.length) 0)
        = (Except.ok buf3 : Except Fault (List Nat))
      ∧ buf3.take (olen + bs.length + 1) = buf1.take olen ++ bs ++ [0]
      ∧ buf3.length = buf1.length := by
  rw [s_append_l_copy_ok _ _ _ _ (by simp) (by omega)]
  have hlen2 : (buf1.take olen ++ (bs ++ 0 :: rest).take bs.length
      ++ buf1.drop (olen + bs.length)).length = buf1.length := by
    simp [List.length_take, List.length_drop]; omega
  refine ⟨_, store_ok 0 (by rw [hlen2]; omega), ?_, by rw [List.length_set]; exact hlen2⟩
  rw [List.take_left' rfl]
  have hpre : (buf1.take olen ++ bs).length = olen + bs.length := by
    simp [List.length_take]; omega
  rw [List.set_append_right _ _ (by rw [hpre])]
  rw [hpre, Nat.sub_self, List.take_append_eq_append_take, hpre]
  simp only [Nat.add_sub_cancel_left]
  rw [List.take_of_length_le (by rw [hpre]; omega)]
  have hd : buf1.drop (olen + bs.length) ≠ [] := by
    intro hnil
    have := congrArg List.length hnil
    simp [List.length_drop] at this; omega
  obtain ⟨x, xs, hx⟩ := List.exists_cons_of_ne_nil hd
  rw [hx]; simp

/-- Effect of `s_append_l` on a Text whose buffer is allocated: the literal's
bytes up to its terminator are appended, with tight-fit growth. -/
theorem s_append_l_ok (t : STRING_ST) (buf bs rest : List Nat) (hl : t.l = some buf)
    (hlen : t.len ≤ t.mlen) (hm : t.mlen ≤ buf.length) (h0 : 0 ∉ bs) :
    ∃ buf3, s_append_l (some t) (bs ++ 0 :: rest)
        = .ok (some { l := some buf3, len := t.len + bs.length,
                      mlen := if t.len + bs.length ≥ t.mlen then t.len + bs.length + 1
                              else t.mlen })
      ∧ buf3.take (t.len + bs.length + 1) = buf.take t.len ++ bs ++ [0]
      ∧ (if t.len + bs.length ≥ t.mlen then t.len + bs.length + 1 else t.mlen)
          ≤ buf3.length := by
  by_cases hg : t.len + bs.length ≥ t.mlen
  · have hcpy := memcpy_ok (List.replicate (t.len + bs.length + 1) 0) buf
      t.mlen hm (by simp; omega)
    obtain ⟨buf3, hw, htake, hlen3⟩ := s_append_l_write bs rest t.len
      (buf.take t.mlen ++ (List.replicate (t.len + bs.length + 1) 0).drop t.mlen)
      (by simp [List.length_take]; omega)
    refine ⟨buf3, ?_, ?_, ?_⟩
    · simp only [s_append_l, hl, strlen_ok bs rest h0, hg, if_true, hcpy]
      revert hw
      cases s_append_l_copy (bs ++ 0 :: rest) t.len bs.length
        (buf.take t.mlen ++ (List.replicate (t.len + bs.length + 1) 0).drop t.mlen) with
      | error e => intro hw; cases hw
      | ok b2 =>
        intro hw
        simp only at hw
        simp only [hw]
    · rw [htake, List.take_append_eq_append_take, List.take_take,
        Nat.min_eq_left hlen]
      simp [List.length_take, Nat.min_eq_left hm, Nat.sub_eq_zero_of_le hlen]
    · simp only [hg, if_true, hlen3]
      simp [List.length_take]; omega
  · have hlt : t.len + bs.length + 1 ≤ buf.length := by omega
    obtain ⟨buf3, hw, htake, hlen3⟩ := s_append_l_write bs rest t.len buf hlt
    refine ⟨buf3, ?_, htake, ?_⟩
    · simp only [s_append_l, hl, strlen_ok bs rest h0, hg, if_false]
      revert hw
      cases s_append_l_copy (bs ++ 0 :: rest) t.len bs.length buf with
      | error e => intro hw; cases hw
      | ok b2 =>
        intro hw
        simp only at hw
        simp only [hw]
    · simp only [hg, if_false, hlen3]; exact hm

/-! ## Row appends and the tokenizer loop -/

theorem take_set_succ {α : Type} (l : List α) (i : Nat) (x : α) (h : i < l.length) :
    (l.set i x).take (i + 1) = l.take i ++ [x] := by
  rw [List.set_eq_take_append_cons_drop, if_pos h, List.take_append_eq_append_take]
  simp [List.take_take, List.length_take, Nat.min_eq_left (Nat.le_of_lt h)]

theorem s_append_l_spec (t : STRING_ST) (bs rest : List Nat) (ha : t.alloc)
    (hlen : t.len ≤ t.mlen) (h0 : 0 ∉ bs) :
    ∃ t1, s_append_l (some t) (bs ++ 0 :: rest) = .ok (some t1)
      ∧ t1.len = t.len + bs.length
      ∧ t1.mlen = (if t.len + bs.length ≥ t.mlen then t.len + bs.length + 1 else t.mlen)
      ∧ t1.content = t.content ++ bs
      ∧ t1.inv := by
  unfold STRING_ST.alloc at ha
  cases hl : t.l with
  | none => simp [hl] at ha
  | some buf =>
    simp only [hl] at ha
    obtain ⟨buf3, hr, htake, hcap⟩ := s_append_l_ok t buf bs rest hl hlen ha h0
    have hlen3 : t.len + bs.length + 1 ≤ buf3.length := by
      split at hcap <;> omega
    have htl : (buf.take t.len).length = t.len := by
      simp [List.length_take]; omega
    refine ⟨_, hr, rfl, rfl, ?_, ?_⟩
    · simp only [STRING_ST.content, hl]
      have := congrArg (List.take (t.len + bs.length)) htake
      rw [List.take_take, Nat.min_eq_left (Nat.le_succ _)] at this
      rw [this, List.take_append_eq_append_take]
      simp [htl]
    · simp only [STRING_ST.inv]
      refine ⟨by split <;> omega, hcap, ?_⟩
      have h1 : (buf3.take (t.len + bs.length + 1))[t.len + bs.length]? = some 0 := by
        rw [htake, List.getElem?_append_right (by simp [htl])]
        simp [htl]
      rw [List.getElem?_take] at h1
      simpa using h1

theorem v_append_ok (v : VECTOR_ST) (slots : List (Option STRING_ST)) (x : Option STRING_ST)
    (hs : v.strs = some slots) (h1 : v.len ≤ v.mlen) (h2 : v.mlen ≤ slots.length) :
    ∃ slots1, v_append (some v) x
        = .ok { strs := some slots1, len := v.len + 1,
                mlen := if v.len + 1 > v.mlen then v.len + 1 else v.mlen }
      ∧ slots1.take (v.len + 1) = slots.take v.len ++ [x]
      ∧ (if v.len + 1 > v.mlen then v.len + 1 else v.mlen) ≤ slots1.length
      ∧ (v.len + 1 ≤ v.mlen → slots1 = slots.set v.len x) := by
  by_cases hg : v.len + 1 > v.mlen
  · have hcpy := memcpy_ok (List.replicate (v.len + 1 + 1) (none : Option STRING_ST))
      slots v.mlen h2 (by simp; omega)
    have hlen1 : (slots.take v.mlen
        ++ (List.replicate (v.len + 1 + 1) (none : Option STRING_ST)).drop v.mlen).length
        = v.len + 2 := by
      simp [List.length_take]; omega
    refine ⟨(slots.take v.mlen
        ++ (List.replicate (v.len + 1 + 1) (none : Option STRING_ST)).drop v.mlen).set v.len x,
      ?_, ?_, ?_, ?_⟩
    · simp only [v_append, hs, hg, if_true, hcpy, Nat.add_sub_cancel]
      rw [store_ok x (by rw [hlen1]; omega)]
    · rw [take_set_succ _ _ _ (by rw [hlen1]; omega), List.take_append_eq_append_take,
        List.take_take]
      have : v.len = v.mlen := by omega
      simp [this, List.length_take, Nat.min_eq_left h2]
    · simp only [hg, if_true, List.length_set, hlen1]; omega
    · intro h; omega
  · have hlt : v.len < slots.length := by omega
    refine ⟨slots.set v.len x, ?_, take_set_succ _ _ _ hlt, ?_, fun _ => rfl⟩
    · simp only [v_append, hs, hg, if_false, Nat.add_sub_cancel]
      rw [store_ok x hlt]
    · simp only [hg, if_false, List.length_set]; exact h2

theorem RowRep.len_eq {v : VECTOR_ST} {ts : List STRING_ST} (h : RowRep v ts) :
    v.len = ts.length := by
  obtain ⟨ha, he, _⟩ := h
  unfold VECTOR_ST.alloc at ha
  unfold VECTOR_ST.elems at he
  cases hs : v.strs with
  | none => simp [hs] at ha
  | some slots =>
    simp only [hs] at ha he
    have := congrArg List.length he
    simp [List.length_take] at this
    omega

theorem v_append_rep (v : VECTOR_ST) (ts : List STRING_ST) (t : STRING_ST)
    (h : RowRep v ts) (ht : t.inv) :
    ∃ v1, v_append (some v) (some t) = .ok v1 ∧ RowRep v1 (ts ++ [t]) := by
  obtain ⟨ha, he, hi⟩ := h
  unfold VECTOR_ST.alloc at ha
  unfold VECTOR_ST.elems at he
  cases hs : v.strs with
  | none => simp [hs] at ha
  | some slots =>
    simp only [hs] at ha he
    obtain ⟨slots1, hr, htake, hcap, _⟩ := v_append_ok v slots (some t) hs ha.1 ha.2
    refine ⟨_, hr, ?_, ?_, ?_⟩
    · simp only [VECTOR_ST.alloc]
      exact ⟨by split <;> omega, hcap⟩
    · simp only [VECTOR_ST.elems, htake, he]; simp
    · intro u hu
      rcases List.mem_append.mp hu with h1 | h1
      · exact hi u h1
      · simp at h1; rw [h1]; exact ht

theorem size_pred_eq (n : Nat) (h1 : 1 ≤ n) (h2 : n ≤ SIZE_MOD) : size_pred n = n - 1 := by
  unfold size_pred
  have e : n + SIZE_MOD - 1 = (n - 1) + SIZE_MOD := by omega
  rw [e, Nat.add_mod_right, Nat.mod_eq_of_lt (by omega)]

theorem new_empty_str_alloc : new_empty_str.alloc ∧ new_empty_str.len ≤ new_empty_str.mlen
    ∧ new_empty_str.len = 0 ∧ new_empty_str.content = [] := by
  refine ⟨?_, Nat.zero_le _, rfl, ?_⟩
  · show DEFAULT_MEMORY_LEN ≤ (List.replicate (DEFAULT_MEMORY_LEN * SIZEOF_SIZE_T) 0).length
    rw [List.length_replicate]
    exact Nat.le_mul_of_pos_right _ (by decide)
  · show List.take 0 (List.replicate (DEFAULT_MEMORY_LEN * SIZEOF_SIZE_T) 0) = []
    rfl

theorem contents_of_map_some (ts : List STRING_ST) :
    contents_of (ts.map some) = some (ts.map STRING_ST.content) := by
  induction ts with
  | nil => rfl
  | cons t ts ih => simp [contents_of, ih]

theorem RowRep.contents_eq {v : VECTOR_ST} {ts : List STRING_ST} (h : RowRep v ts) :
    v.contents = some (ts.map STRING_ST.content) := by
  unfold VECTOR_ST.contents
  rw [h.2.1, contents_of_map_some]

theorem parse_flush_rep (v : VECTOR_ST) (ts : List STRING_ST) (acc rest : List Nat)
    (ap : Bool) (hv : RowRep v ts) (h0 : 0 ∉ acc)
    (hap : ap = true → ts ≠ [] ∧ ts.length ≤ SIZE_MOD) :
    ∃ v1 ts1, parse_flush v (acc ++ 0 :: rest) ap = .ok v1 ∧ RowRep v1 ts1
      ∧ ts1.map STRING_ST.content = tok_flush (ts.map STRING_ST.content) acc ap
      ∧ ts1.length ≤ ts.length + 1 ∧ ts1 ≠ [] := by
  cases ap with
  | false =>
    obtain ⟨ha, hle, hz, hc⟩ := new_empty_str_alloc
    obtain ⟨t1, hr, _, _, hcont, hinv⟩ := s_append_l_spec new_empty_str acc rest ha hle h0
    obtain ⟨v1, hr1, hrep⟩ := v_append_rep v ts t1 hv hinv
    refine ⟨v1, ts ++ [t1], ?_, hrep, ?_, by simp, by simp⟩
    · simp [parse_flush, new_str, hr, hr1]
    · simp [tok_flush, hcont, hc]
  | true =>
    obtain ⟨hne, hsz⟩ := hap rfl
    have hvlen := hv.len_eq
    obtain ⟨ha, he, hi⟩ := hv
    unfold VECTOR_ST.alloc at ha
    unfold VECTOR_ST.elems at he
    cases hs : v.strs with
    | none => simp [hs] at ha
    | some slots =>
      simp only [hs] at ha he
      obtain ⟨ts0, tl, rfl⟩ : ∃ ts0 tl, ts = ts0 ++ [tl] :=
        ⟨ts.dropLast, ts.getLast hne, (List.dropLast_append_getLast hne).symm⟩
      have hlen : v.len = ts0.length + 1 := by simpa using hvlen
      have hidx : size_pred (v_get_len (some v)) = ts0.length := by
        simp only [v_get_len]
        rw [size_pred_eq _ (by omega) (by simp at hsz; omega)]; omega
      have hslot : slots[ts0.length]? = some (some tl) := by
        have h1 : (slots.take v.len)[ts0.length]? = some (some tl) := by
          rw [he]; simp
        rw [List.getElem?_take] at h1
        simpa [hlen] using h1
      have htl : tl.inv := hi tl (by simp)
      have htl2 := htl
      unfold STRING_ST.inv at htl2
      cases hb : tl.l with
      | none => simp [hb] at htl2
      | some buf =>
        simp only [hb] at htl2
        have hal : tl.alloc := by simp [STRING_ST.alloc, hb, htl2.2.1]
        obtain ⟨t1, hr, _, _, hcont, hinv⟩ :=
          s_append_l_spec tl acc rest hal (by omega) h0
        have hlt : ts0.length < slots.length := by omega
        refine ⟨{ v with strs := some (slots.set ts0.length (some t1)) }, ts0 ++ [t1],
          ?_, ⟨?_, ?_, ?_⟩, ?_, by simp, by simp⟩
        · simp [parse_flush, hidx, v_get_str, hs, load_ok hslot, hr]
        · simp only [VECTOR_ST.alloc, List.length_set]; exact ha
        · simp only [VECTOR_ST.elems, hlen]
          rw [take_set_succ _ _ _ hlt]
          have h2 := congrArg (List.take ts0.length) he
          rw [List.take_take, hlen, Nat.min_eq_left (Nat.le_succ _)] at h2
          rw [h2]; simp
        · intro u hu
          rcases List.mem_append.mp hu with h1 | h1
          · exact hi u (by simp [h1])
          · simp at h1; rw [h1]; exact hinv
        · simp [tok_flush, hcont]

theorem replicate_scratch (n : Nat) (h : n ≤ 255) :
    List.replicate (DEFAULT_MEMORY_LEN - n) 0 = 0 :: List.replicate (255 - n) 0 := by
  have e : DEFAULT_MEMORY_LEN - n = (255 - n) + 1 := by
    simp only [DEFAULT_MEMORY_LEN]; omega
  rw [e, List.replicate_succ]

theorem scratch_store (acc : List Nat) (c : Nat) (h : acc.length < 255) :
    (acc ++ List.replicate (DEFAULT_MEMORY_LEN - acc.length) 0).set acc.length c
      = (acc ++ [c]) ++ List.replicate (DEFAULT_MEMORY_LEN - (acc ++ [c]).length) 0 := by
  rw [replicate_scratch _ (Nat.le_of_lt h), List.set_append_right _ _ (Nat.le_refl _),
    Nat.sub_self, List.set_cons_zero]
  have e : DEFAULT_MEMORY_LEN - (acc ++ [c]).length = 255 - acc.length := by
    simp only [DEFAULT_MEMORY_LEN, List.length_append, List.length_singleton]; omega
  rw [e]; simp

theorem tok_flush_length (toks : List (List Nat)) (acc : List Nat) (ap : Bool)
    (h : ap = true → toks ≠ []) :
    (tok_flush toks acc ap).length = toks.length + (if ap = true then 0 else 1) := by
  cases ap with
  | false => simp [tok_flush]
  | true =>
    have hne := h rfl
    have hpos : 0 < toks.length := List.length_pos.mpr hne
    simp [tok_flush, List.length_dropLast]
    omega

/-- Simulation of the scan and the final flush of `parse_delimited_c` by
`tok_loop`.  The number of Row elements never exceeds the number of delimiters
left to read plus the elements present plus one, which bounds the index
`v_get_len(v) - 1` of the continuation flush. -/
theorem parse_loop_sim (d : Nat) (rest : List Nat) :
    ∀ (cs : List Nat) (st : ParseState) (ts : List STRING_ST) (acc : List Nat),
      0 ∉ cs → RowRep st.v ts →
      st.l = acc ++ List.replicate (DEFAULT_MEMORY_LEN - acc.length) 0 →
      st.i = acc.length → acc.length ≤ 255 → 0 ∉ acc →
      (st.append = true → ts ≠ []) →
      (ts.length + cs.count d + (if st.append = true then 0 else 1) ≤ SIZE_MOD
        ∨ (st.append = false ∧ never_full d cs acc.length)) →
      ∃ v1 ts1, (match parse_loop d (cs ++ 0 :: rest) st with
          | Except.error e => Except.error e
          | Except.ok st1 => parse_flush st1.v st1.l st1.append) = Except.ok v1
        ∧ RowRep v1 ts1
        ∧ ts1.map STRING_ST.content = tok_loop d cs (ts.map STRING_ST.content) acc st.append := by
  intro cs
  induction cs with
  | nil =>
    intro st ts acc _ hv hl hi hacc h0 hap hb
    have hpre : st.append = true → ts ≠ [] ∧ ts.length ≤ SIZE_MOD := by
      intro h
      refine ⟨hap h, ?_⟩
      rcases hb with hb | hb
      · omega
      · simp [h] at hb
    rw [replicate_scratch _ hacc] at hl
    obtain ⟨v1, ts1, hr, hrep, hc, _, _⟩ :=
      parse_flush_rep st.v ts acc _ st.append hv h0 hpre
    refine ⟨v1, ts1, ?_, hrep, ?_⟩
    · simp only [List.nil_append, parse_loop, if_true]
      rw [hl]; exact hr
    · simpa [tok_loop] using hc
  | cons c cs ih =>
    intro st ts acc hz hv hl hi hacc h0 hap hb
    have hc0 : c ≠ 0 := by
      intro h; apply hz; simp [h]
    have hz1 : 0 ∉ cs := by
      intro h; apply hz; simp [h]
    have hd255 : DEFAULT_MEMORY_LEN - 1 = 255 := rfl
    by_cases hcond : c = d ∨ acc.length = DEFAULT_MEMORY_LEN - 1
    · have hpre : st.append = true → ts ≠ [] ∧ ts.length ≤ SIZE_MOD := by
        intro h
        refine ⟨hap h, ?_⟩
        rcases hb with hb | hb
        · omega
        · simp [h] at hb
      have hl1 := hl
      rw [replicate_scratch _ hacc] at hl1
      obtain ⟨v1, ts1, hr, hrep, hc, hlen1, hne1⟩ :=
        parse_flush_rep st.v ts acc _ st.append hv h0 hpre
      rw [← hl1] at hr
      have hstep := ih
        { v := v1, l := List.replicate DEFAULT_MEMORY_LEN 0,
          append := decide (st.i = DEFAULT_MEMORY_LEN - 1), i := 0 } ts1 [] hz1 hrep
        (by simp) rfl (by simp) (by simp) (fun _ => hne1)
        (by
          rcases hb with hb | hb
          · left
            have hlen2 := congrArg List.length hc
            rw [List.length_map, tok_flush_length _ _ _ (by
              intro h; simpa using hap h), List.length_map] at hlen2
            have hcnt := List.count_le_count_cons d c cs
            by_cases h255 : acc.length = DEFAULT_MEMORY_LEN - 1
            · have hdec : decide (st.i = DEFAULT_MEMORY_LEN - 1) = true := by
                simp [hi, h255]
              rw [hdec]
              show ts1.length + List.count d cs + 0 ≤ SIZE_MOD
              omega
            · have hdec : decide (st.i = DEFAULT_MEMORY_LEN - 1) = false := by
                simp [hi, h255]
              have hcd : c = d := by
                rcases hcond with h | h
                · exact h
                · exact absurd h h255
              rw [hcd, List.count_cons_self] at hb
              rw [hdec]
              show ts1.length + List.count d cs + 1 ≤ SIZE_MOD
              omega
          · right
            obtain ⟨hap0, hnf⟩ := hb
            simp only [never_full] at hnf
            obtain ⟨hne, hnf⟩ := hnf
            have hcd : c = d := by
              rcases hcond with h | h
              · exact h
              · exact absurd h hne
            simp only [hcd, if_true] at hnf
            refine ⟨?_, hnf⟩
            simp [hi, hne])
      obtain ⟨v2, ts2, hr2, hrep2, hc2⟩ := hstep
      refine ⟨v2, ts2, ?_, hrep2, ?_⟩
      · have hcond1 : c = d ∨ st.i = DEFAULT_MEMORY_LEN - 1 := by rw [hi]; exact hcond
        simp only [List.cons_append, parse_loop, hc0, if_false, hcond1, if_true, hr]
        exact hr2
      · rw [hc2, hc]
        simp only [tok_loop, hcond, if_true, hi]
    · have hlt : acc.length < 255 := by
        have : acc.length ≠ 255 := fun h => hcond (Or.inr (by rw [hd255]; exact h))
        omega
      have hstore : store st.l st.i c = .ok (st.l.set st.i c) := by
        apply store_ok
        rw [hl, hi]; simp [DEFAULT_MEMORY_LEN]; omega
      have hstep := ih
        { st with l := st.l.set st.i c, i := st.i + 1 } ts (acc ++ [c]) hz1 hv
        (by simp only [hl, hi]; exact scratch_store acc c hlt)
        (by simp [hi]) (by simp; omega)
        (by
          intro h
          rcases List.mem_append.mp h with h | h
          · exact h0 h
          · simp at h; exact hc0 h.symm)
        hap
        (by
          rcases hb with hb | hb
          · left
            have hcd : d ≠ c := fun h => hcond (Or.inl h.symm)
            rw [List.count_cons_of_ne hcd] at hb
            exact hb
          · right
            obtain ⟨hap0, hnf⟩ := hb
            simp only [never_full] at hnf
            obtain ⟨_, hnf⟩ := hnf
            have hcd : ¬ c = d := fun h => hcond (Or.inl h)
            simp only [hcd, if_false] at hnf
            refine ⟨hap0, ?_⟩
            simpa using hnf)
      obtain ⟨v2, ts2, hr2, hrep2, hc2⟩ := hstep
      refine ⟨v2, ts2, ?_, hrep2, ?_⟩
      · have hcond1 : ¬ (c = d ∨ st.i = DEFAULT_MEMORY_LEN - 1) := by rw [hi]; exact hcond
        simp only [List.cons_append, parse_loop, hc0, if_false, hcond1, hstore]
        exact hr2
      · rw [hc2]
        simp only [tok_loop, hcond, if_false]

/-- Simulation of the scan and the final flush of `parse_delimited_c` by
`tok_loop`. -/
theorem parse_loop_rep (d : Nat) (rest : List Nat) :
    ∀ (cs : List Nat) (st : ParseState) (ts : List STRING_ST) (acc : List Nat),
      0 ∉ cs → RowRep st.v ts →
      st.l = acc ++ List.replicate (DEFAULT_MEMORY_LEN - acc.length) 0 →
      st.i = acc.length → acc.length ≤ 255 → 0 ∉ acc →
      (st.append = true → ts ≠ []) →
      (ts.length + cs.length < SIZE_MOD ∨ (st.append = false ∧ never_full d cs acc.length)) →
      ∃ v1 ts1, (match parse_loop d (cs ++ 0 :: rest) st with
          | Except.error e => Except.error e
          | Except.ok st1 => parse_flush st1.v st1.l st1.append) = Except.ok v1
        ∧ RowRep v1 ts1
        ∧ ts1.map STRING_ST.content = tok_loop d cs (ts.map STRING_ST.content) acc st.append := by
  intro cs st ts acc hz hv hl hi hacc h0 hap hb
  refine parse_loop_sim d rest cs st ts acc hz hv hl hi hacc h0 hap ?_
  rcases hb with hb | hb
  · left
    have hcnt := List.count_le_length d cs
    split <;> omega
  · exact Or.inr hb

theorem new_vector_rep : RowRep new_vector [] := by
  refine ⟨?_, ?_, by simp⟩
  · show (0 : Nat) ≤ DEFAULT_MEMORY_LEN
      ∧ DEFAULT_MEMORY_LEN ≤ (List.replicate DEFAULT_MEMORY_LEN (none : Option STRING_ST)).length
    rw [List.length_replicate]; exact ⟨Nat.zero_le _, Nat.le_refl _⟩
  · show List.take 0 (List.replicate DEFAULT_MEMORY_LEN (none : Option STRING_ST)) = []
    rfl

/-- The Row `parse_delimited_c` returns holds the tokens `tok_loop` computes
from the bytes in front of the first zero byte of the input. -/
theorem parse_delimited_c_rep (t : STRING_ST) (bs rest : List Nat) (d : Nat)
    (hl : t.l = some (bs ++ 0 :: rest)) (h0 : 0 ∉ bs)
    (hb : bs.length < SIZE_MOD ∨ never_full d bs 0) :
    ∃ v ts, parse_delimited_c (some t) d = .ok v ∧ RowRep v ts
      ∧ ts.map STRING_ST.content = tok_loop d bs [] [] false := by
  have h := parse_loop_rep d rest bs
    { v := new_vector, l := List.replicate DEFAULT_MEMORY_LEN 0, i := 0, append := false }
    [] [] h0 new_vector_rep (by simp) rfl (by simp) (by simp) (by simp)
    (by
      rcases hb with hb | hb
      · left; simpa using hb
      · right; exact ⟨rfl, hb⟩)
  obtain ⟨v, ts, hr, hrep, hc⟩ := h
  refine ⟨v, ts, ?_, hrep, by simpa using hc⟩
  simp only [parse_delimited_c, hl]
  exact hr

theorem s_append_l_ne_none (t : STRING_ST) (buf : List Nat) (src : List Nat)
    (hl : t.l = some buf) : s_append_l (some t) src ≠ .ok none := by
  intro h
  simp only [s_append_l, hl] at h
  split at h
  · cases h
  · split at h
    · cases h
    · split at h
      · cases h
      · split at h
        · cases h
        · cases h

/-- The value `s_append_l` returns to `new_str` is the new Text, whose buffer
is present. -/
theorem new_str_eq (s : List Nat) : new_str s = s_append_l (some new_empty_str) s := by
  unfold new_str
  cases h : s_append_l (some new_empty_str) s with
  | error e => simp only [h]
  | ok r =>
    cases r with
    | none => exact absurd h (s_append_l_ne_none new_empty_str _ s rfl)
    | some t => simp only [h]

theorem new_str_s_eq (s : List Nat) (n : Nat) :
    new_str_s s n = s_append_l (some (new_empty_str_s ((n + 1) % SIZE_MOD))) s := by
  unfold new_str_s
  cases h : s_append_l (some (new_empty_str_s ((n + 1) % SIZE_MOD))) s with
  | error e => simp only [h]
  | ok r =>
    cases r with
    | none => exact absurd h (s_append_l_ne_none (new_empty_str_s ((n + 1) % SIZE_MOD)) _ s rfl)
    | some t => simp only [h]

/-! ## Tokenizer: fields shorter than the scratch buffer -/

theorem splitOnP_go_head {α : Type} (P : α → Bool) :
    ∀ (cs accr : List α), ∃ f ∈ List.splitOnP.go P cs accr, accr.length ≤ f.length := by
  intro cs
  induction cs with
  | nil => intro accr; exact ⟨accr.reverse, by simp [List.splitOnP.go], by simp⟩
  | cons a cs ih =>
    intro accr
    by_cases h : P a = true
    · exact ⟨accr.reverse, by simp [List.splitOnP.go, h], by simp⟩
    · obtain ⟨f, hf, hlen⟩ := ih (a :: accr)
      refine ⟨f, by simpa [List.splitOnP.go, h] using hf, ?_⟩
      simp at hlen; omega

/-- While every field is shorter than 255 bytes the scan never sets the
continuation flag, and `tok_loop` cuts the input at the delimiters. -/
theorem tok_loop_split (d : Nat) :
    ∀ (cs : List Nat) (toks : List (List Nat)) (acc : List Nat),
      (∀ f ∈ List.splitOnP.go (fun x => x == d) cs acc.reverse, f.length < 255) →
      tok_loop d cs toks acc false = toks ++ List.splitOnP.go (fun x => x == d) cs acc.reverse
        ∧ never_full d cs acc.length := by
  intro cs
  induction cs with
  | nil => intro toks acc _; simp [tok_loop, tok_flush, List.splitOnP.go, never_full]
  | cons c cs ih =>
    intro toks acc h
    have hd255 : DEFAULT_MEMORY_LEN - 1 = 255 := rfl
    by_cases hcd : c = d
    · have hgo : List.splitOnP.go (fun x => x == d) (c :: cs) acc.reverse
          = acc :: List.splitOnP.go (fun x => x == d) cs [] := by
        simp [List.splitOnP.go, hcd]
      rw [hgo] at h ⊢
      have hacc : acc.length < 255 := h acc (by simp)
      have hne : acc.length ≠ DEFAULT_MEMORY_LEN - 1 := by rw [hd255]; omega
      obtain ⟨e1, e2⟩ := ih (toks ++ [acc]) [] (by
        intro f hf; exact h f (by simp at hf; simp [hf]))
      refine ⟨?_, ?_⟩
      · simp only [tok_loop, hcd, true_or, if_true, hne, decide_False, tok_flush]
        simpa using e1
      · simp only [never_full, hcd, if_true]
        exact ⟨hne, by simpa using e2⟩
    · have hgo : List.splitOnP.go (fun x => x == d) (c :: cs) acc.reverse
          = List.splitOnP.go (fun x => x == d) cs (acc ++ [c]).reverse := by
        simp [List.splitOnP.go, hcd]
      rw [hgo] at h ⊢
      obtain ⟨f, hf, hlen⟩ := splitOnP_go_head (fun x => x == d) cs (acc ++ [c]).reverse
      have hacc : acc.length < 254 := by
        have := h f hf
        simp at hlen; omega
      have hne : acc.length ≠ DEFAULT_MEMORY_LEN - 1 := by rw [hd255]; omega
      obtain ⟨e1, e2⟩ := ih toks (acc ++ [c]) h
      refine ⟨?_, ?_⟩
      · simp only [tok_loop, hcd, hne, or_self, if_false]
        exact e1
      · simp only [never_full, hcd, if_false]
        exact ⟨hne, by simpa using e2⟩

theorem buffer_split (buf : List Nat) (n : Nat) (h : buf[n]? = some 0) :
    buf = buf.take n ++ 0 :: buf.drop (n + 1) := by
  have hlt : n < buf.length := by
    by_contra hge
    rw [List.getElem?_eq_none (by omega)] at h
    cases h
  have hx : buf[n] = 0 := by
    rw [List.getElem?_eq_getElem hlt] at h
    exact Option.some.inj h
  conv_lhs => rw [← List.take_append_drop n buf, List.drop_eq_getElem_cons hlt, hx]

/-- C1: for a Text (satisfying the Text invariant) whose content has no zero
byte and whose fields, obtained by cutting the content at every occurrence of
the delimiter `d`, are all shorter than 255 bytes, `parse_delimited_c` returns
a Row whose elements are all present and whose values are, in order, exactly
those fields. -/
theorem parse_delimited_c_split (t : STRING_ST) (d : Nat) (hinv : t.inv)
    (h0 : 0 ∉ t.content) (hrun : ∀ f ∈ t.content.splitOn d, f.length < 255) :
    ∃ v, parse_delimited_c (some t) d = .ok v
      ∧ v.len = (t.content.splitOn d).length
      ∧ v.contents = some (t.content.splitOn d) := by
  have hinv2 := hinv
  unfold STRING_ST.inv at hinv2
  cases hl : t.l with
  | none => simp [hl] at hinv2
  | some buf =>
    simp only [hl] at hinv2
    have hcont : t.content = buf.take t.len := by simp [STRING_ST.content, hl]
    have hbuf := buffer_split buf t.len hinv2.2.2
    rw [← hcont] at hbuf
    have hsplit : t.content.splitOn d
        = List.splitOnP.go (fun x => x == d) t.content ([] : List Nat).reverse := rfl
    rw [hsplit] at hrun
    obtain ⟨e1, e2⟩ := tok_loop_split d t.content [] [] hrun
    obtain ⟨v, ts, hr, hrep, hc⟩ :=
      parse_delimited_c_rep t t.content (buf.drop (t.len + 1)) d (by rw [hl, ← hbuf]) h0
        (Or.inr e2)
    rw [e1, List.nil_append, ← hsplit] at hc
    refine ⟨v, hr, ?_, ?_⟩
    · rw [hrep.len_eq, ← hc, List.length_map]
    · rw [hrep.contents_eq, hc]

/-- C1, the three inputs of the specification: `"a,b,,c"`, `""` and `","`
split at `','`. -/
theorem parse_delimited_c_split_witness :
    (∃ v, parse_delimited_c (some ⟨some [97, 44, 98, 44, 44, 99, 0], 6, 7⟩) 44 = .ok v
        ∧ v.len = 4 ∧ v.contents = some [[97], [98], [], [99]])
    ∧ (∃ v, parse_delimited_c (some ⟨some [0], 0, 1⟩) 44 = .ok v
        ∧ v.len = 1 ∧ v.contents = some [[]])
    ∧ (∃ v, parse_delimited_c (some ⟨some [44, 0], 1, 2⟩) 44 = .ok v
        ∧ v.len = 2 ∧ v.contents = some [[], []]) :=
  ⟨parse_delimited_c_split ⟨some [97, 44, 98, 44, 44, 99, 0], 6, 7⟩ 44
      (by decide) (by decide) (by decide),
   parse_delimited_c_split ⟨some [0], 0, 1⟩ 44 (by decide) (by decide) (by decide),
   parse_delimited_c_split ⟨some [44, 0], 1, 2⟩ 44 (by decide) (by decide) (by decide)⟩

/-! ## Tokenizer: evaluation at the buffer boundary -/

theorem tok_loop_300 :
    tok_loop 44 (List.replicate 300 97) [] [] false = [List.replicate 299 97] := by
  decide!

theorem tok_loop_255_delim :
    tok_loop 44 (List.replicate 255 97 ++ [44]) [] [] false = [List.replicate 255 97] := by
  decide!

/-- C2, evaluated on a Text of 300 copies of the byte `'a'` (it is the Text
`new_str` builds from that literal) with the delimiter `','`: the Row has one
element, and that element has only 299 bytes.  The byte read when the scratch
buffer holds 255 bytes triggers the flush and is then dropped by `continue`. -/
theorem parse_delimited_c_300 :
    ∃ v, parse_delimited_c (some ⟨some (List.replicate 300 97 ++ [0]), 300, 301⟩) 44 = .ok v
      ∧ v.len = 1 ∧ v.contents = some [List.replicate 299 97] := by
  obtain ⟨v, ts, hr, hrep, hc⟩ := parse_delimited_c_rep
    ⟨some (List.replicate 300 97 ++ [0]), 300, 301⟩ (List.replicate 300 97) [] 44 rfl
    (by intro h; have := List.eq_of_mem_replicate h; omega)
    (Or.inl (by rw [List.length_replicate]; decide))
  rw [tok_loop_300] at hc
  refine ⟨v, hr, ?_, ?_⟩
  · rw [hrep.len_eq, ← List.length_map ts STRING_ST.content, hc]; rfl
  · rw [hrep.contents_eq, hc]

/-- C3, evaluated on the Text `"a…a,"` of 255 bytes `'a'` followed by one
delimiter `','`: the delimiter occurs once, and the Row has one element, not
two.  The flush happens with `i == 255`, so `append` becomes true although the
delimiter triggered it, and the final flush extends the only element. -/
theorem parse_delimited_c_255_delim :
    (List.replicate 255 97 ++ [44]).count 44 = 1
    ∧ ∃ v, parse_delimited_c
          (some ⟨some (List.replicate 255 97 ++ [44] ++ [0]), 256, 257⟩) 44 = .ok v
        ∧ v.len = 1 ∧ v.contents = some [List.replicate 255 97] := by
  refine ⟨by decide!, ?_⟩
  obtain ⟨v, ts, hr, hrep, hc⟩ := parse_delimited_c_rep
    ⟨some (List.replicate 255 97 ++ [44] ++ [0]), 256, 257⟩ (List.replicate 255 97 ++ [44])
    [] 44 rfl
    (by
      intro h
      rcases List.mem_append.mp h with h | h
      · have := List.eq_of_mem_replicate h; omega
      · simp at h)
    (Or.inl (by rw [List.length_append, List.length_replicate]; decide))
  rw [tok_loop_255_delim] at hc
  refine ⟨v, hr, ?_, ?_⟩
  · rw [hrep.len_eq, ← List.length_map ts STRING_ST.content, hc]; rfl
  · rw [hrep.contents_eq, hc]

/-! ## Text: appending bytes one at a time and as a literal -/

theorem take_set_le {α : Type} (l : List α) (n m : Nat) (a : α) (h : m ≤ n) :
    (l.set n a).take m = l.take m := by
  rw [List.set_take, List.set_eq_of_length_le]
  rw [List.length_take]; omega

theorem inv_alloc {t : STRING_ST} (h : t.inv) : t.alloc ∧ t.len + 1 ≤ t.mlen := by
  unfold STRING_ST.inv at h
  unfold STRING_ST.alloc
  cases hl : t.l with
  | none => simp [hl] at h
  | some buf => simp only [hl] at h ⊢; exact ⟨h.2.1, h.1⟩

/-- Effect of `s_append_c` on a Text with an allocated buffer and
`capacity ≥ length + 1`, the new length being a `size_t` value. -/
theorem s_append_c_spec (t : STRING_ST) (ch : Nat) (ha : t.alloc)
    (hcap : t.len + 1 ≤ t.mlen) (hsz : t.len < SIZE_MOD) :
    ∃ t1, s_append_c (some t) ch = .ok (some t1)
      ∧ t1.len = t.len + 1
      ∧ t1.content = t.content ++ [ch]
      ∧ t1.inv
      ∧ (t.mlen ≤ SIZE_MOD → t1.mlen
          = if t.len = t.mlen - 1 then t.mlen + DEFAULT_MEMORY_LEN else t.mlen) := by
  unfold STRING_ST.alloc at ha
  cases hl : t.l with
  | none => simp [hl] at ha
  | some buf =>
    simp only [hl] at ha
    have key : ∀ (buf1 : List Nat) (m1 : Nat), t.len + 2 ≤ m1 → m1 ≤ buf1.length →
        buf1.take t.len = buf.take t.len →
        ∃ t1, (match store buf1 t.len ch with
            | Except.error e => Except.error e
            | Except.ok buf2 =>
              match store buf2 (t.len + 1) 0 with
              | Except.error e => Except.error e
              | Except.ok buf3 =>
                (Except.ok (some { l := some buf3, len := t.len + 1, mlen := m1 })
                  : Except Fault (Option STRING_ST))) = Except.ok (some t1)
          ∧ t1.len = t.len + 1 ∧ t1.content = t.content ++ [ch] ∧ t1.inv ∧ t1.mlen = m1 := by
      intro buf1 m1 h1 h2 h3
      have hs1 : t.len < buf1.length := by omega
      have hs2 : t.len + 1 < (buf1.set t.len ch).length := by rw [List.length_set]; omega
      rw [store_ok ch hs1]
      simp only []
      rw [store_ok 0 hs2]
      refine ⟨_, rfl, rfl, ?_, ?_, rfl⟩
      · simp only [STRING_ST.content, hl]
        rw [take_set_le _ _ _ _ (Nat.le_refl _), take_set_succ _ _ _ hs1, h3]
      · simp only [STRING_ST.inv, List.length_set]
        refine ⟨by omega, h2, ?_⟩
        rw [List.getElem?_set_self (by rw [List.length_set]; omega)]
    by_cases hg : t.len = size_pred t.mlen
    · have hcpy := memcpy_ok (List.replicate (t.mlen + DEFAULT_MEMORY_LEN) 0) buf t.mlen ha
        (by simp)
      obtain ⟨t1, hr, h1, h2, h3, h4⟩ := key
        (buf.take t.mlen ++ (List.replicate (t.mlen + DEFAULT_MEMORY_LEN) 0).drop t.mlen)
        (t.mlen + DEFAULT_MEMORY_LEN) (by simp only [DEFAULT_MEMORY_LEN]; omega)
        (by simp [List.length_take, Nat.min_eq_left ha])
        (by
          rw [List.take_append_eq_append_take, List.take_take]
          simp [List.length_take, Nat.min_eq_left ha, Nat.min_eq_left (show t.len ≤ t.mlen by omega),
            Nat.sub_eq_zero_of_le (show t.len ≤ t.mlen by omega)])
      refine ⟨t1, ?_, h1, h2, h3, ?_⟩
      · simp only [s_append_c, hl, hg, if_true, hcpy]
        rw [← hg]; exact hr
      · intro hm
        rw [size_pred_eq _ (by omega) hm] at hg
        simp only [hg, if_true, h4]
    · have hlt : t.len + 2 ≤ t.mlen := by
        by_contra hc
        have hm : t.mlen = t.len + 1 := by omega
        apply hg
        rw [size_pred_eq _ (by omega) (by omega)]; omega
      obtain ⟨t1, hr, h1, h2, h3, h4⟩ := key buf t.mlen hlt ha rfl
      refine ⟨t1, ?_, h1, h2, h3, ?_⟩
      · simp only [s_append_c, hl, hg, if_false]
        exact hr
      · intro _
        have : ¬ t.len = t.mlen - 1 := by omega
        simp only [this, if_false, h4]

/-- Appending bytes one at a time: length and content after the whole run. -/
theorem s_append_c_list_spec :
    ∀ (bs : List Nat) (t : STRING_ST), t.inv → t.len + bs.length < SIZE_MOD →
      ∃ t1, s_append_c_list bs (some t) = .ok (some t1)
        ∧ t1.len = t.len + bs.length ∧ t1.content = t.content ++ bs ∧ t1.inv := by
  intro bs
  induction bs with
  | nil => intro t hinv _; exact ⟨t, rfl, by simp, by simp, hinv⟩
  | cons b bs ih =>
    intro t hinv hsz
    obtain ⟨ha, hcap⟩ := inv_alloc hinv
    simp only [List.length_cons] at hsz
    obtain ⟨t1, hr, h1, h2, h3, _⟩ := s_append_c_spec t b ha hcap (by omega)
    obtain ⟨t2, hr2, h4, h5, h6⟩ := ih t1 h3 (by omega)
    refine ⟨t2, ?_, ?_, ?_, h6⟩
    · simp only [s_append_c_list, hr]; exact hr2
    · rw [h4, h1, List.length_cons]; omega
    · rw [h5, h2]; simp

/-- C6: for a Text satisfying the Text invariant (so `capacity ≥ length + 1`)
and bytes `bs` without a zero byte, appending `bs` one byte at a time with
`s_append_c` and appending the literal `bs` with one call of `s_append_l`
both succeed and yield Texts of the same length `len + |bs|` and the same
content, each with the zero sentinel at its length (part of `inv`).  The
resulting length is a `size_t` value. -/
theorem s_append_c_list_eq_s_append_l (t : STRING_ST) (bs rest : List Nat) (hinv : t.inv)
    (h0 : 0 ∉ bs) (hsz : t.len + bs.length < SIZE_MOD) :
    ∃ t1 t2, s_append_c_list bs (some t) = .ok (some t1)
      ∧ s_append_l (some t) (bs ++ 0 :: rest) = .ok (some t2)
      ∧ t1.len = t2.len ∧ t1.content = t2.content
      ∧ t1.len = t.len + bs.length ∧ t1.content = t.content ++ bs
      ∧ t1.inv ∧ t2.inv := by
  obtain ⟨ha, hcap⟩ := inv_alloc hinv
  obtain ⟨t1, hr1, h1, h2, h3⟩ := s_append_c_list_spec bs t hinv hsz
  obtain ⟨t2, hr2, h4, _, h5, h6⟩ := s_append_l_spec t bs rest ha (by omega) h0
  exact ⟨t1, t2, hr1, hr2, by rw [h1, h4], by rw [h2, h5], h1, h2, h3, h6⟩

/-- C6 on the Text `"hi"` (capacity 4) and the bytes `"abc"`. -/
theorem s_append_c_list_eq_s_append_l_witness :
    ∃ t1 t2, s_append_c_list [97, 98, 99] (some ⟨some [104, 105, 0, 0], 2, 4⟩) = .ok (some t1)
      ∧ s_append_l (some ⟨some [104, 105, 0, 0], 2, 4⟩) ([97, 98, 99] ++ 0 :: []) = .ok (some t2)
      ∧ t1.len = t2.len ∧ t1.content = t2.content
      ∧ t1.len = 2 + 3 ∧ t1.content = [104, 105] ++ [97, 98, 99]
      ∧ t1.inv ∧ t2.inv :=
  s_append_c_list_eq_s_append_l ⟨some [104, 105, 0, 0], 2, 4⟩ [97, 98, 99] [] (by decide)
    (by decide) (by decide)

/-! ## Text: concatenation -/

theorem inv_buffer {t : STRING_ST} (h : t.inv) :
    ∃ rest, t.l = some (t.content ++ 0 :: rest) := by
  unfold STRING_ST.inv at h
  cases hl : t.l with
  | none => simp [hl] at h
  | some buf =>
    simp only [hl] at h
    refine ⟨buf.drop (t.len + 1), ?_⟩
    have := buffer_split buf t.len h.2.2
    simp only [STRING_ST.content, hl]
    rw [← this]

theorem new_empty_str_s_alloc (sz : Nat) :
    (new_empty_str_s sz).alloc ∧ (new_empty_str_s sz).len = 0
      ∧ (new_empty_str_s sz).content = [] := by
  refine ⟨?_, rfl, ?_⟩
  · show sz ≤ (List.replicate (sz * SIZEOF_SIZE_T) 0).length
    rw [List.length_replicate]
    exact Nat.le_mul_of_pos_right _ (by decide)
  · show List.take 0 (List.replicate (sz * SIZEOF_SIZE_T) 0) = []
    rfl

/-- Second loop of `s_concat` on sources that satisfy the Text invariant and
hold no zero byte. -/
theorem s_concat_loop_spec :
    ∀ (srcs : List (Option STRING_ST)) (acc : STRING_ST), acc.alloc → acc.len ≤ acc.mlen →
      (∀ t ∈ srcs.filterMap id, t.inv ∧ 0 ∉ t.content) →
      ∃ r, s_concat_loop srcs (some acc) = .ok (some r)
        ∧ r.content = acc.content ++ ((srcs.filterMap id).map STRING_ST.content).flatten
        ∧ r.len = acc.len + ((srcs.filterMap id).map STRING_ST.len).sum := by
  intro srcs
  induction srcs with
  | nil => intro acc _ _ _; exact ⟨acc, rfl, by simp, by simp⟩
  | cons x srcs ih =>
    intro acc ha hle h
    have hrest : ∀ t ∈ srcs.filterMap id, t.inv ∧ 0 ∉ t.content := by
      intro t ht
      apply h t
      cases x with
      | none => simpa using ht
      | some u => simp only [List.filterMap_cons_some (rfl : id (some u) = some u)]; exact List.mem_cons_of_mem _ ht
    cases x with
    | none =>
      obtain ⟨r, hr, h1, h2⟩ := ih acc ha hle hrest
      exact ⟨r, by simpa [s_concat_loop] using hr, by simpa using h1, by simpa using h2⟩
    | some t =>
      obtain ⟨hinv, hz⟩ := h t (by simp)
      obtain ⟨rest, hl⟩ := inv_buffer hinv
      obtain ⟨t1, hr1, h3, _, h4, h5⟩ := s_append_l_spec acc t.content rest ha hle hz
      obtain ⟨ha1, hcap1⟩ := inv_alloc h5
      obtain ⟨r, hr, h1, h2⟩ := ih t1 ha1 (by omega) hrest
      have hclen : t.content.length = t.len := by
        have hi := hinv
        unfold STRING_ST.inv at hi
        cases hb : t.l with
        | none => simp [hb] at hi
        | some buf =>
          simp only [hb] at hi
          simp only [STRING_ST.content, hb, List.length_take]
          omega
      refine ⟨r, ?_, ?_, ?_⟩
      · simp only [s_concat_loop, hl, hr1]; exact hr
      · rw [h1, h4]; simp
      · rw [h2, h3, hclen]; simp; omega

/-- C7, as amended: for every list of sources, absent ones included, whose
present members satisfy the Text invariant and hold no zero byte in their
content, `s_concat` returns a Text whose content is the contents of the present
sources concatenated in argument order and whose length is the sum of their
lengths; no source, or only absent ones, gives the empty Text. -/
theorem s_concat_spec (srcs : List (Option STRING_ST))
    (h : ∀ t ∈ srcs.filterMap id, t.inv ∧ 0 ∉ t.content) :
    ∃ r, s_concat srcs = .ok (some r)
      ∧ r.content = ((srcs.filterMap id).map STRING_ST.content).flatten
      ∧ r.len = ((srcs.filterMap id).map STRING_ST.len).sum := by
  obtain ⟨ha, hlen, hc⟩ := new_empty_str_s_alloc (s_concat_total srcs)
  obtain ⟨r, hr, h1, h2⟩ := s_concat_loop_spec srcs (new_empty_str_s (s_concat_total srcs)) ha
    (by rw [hlen]; exact Nat.zero_le _) h
  refine ⟨r, hr, ?_, ?_⟩
  · rw [h1, hc]; simp
  · rw [h2, hlen]; simp

/-- C7 as amended, on the sources `"ab"`, absent, `"c"`. -/
theorem s_concat_spec_witness :
    ∃ r, s_concat [some ⟨some [97, 98, 0], 2, 3⟩, none, some ⟨some [99, 0], 1, 2⟩] = .ok (some r)
      ∧ r.content = [97, 98, 99] ∧ r.len = 3 :=
  s_concat_spec [some ⟨some [97, 98, 0], 2, 3⟩, none, some ⟨some [99, 0], 1, 2⟩] (by decide)

/-- C7 fails as stated: three calls of `s_append_c` on the empty Text of
capacity 4 build a Text of length 3 with content `'a', 0, 'b'`, which satisfies
the Text invariant, and `s_concat` of this one source has length 1 and content
`'a'`: the content is transferred as a zero-terminated literal. -/
theorem s_concat_zero_byte :
    s_append_c_list [97, 0, 98] (some (new_empty_str_s 4))
        = .ok (some ⟨some (97 :: 0 :: 98 :: List.replicate 29 0), 3, 4⟩)
    ∧ (⟨some (97 :: 0 :: 98 :: List.replicate 29 0), 3, 4⟩ : STRING_ST).inv
    ∧ (⟨some (97 :: 0 :: 98 :: List.replicate 29 0), 3, 4⟩ : STRING_ST).content = [97, 0, 98]
    ∧ ∃ r, s_concat [some ⟨some (97 :: 0 :: 98 :: List.replicate 29 0), 3, 4⟩] = .ok (some r)
        ∧ r.len = 1 ∧ r.content = [97] := by
  refine ⟨rfl, by decide, rfl, ⟨_, rfl, rfl, rfl⟩⟩

/-! ## Row and Table: absent sources and absent slots -/

theorem v_concat_loop_absent :
    ∀ (srcs : List (Option VECTOR_ST)) (acc r : VECTOR_ST), none ∈ srcs →
      v_concat_loop srcs acc ≠ .ok r := by
  intro srcs
  induction srcs with
  | nil => intro acc r h; simp at h
  | cons x srcs ih =>
    intro acc r h
    cases x with
    | none => simp [v_concat_loop]
    | some v =>
      have hmem : none ∈ srcs := by simpa using h
      simp only [v_concat_loop]
      cases hv : v_concat_inner v acc with
      | error e => simp
      | ok acc1 => exact ih acc1 r hmem

theorem t_concat_loop_absent :
    ∀ (srcs : List (Option TABLE_ST)) (acc r : TABLE_ST), none ∈ srcs →
      t_concat_loop srcs acc ≠ .ok r := by
  intro srcs
  induction srcs with
  | nil => intro acc r h; simp at h
  | cons x srcs ih =>
    intro acc r h
    cases x with
    | none => simp [t_concat_loop]
    | some v =>
      have hmem : none ∈ srcs := by simpa using h
      simp only [t_concat_loop]
      cases hv : t_concat_inner v acc with
      | error e => simp
      | ok acc1 => exact ih acc1 r hmem

/-- With an absent source among its arguments `v_concat` never returns a Row,
and `t_concat` never returns a Table. -/
theorem concat_absent_never_ok :
    (∀ (srcs : List (Option VECTOR_ST)) (r : VECTOR_ST), none ∈ srcs → v_concat srcs ≠ .ok r)
    ∧ (∀ (srcs : List (Option TABLE_ST)) (r : TABLE_ST), none ∈ srcs → t_concat srcs ≠ .ok r) :=
  ⟨fun srcs r h => v_concat_loop_absent srcs _ r h,
   fun srcs r h => t_concat_loop_absent srcs _ r h⟩

/-- C8, evaluated: `v_concat(2, r, NULL)` with `r` the Row holding the one
Text `"a"`, and `t_concat(2, t, NULL)` with `t` the Table holding that Row,
dereference the absent source (`tmp->len` in the second loop), while
`s_concat(2, "a", NULL)` skips it. -/
theorem concat_absent_source :
    v_concat [some ⟨some [some ⟨some [97, 0], 1, 2⟩], 1, 1⟩, none] = .error .null_deref
    ∧ t_concat [some ⟨some [some ⟨some [some ⟨some [97, 0], 1, 2⟩], 1, 1⟩], 1, 1⟩, none]
        = .error .null_deref
    ∧ v_concat [none] = .error .null_deref
    ∧ t_concat [none] = .error .null_deref
    ∧ ∃ r, s_concat [some ⟨some [97, 0], 1, 2⟩, none] = .ok (some r) ∧ r.content = [97] :=
  ⟨rfl, rfl, rfl, rfl, _, rfl, rfl⟩

/-- C10, evaluated: `v_append(new_vector_s(1), NULL)` gives a Row of length 1
whose slot 0 is absent, and `v_copy` of that Row dereferences the absent slot
(`s_copy` reads `src->len` without a test), where `transpose` tests the slot
before it calls `s_copy`. -/
theorem v_copy_absent_slot :
    v_append (some (new_vector_s 1)) none = .ok ⟨some [none], 1, 1⟩
    ∧ v_copy (some ⟨some [none], 1, 1⟩) = .error .null_deref
    ∧ s_copy none = .error .null_deref :=
  ⟨rfl, rfl, rfl⟩

/-! ## Row: concatenation of present Rows -/

/-- Effect of `s_copy` on a Text with an allocated buffer. -/
theorem s_copy_spec (t : STRING_ST) (ha : t.alloc) :
    ∃ c, s_copy (some t) = .ok (some c) ∧ c.len = t.len ∧ c.mlen = t.mlen
      ∧ c.bytes = t.bytes ∧ c.alloc
      ∧ (t.len ≤ t.mlen → c.content = t.content) ∧ (t.inv → c.inv) := by
  unfold STRING_ST.alloc at ha
  cases hl : t.l with
  | none => simp [hl] at ha
  | some buf =>
    simp only [hl] at ha
    have hd : t.mlen ≤ (List.replicate (t.mlen * SIZEOF_SIZE_T) 0).length := by
      rw [List.length_replicate]
      exact Nat.le_mul_of_pos_right _ (by decide)
    have hcpy := memcpy_ok (List.replicate (t.mlen * SIZEOF_SIZE_T) 0) buf t.mlen ha hd
    have htl : (buf.take t.mlen).length = t.mlen := by
      rw [List.length_take]; omega
    have hpre : ∀ n, n ≤ t.mlen →
        (buf.take t.mlen ++ (List.replicate (t.mlen * SIZEOF_SIZE_T) 0).drop t.mlen).take n
          = buf.take n := by
      intro n hn
      rw [List.take_append_eq_append_take, List.take_take, htl, Nat.min_eq_left hn,
        Nat.sub_eq_zero_of_le hn]
      simp
    refine ⟨STRING_ST.mk (some (buf.take t.mlen
        ++ (List.replicate (t.mlen * SIZEOF_SIZE_T) 0).drop t.mlen)) t.len t.mlen,
      ?_, rfl, rfl, ?_, ?_, ?_, ?_⟩
    · simp only [s_copy, new_empty_str_s, hl, hcpy]
    · simp only [STRING_ST.bytes, hl]
      exact hpre _ (Nat.le_refl _)
    · simp only [STRING_ST.alloc, List.length_append, htl, List.length_drop,
        List.length_replicate]
      omega
    · intro hle
      simp only [STRING_ST.content, hl]
      exact hpre _ hle
    · intro hinv
      unfold STRING_ST.inv at hinv
      simp only [hl] at hinv
      simp only [STRING_ST.inv, List.length_append, htl, List.length_drop,
        List.length_replicate]
      refine ⟨hinv.1, by omega, ?_⟩
      rw [List.getElem?_append_left (by rw [htl]; omega), List.getElem?_take]
      simp only [show t.len < t.mlen by omega, if_true]
      exact hinv.2.2

theorem v_concat_total_map_some (srcs : List VECTOR_ST) :
    v_concat_total (srcs.map some) = (srcs.map VECTOR_ST.len).sum := by
  induction srcs with
  | nil => rfl
  | cons v srcs ih => simp [v_concat_total, ih]

/-- Inner loop of `v_concat` with room for all appends: the block of the
result is written in place. -/
theorem v_concat_inner_loop (cells : List (Option STRING_ST)) (tmp : VECTOR_ST)
    (htmp : tmp.strs = some cells) :
    ∀ (k i : Nat) (acc : VECTOR_ST) (aslots : List (Option STRING_ST)),
      i + k ≤ cells.length → (∀ x ∈ (cells.drop i).take k, slot_full x) →
      acc.strs = some aslots → acc.len + k ≤ acc.mlen → acc.mlen ≤ aslots.length →
      ∃ aslots1 cs, for_loop (fun j a =>
            match tmp.strs with
            | none => .error .null_deref
            | some slots =>
              match load slots j with
              | .error e => .error e
              | .ok x =>
                match s_copy x with
                | .error e => .error e
                | .ok c => v_append (some a) c) k i acc
          = .ok { strs := some aslots1, len := acc.len + k, mlen := acc.mlen }
        ∧ aslots1.length = aslots.length
        ∧ aslots1.take (acc.len + k) = aslots.take acc.len ++ cs
        ∧ List.Forall₂ IsCopySlot ((cells.drop i).take k) cs := by
  intro k
  induction k with
  | zero =>
    intro i acc aslots _ _ hs _ _
    refine ⟨aslots, [], ?_, rfl, by simp, by simp⟩
    simp only [for_loop, Nat.add_zero]
    cases acc; simp_all
  | succ k ih =>
    intro i acc aslots hik hfull hs hroom hcap
    have hi : i < cells.length := by omega
    have hdrop : (cells.drop i).take (k + 1) = cells[i] :: (cells.drop (i + 1)).take k := by
      rw [List.drop_eq_getElem_cons hi, List.take_succ_cons]
    rw [hdrop] at hfull ⊢
    have hx : slot_full cells[i] := hfull _ (List.mem_cons_self _ _)
    cases hci : cells[i] with
    | none => rw [hci] at hx; exact absurd hx (by simp [slot_full])
    | some t =>
      rw [hci] at hx
      have hload : load cells i = .ok (some t) := by
        apply load_ok; rw [List.getElem?_eq_getElem hi, hci]
      obtain ⟨c, hc, hc1, hc2, hc3, hc4, _, _⟩ := s_copy_spec t hx
      obtain ⟨aslots1, hr, htake, hcap1, hset⟩ :=
        v_append_ok acc aslots (some c) hs (by omega) hcap
      have hnog : ¬ acc.len + 1 > acc.mlen := by omega
      simp only [hnog, if_false] at hr hcap1
      have hlen1 : aslots1.length = aslots.length := by
        rw [hset (by omega), List.length_set]
      obtain ⟨aslots2, cs, hr2, hlen2, htake2, hrel⟩ := ih (i + 1)
        { strs := some aslots1, len := acc.len + 1, mlen := acc.mlen } aslots1
        (by omega) (fun x hx => hfull x (List.mem_cons_of_mem _ hx)) rfl
        (by simp only []; omega) hcap1
      refine ⟨aslots2, some c :: cs, ?_, by rw [hlen2, hlen1], ?_, ?_⟩
      · simp only [for_loop, htmp, hload, hc, hr]
        simp only [htmp] at hr2
        rw [hr2]
        simp only [Nat.add_assoc, Nat.add_comm 1 k]
      · simp only [] at htake2
        rw [show acc.len + (k + 1) = acc.len + 1 + k by omega, htake2, htake]
        simp
      · exact List.Forall₂.cons ⟨t, c, rfl, rfl, hc1, hc2, hc3, hc4⟩ hrel

/-- Second loop of `v_concat` on present sources whose slots are all present,
with room for all appends. -/
theorem v_concat_loop_spec :
    ∀ (srcs : List VECTOR_ST) (acc : VECTOR_ST) (aslots : List (Option STRING_ST)),
      (∀ v ∈ srcs, v.full) → acc.strs = some aslots →
      acc.len + (srcs.map VECTOR_ST.len).sum ≤ acc.mlen → acc.mlen ≤ aslots.length →
      ∃ aslots1 cs, v_concat_loop (srcs.map some) acc
          = .ok ⟨some aslots1, acc.len + (srcs.map VECTOR_ST.len).sum, acc.mlen⟩
        ∧ aslots1.length = aslots.length
        ∧ aslots1.take (acc.len + (srcs.map VECTOR_ST.len).sum) = aslots.take acc.len ++ cs
        ∧ List.Forall₂ IsCopySlot (srcs.map VECTOR_ST.elems).flatten cs := by
  intro srcs
  induction srcs with
  | nil =>
    intro acc aslots _ hs _ _
    refine ⟨aslots, [], ?_, rfl, by simp, by simp⟩
    simp only [List.map_nil, v_concat_loop, List.sum_nil, Nat.add_zero]
    cases acc; simp_all
  | cons v srcs ih =>
    intro acc aslots hfull hs hroom hcap
    have hv : v.full := hfull v (List.mem_cons_self _ _)
    unfold VECTOR_ST.full at hv
    cases hvs : v.strs with
    | none => simp [hvs] at hv
    | some cells =>
      simp only [hvs] at hv
      simp only [List.map_cons, List.sum_cons] at hroom ⊢
      obtain ⟨aslots1, cs1, hr1, hlen1, htake1, hrel1⟩ :=
        v_concat_inner_loop cells v hvs v.len 0 acc aslots (by omega)
          (by simpa using hv.2) hs (by omega) hcap
      obtain ⟨aslots2, cs2, hr2, hlen2, htake2, hrel2⟩ := ih
        ⟨some aslots1, acc.len + v.len, acc.mlen⟩ aslots1
        (fun u hu => hfull u (List.mem_cons_of_mem _ hu)) rfl
        (by simp only []; omega) (by simp only []; omega)
      refine ⟨aslots2, cs1 ++ cs2, ?_, by rw [hlen2, hlen1], ?_, ?_⟩
      · simp only [v_concat_loop, v_concat_inner, hr1]
        rw [hr2]
        simp only [Nat.add_assoc]
      · simp only [] at htake2
        rw [← Nat.add_assoc, htake2, htake1, List.append_assoc]
      · simp only [List.flatten_cons]
        refine List.rel_append ?_ hrel2
        simpa [VECTOR_ST.elems, hvs] using hrel1

/-- C9: for every list of present Rows whose slots below their length all hold
a present Text (with an allocated buffer), `v_concat` returns a Row whose
length and capacity both equal the sum of the source lengths, whose slot block
still has exactly that many slots (it is the block allocated at the start: a
reallocating `v_append` leaves a block of `capacity + 1` slots), and whose
`k`-th slot holds a copy (same length, capacity and bytes) of the `k`-th
element of the sources taken in argument order. -/
theorem v_concat_spec (srcs : List VECTOR_ST) (h : ∀ v ∈ srcs, v.full) :
    ∃ slots, v_concat (srcs.map some)
        = .ok ⟨some slots, (srcs.map VECTOR_ST.len).sum, (srcs.map VECTOR_ST.len).sum⟩
      ∧ slots.length = (srcs.map VECTOR_ST.len).sum
      ∧ List.Forall₂ IsCopySlot (srcs.map VECTOR_ST.elems).flatten slots := by
  obtain ⟨aslots1, cs, hr, hlen, htake, hrel⟩ := v_concat_loop_spec srcs
    (new_vector_s (v_concat_total (srcs.map some)))
    (List.replicate (v_concat_total (srcs.map some)) none) h rfl
    (by rw [v_concat_total_map_some]; simp [new_vector_s])
    (by simp [new_vector_s])
  rw [v_concat_total_map_some] at hr hlen htake
  simp only [new_vector_s, Nat.zero_add, List.take_zero, List.nil_append,
    List.length_replicate] at hr hlen htake
  rw [List.take_of_length_le (by omega)] at htake
  subst htake
  refine ⟨aslots1, ?_, hlen, hrel⟩
  simp only [v_concat, v_concat_total_map_some, new_vector_s]
  exact hr

/-- C9 on the Rows `["a", "b"]`, `[]` and `["c"]` (the last with a spare
slot). -/
theorem v_concat_spec_witness :
    ∃ slots, v_concat ([⟨some [some ⟨some [97, 0], 1, 2⟩, some ⟨some [98, 0], 1, 2⟩], 2, 2⟩,
          ⟨some [], 0, 0⟩, ⟨some [some ⟨some [99, 0], 1, 2⟩, none], 1, 2⟩].map some)
        = .ok ⟨some slots, 3, 3⟩
      ∧ slots.length = 3
      ∧ List.Forall₂ IsCopySlot
          [some ⟨some [97, 0], 1, 2⟩, some ⟨some [98, 0], 1, 2⟩, some ⟨some [99, 0], 1, 2⟩]
          slots :=
  v_concat_spec [⟨some [some ⟨some [97, 0], 1, 2⟩, some ⟨some [98, 0], 1, 2⟩], 2, 2⟩,
    ⟨some [], 0, 0⟩, ⟨some [some ⟨some [99, 0], 1, 2⟩, none], 1, 2⟩] (by decide)

/-! ## Table: loops of transpose -/

/-- A counted loop whose body loads slot `j` and then runs `f` on it is a run
of `f` over the slots. -/
theorem for_loop_load {α σ : Type} (slots : List α) (f : α → σ → Except Fault σ)
    (body : Nat → σ → Except Fault σ)
    (hbody : ∀ j a, body j a = match load slots j with
      | .error e => .error e
      | .ok x => f x a) :
    ∀ (k i : Nat) (s : σ), i + k ≤ slots.length →
      for_loop body k i s = fold_steps f ((slots.drop i).take k) s := by
  intro k
  induction k with
  | zero => intro i s _; simp [for_loop, fold_steps]
  | succ k ih =>
    intro i s h
    have hi : i < slots.length := by omega
    have hload : load slots i = .ok slots[i] := by
      apply load_ok; rw [List.getElem?_eq_getElem hi]
    rw [List.drop_eq_getElem_cons hi, List.take_succ_cons]
    simp only [for_loop, hbody, hload, fold_steps]
    cases f slots[i] s with
    | error e => rfl
    | ok s1 =>
      have := ih (i + 1) s1 (by omega)
      simp only [hbody] at this
      exact this

theorem t_append_ok (v : TABLE_ST) (slots : List (Option VECTOR_ST)) (x : Option VECTOR_ST)
    (hs : v.vs = some slots) (h1 : v.len ≤ v.mlen) (h2 : v.mlen ≤ slots.length) :
    ∃ slots1, t_append (some v) x
        = .ok { vs := some slots1, len := v.len + 1,
                mlen := if v.len + 1 > v.mlen then v.len + 1 else v.mlen }
      ∧ slots1.take (v.len + 1) = slots.take v.len ++ [x]
      ∧ (if v.len + 1 > v.mlen then v.len + 1 else v.mlen) ≤ slots1.length
      ∧ (v.len + 1 ≤ v.mlen → slots1 = slots.set v.len x) := by
  by_cases hg : v.len + 1 > v.mlen
  · have hcpy := memcpy_ok (List.replicate (v.len + 1 + 1) (none : Option VECTOR_ST))
      slots v.mlen h2 (by simp; omega)
    have hlen1 : (slots.take v.mlen
        ++ (List.replicate (v.len + 1 + 1) (none : Option VECTOR_ST)).drop v.mlen).length
        = v.len + 2 := by
      simp [List.length_take]; omega
    refine ⟨(slots.take v.mlen
        ++ (List.replicate (v.len + 1 + 1) (none : Option VECTOR_ST)).drop v.mlen).set v.len x,
      ?_, ?_, ?_, ?_⟩
    · simp only [t_append, hs, hg, if_true, hcpy, Nat.add_sub_cancel]
      rw [store_ok x (by rw [hlen1]; omega)]
    · rw [take_set_succ _ _ _ (by rw [hlen1]; omega), List.take_append_eq_append_take,
        List.take_take]
      have : v.len = v.mlen := by omega
      simp [this, List.length_take, Nat.min_eq_left h2]
    · simp only [hg, if_true, List.length_set, hlen1]; omega
    · intro h; omega
  · have hlt : v.len < slots.length := by omega
    refine ⟨slots.set v.len x, ?_, take_set_succ _ _ _ hlt, ?_, fun _ => rfl⟩
    · simp only [t_append, hs, hg, if_false, Nat.add_sub_cancel]
      rw [store_ok x hlt]
    · simp only [hg, if_false, List.length_set]; exact h2

theorem v_append_elems (v : VECTOR_ST) (x : Option STRING_ST) (ha : v.alloc) :
    ∃ v1, v_append (some v) x = .ok v1 ∧ v1.alloc ∧ v1.elems = v.elems ++ [x]
      ∧ v1.len = v.len + 1 := by
  unfold VECTOR_ST.alloc at ha
  cases hs : v.strs with
  | none => simp [hs] at ha
  | some slots =>
    simp only [hs] at ha
    obtain ⟨slots1, hr, htake, hcap, _⟩ := v_append_ok v slots x hs ha.1 ha.2
    refine ⟨_, hr, ?_, ?_, rfl⟩
    · simp only [VECTOR_ST.alloc]
      exact ⟨by split <;> omega, hcap⟩
    · simp only [VECTOR_ST.elems, htake, hs]

theorem le_max_len {rs : List VECTOR_ST} {r : VECTOR_ST} (h : r ∈ rs) : r.len ≤ max_len rs := by
  unfold max_len
  induction rs with
  | nil => simp at h
  | cons a rs ih =>
    simp only [List.map_cons, List.foldr_cons]
    rcases List.mem_cons.mp h with h1 | h1
    · rw [h1]; omega
    · have := ih h1; omega

/-- The maximum loop of `transpose` and `t_get_max_vector_len` over present
rows. -/
theorem max_length_steps :
    ∀ (rs : List VECTOR_ST) (m : Nat),
      fold_steps (fun (x : Option VECTOR_ST) (m : Nat) =>
        match x with
        | none => (.error .null_deref : Except Fault Nat)
        | some r => .ok (if m > r.len then m else r.len)) (rs.map some) m
      = .ok (max m (max_len rs)) := by
  intro rs
  induction rs with
  | nil => intro m; simp [fold_steps, max_len]
  | cons r rs ih =>
    intro m
    simp only [List.map_cons, fold_steps, ih]
    congr 1
    simp only [max_len, List.map_cons, List.foldr_cons]
    split <;> omega

theorem take_eq_map_some {α : Type} (l : List (Option α)) (h : ∀ x ∈ l, x ≠ none) :
    l = (l.filterMap id).map some := by
  induction l with
  | nil => rfl
  | cons a l ih =>
    cases a with
    | none => exact absurd rfl (h none (List.mem_cons_self _ _))
    | some x =>
      simp only [List.filterMap_cons_some (rfl : id (some x) = some x), List.map_cons]
      rw [← ih (fun y hy => h y (List.mem_cons_of_mem _ hy))]

theorem rows_ok_rows {t : TABLE_ST} (h : t.rows_ok) :
    ∃ slots, t.vs = some slots ∧ t.len ≤ slots.length ∧ slots.take t.len = t.rows.map some
      ∧ t.rows.length = t.len ∧ ∀ r ∈ t.rows, r.cells_ok := by
  unfold TABLE_ST.rows_ok at h
  cases hs : t.vs with
  | none => simp [hs] at h
  | some slots =>
    simp only [hs] at h
    have hne : ∀ x ∈ slots.take t.len, x ≠ none := by
      intro x hx hn
      have := h.2 x hx
      rw [hn] at this
      exact this
    have heq := take_eq_map_some _ hne
    have hrows : t.rows = (slots.take t.len).filterMap id := by simp [TABLE_ST.rows, hs]
    refine ⟨slots, rfl, h.1, by rw [hrows]; exact heq, ?_, ?_⟩
    · have := congrArg List.length heq
      rw [List.length_map, List.length_take, Nat.min_eq_left h.1] at this
      rw [hrows]; exact this.symm
    · intro r hr
      have : some r ∈ slots.take t.len := by
        rw [heq, ← hrows]; exact List.mem_map_of_mem _ hr
      exact h.2 _ this

theorem max_length_loop_ok {t : TABLE_ST} (h : t.rows_ok) :
    max_length_loop t.vs t.len = .ok (max_len t.rows) := by
  obtain ⟨slots, hs, hlen, htake, _, _⟩ := rows_ok_rows h
  have hloop := for_loop_load slots (fun (x : Option VECTOR_ST) (m : Nat) =>
      match x with
      | none => (.error .null_deref : Except Fault Nat)
      | some r => .ok (if m > r.len then m else r.len))
    (fun i m =>
      match t.vs with
      | none => .error .null_deref
      | some slots =>
        match load slots i with
        | .error e => .error e
        | .ok none => .error .null_deref
        | .ok (some r) => .ok (if m > r.len then m else r.len))
    (by
      intro j a
      simp only [hs]
      cases load slots j with
      | error e => rfl
      | ok x => cases x <;> rfl)
    t.len 0 0 (by omega)
  rw [List.drop_zero, htake, max_length_steps, Nat.zero_max] at hloop
  exact hloop

theorem new_vector_alloc : new_vector.alloc ∧ new_vector.elems = [] := by
  refine ⟨?_, ?_⟩
  · show (0 : Nat) ≤ DEFAULT_MEMORY_LEN
      ∧ DEFAULT_MEMORY_LEN ≤ (List.replicate DEFAULT_MEMORY_LEN (none : Option STRING_ST)).length
    rw [List.length_replicate]; exact ⟨Nat.zero_le _, Nat.le_refl _⟩
  · show List.take 0 (List.replicate DEFAULT_MEMORY_LEN (none : Option STRING_ST)) = []
    rfl

/-- Second loop of `transpose`: `k` more fresh Rows are appended. -/
theorem transpose_rows_loop :
    ∀ (k i : Nat) (d : TABLE_ST) (dslots : List (Option VECTOR_ST)),
      d.vs = some dslots → d.len ≤ d.mlen → d.mlen ≤ dslots.length →
      dslots.take d.len = List.replicate d.len (some new_vector) →
      ∃ d1 dslots1, for_loop (fun _ a => t_append (some a) (some new_vector)) k i d = .ok d1
        ∧ d1.vs = some dslots1 ∧ d1.len = d.len + k ∧ d1.len ≤ d1.mlen
        ∧ d1.mlen ≤ dslots1.length
        ∧ dslots1.take d1.len = List.replicate d1.len (some new_vector) := by
  intro k
  induction k with
  | zero =>
    intro i d dslots hs h1 h2 h3
    exact ⟨d, dslots, rfl, hs, rfl, h1, h2, h3⟩
  | succ k ih =>
    intro i d dslots hs h1 h2 h3
    obtain ⟨slots1, hr, htake, hcap, _⟩ := t_append_ok d dslots (some new_vector) hs h1 h2
    obtain ⟨d1, dslots1, hr1, hs1, hl1, hc1, hm1, ht1⟩ := ih (i + 1)
      { vs := some slots1, len := d.len + 1,
        mlen := if d.len + 1 > d.mlen then d.len + 1 else d.mlen } slots1 rfl
      (by simp only []; split <;> omega) hcap
      (by
        simp only []
        rw [htake, h3, List.replicate_succ']
        )
    refine ⟨d1, dslots1, ?_, hs1, ?_, hc1, hm1, ht1⟩
    · simp only [for_loop, hr]; exact hr1
    · rw [hl1]; simp only []; omega

theorem ColRep.congr {d : TABLE_ST} {m : Nat} {f g : Nat → List (Option STRING_ST)}
    (h : ColRep d m f) (hfg : ∀ j < m, f j = g j) : ColRep d m g := by
  obtain ⟨dslots, h1, h2, h3, h4, h5⟩ := h
  refine ⟨dslots, h1, h2, h3, h4, ?_⟩
  intro j hj
  obtain ⟨row, h6, h7, h8⟩ := h5 j hj
  exact ⟨row, h6, h7, by rw [← hfg j hj]; exact h8⟩

theorem transpose_rows_ok (m : Nat) :
    ∃ d, transpose_rows m new_table = .ok d ∧ ColRep d m (fun _ => []) := by
  obtain ⟨d1, dslots1, hr, hs, hl, hc, hm, ht⟩ := transpose_rows_loop m 0 new_table
    (List.replicate DEFAULT_MEMORY_LEN none) rfl (Nat.zero_le _)
    (by show DEFAULT_MEMORY_LEN ≤ _; rw [List.length_replicate]) rfl
  have hl0 : d1.len = m := by rw [hl]; show 0 + m = m; omega
  refine ⟨d1, hr, dslots1, hs, hl0, hc, hm, ?_⟩
  intro j hj
  refine ⟨new_vector, ?_, new_vector_alloc.1, by rw [new_vector_alloc.2]; exact List.Forall₂.nil⟩
  have h1 : (dslots1.take d1.len)[j]? = some (some new_vector) := by
    rw [ht, hl0]; simp [hj]
  rw [List.getElem?_take] at h1
  simpa [hl0, hj] using h1

theorem del_str_ok (t : STRING_ST) : ∃ x, del_str (some t) = .ok x := by
  cases h : t.l with
  | none => exact ⟨STRING_FAILURE, by simp [del_str, h]⟩
  | some b => exact ⟨STRING_SUCCESS, by simp [del_str, h]⟩

theorem del_vector_steps :
    ∀ (l : List (Option STRING_ST)),
      fold_steps (fun (x : Option STRING_ST) (_ : Unit) =>
        match x with
        | none => (.ok () : Except Fault Unit)
        | some t =>
          match del_str (some t) with
          | .error e => .error e
          | .ok _ => .ok ()) l () = .ok () := by
  intro l
  induction l with
  | nil => rfl
  | cons x l ih =>
    cases x with
    | none => simp only [fold_steps]; exact ih
    | some t =>
      obtain ⟨y, hy⟩ := del_str_ok t
      simp only [fold_steps, hy]; exact ih

theorem del_vector_ok (r : VECTOR_ST) (h : r.cells_ok) :
    del_vector (some r) = .ok STRING_SUCCESS := by
  unfold VECTOR_ST.cells_ok at h
  cases hs : r.strs with
  | none => simp [hs] at h
  | some cells =>
    simp only [hs] at h
    have hloop := for_loop_load cells (fun (x : Option STRING_ST) (_ : Unit) =>
        match x with
        | none => (.ok () : Except Fault Unit)
        | some t =>
          match del_str (some t) with
          | .error e => .error e
          | .ok _ => .ok ())
      (fun i _ =>
        match load cells i with
        | .error e => .error e
        | .ok none => .ok ()
        | .ok (some t) =>
          match del_str (some t) with
          | .error e => .error e
          | .ok _ => .ok ())
      (by
        intro j a
        beta_reduce
        cases load cells j with
        | error e => rfl
        | ok x => cases x <;> rfl)
      r.len 0 () (by omega)
    rw [del_vector_steps] at hloop
    simp only [del_vector, hs, del_vector_loop, hloop]

theorem del_table_steps :
    ∀ (rs : List VECTOR_ST), (∀ r ∈ rs, r.cells_ok) →
      fold_steps (fun (x : Option VECTOR_ST) (_ : Unit) =>
        match x with
        | none => (.ok () : Except Fault Unit)
        | some r =>
          match del_vector (some r) with
          | .error e => .error e
          | .ok _ => .ok ()) (rs.map some) () = .ok () := by
  intro rs
  induction rs with
  | nil => intro _; rfl
  | cons r rs ih =>
    intro h
    simp only [List.map_cons, fold_steps, del_vector_ok r (h r (List.mem_cons_self _ _))]
    exact ih (fun u hu => h u (List.mem_cons_of_mem _ hu))

theorem del_table_ok (t : TABLE_ST) (h : t.rows_ok) :
    del_table (some t) = .ok STRING_SUCCESS := by
  obtain ⟨slots, hs, hlen, htake, _, hrows⟩ := rows_ok_rows h
  have hloop := for_loop_load slots (fun (x : Option VECTOR_ST) (_ : Unit) =>
      match x with
      | none => (.ok () : Except Fault Unit)
      | some r =>
        match del_vector (some r) with
        | .error e => .error e
        | .ok _ => .ok ())
    (fun i _ =>
      match load slots i with
      | .error e => .error e
      | .ok none => .ok ()
      | .ok (some r) =>
        match del_vector (some r) with
        | .error e => .error e
        | .ok _ => .ok ())
    (by
      intro j a
      beta_reduce
      cases load slots j with
      | error e => rfl
      | ok x => cases x <;> rfl)
    t.len 0 () (by omega)
  rw [List.drop_zero, htake, del_table_steps _ hrows] at hloop
  simp only [del_table, check_table, hs, del_table_loop, hloop]

/-- Inner loop of `transpose` for one source row: the columns `i ≤ j < i + k`
receive a copy of the cell `j` of the row when that cell is present. -/
theorem transpose_inner_loop (m : Nat) (r : VECTOR_ST) (cells : List (Option STRING_ST))
    (hr : r.strs = some cells) (hlen : r.len ≤ cells.length)
    (hcells : ∀ x ∈ cells.take r.len, cell_alloc x) :
    ∀ (k i : Nat) (d : TABLE_ST) (f : Nat → List (Option STRING_ST)),
      i + k ≤ r.len → i + k ≤ m → ColRep d m f →
      ∃ d1, for_loop (fun j a =>
            match r.strs with
            | none => .error .null_deref
            | some cells =>
              match load cells j with
              | .error e => .error e
              | .ok none => .ok a
              | .ok (some c) =>
                match s_copy (some c) with
                | .error e => .error e
                | .ok cp =>
                  match a.vs with
                  | none => .error .null_deref
                  | some dslots =>
                    match load dslots j with
                    | .error e => .error e
                    | .ok drow =>
                      match v_append drow cp with
                      | .error e => .error e
                      | .ok drow1 => .ok { a with vs := some (dslots.set j (some drow1)) })
            k i d = .ok d1
        ∧ ColRep d1 m (fun j => if i ≤ j ∧ j < i + k then f j ++ cell_list cells[j]? else f j) := by
  intro k
  induction k with
  | zero =>
    intro i d f _ _ hd
    refine ⟨d, rfl, hd.congr ?_⟩
    intro j _
    have : ¬ (i ≤ j ∧ j < i + 0) := by omega
    rw [if_neg this]
  | succ k ih =>
    intro i d f hik him hd
    have hi : i < cells.length := by omega
    have hci : cells[i]? = some cells[i] := List.getElem?_eq_getElem hi
    have hload : load cells i = .ok cells[i] := load_ok hci
    cases hc : cells[i] with
    | none =>
      obtain ⟨d1, hr1, hrep1⟩ := ih (i + 1) d f (by omega) (by omega) hd
      refine ⟨d1, ?_, hrep1.congr ?_⟩
      · simp only [for_loop, hr, hload, hc]
        simp only [hr] at hr1
        exact hr1
      · intro j _
        by_cases hji : j = i
        · subst hji
          have h1 : ¬ (j + 1 ≤ j ∧ j < j + 1 + k) := by omega
          have h2 : j ≤ j ∧ j < j + (k + 1) := by omega
          rw [if_neg h1, if_pos h2, hci, hc]
          simp [cell_list]
        · by_cases hin : i + 1 ≤ j ∧ j < i + 1 + k
          · have h2 : i ≤ j ∧ j < i + (k + 1) := by omega
            rw [if_pos hin, if_pos h2]
          · have h2 : ¬ (i ≤ j ∧ j < i + (k + 1)) := by omega
            rw [if_neg hin, if_neg h2]
    | some c =>
      have hca : c.alloc := by
        have hmem : cells[i] ∈ cells.take r.len := by
          rw [List.mem_take_iff_getElem]
          exact ⟨i, by rw [Nat.min_eq_left hlen]; omega, rfl⟩
        have := hcells _ hmem
        rw [hc] at this
        exact this
      obtain ⟨cp, hcp, hc1, hc2, hc3, hc4, _, _⟩ := s_copy_spec c hca
      obtain ⟨dslots, hd1, hd2, hd3, hd4, hd5⟩ := hd
      obtain ⟨row, hrow, hrowa, hrel⟩ := hd5 i (by omega)
      obtain ⟨row1, hv, hrow1a, hrow1e, _⟩ := v_append_elems row (some cp) hrowa
      have hilt : i < dslots.length := by omega
      have hstep : ColRep { d with vs := some (dslots.set i (some row1)) } m
          (fun j => if j = i then f i ++ [some c] else f j) := by
        refine ⟨dslots.set i (some row1), rfl, hd2, hd3, by rw [List.length_set]; exact hd4, ?_⟩
        intro j hj
        by_cases hji : j = i
        · subst hji
          refine ⟨row1, by rw [List.getElem?_set_self hilt], hrow1a, ?_⟩
          simp only [if_true, hrow1e]
          exact List.rel_append hrel
            (List.Forall₂.cons ⟨c, cp, rfl, rfl, hc1, hc2, hc3, hc4⟩ List.Forall₂.nil)
        · obtain ⟨rowj, h1, h2, h3⟩ := hd5 j hj
          refine ⟨rowj, by rw [List.getElem?_set_ne (Ne.symm hji)]; exact h1, h2, ?_⟩
          simp only [hji, if_false]; exact h3
      obtain ⟨d1, hr1, hrep1⟩ := ih (i + 1) _ _ (by omega) (by omega) hstep
      refine ⟨d1, ?_, hrep1.congr ?_⟩
      · simp only [for_loop, hr, hload, hc, hcp, hd1, load_ok hrow, hv]
        simp only [hr] at hr1
        exact hr1
      · intro j _
        by_cases hji : j = i
        · subst hji
          have h1 : ¬ (j + 1 ≤ j ∧ j < j + 1 + k) := by omega
          have h2 : j ≤ j ∧ j < j + (k + 1) := by omega
          rw [if_neg h1, if_pos h2, hci, hc, if_pos rfl]
          simp [cell_list]
        · by_cases hin : i + 1 ≤ j ∧ j < i + 1 + k
          · have h2 : i ≤ j ∧ j < i + (k + 1) := by omega
            rw [if_pos hin, if_pos h2, if_neg hji]
          · have h2 : ¬ (i ≤ j ∧ j < i + (k + 1)) := by omega
            rw [if_neg hin, if_neg h2, if_neg hji]

theorem column_append (j : Nat) (rs : List VECTOR_ST) (r : VECTOR_ST) :
    (column j (rs ++ [r])).map some = (column j rs).map some ++ cell_list r.elems[j]? := by
  unfold column
  rw [List.filterMap_append, List.map_append]
  congr 1
  cases h : r.elems[j]? with
  | none => simp [cell_list, h]
  | some x =>
    cases x with
    | none => simp [cell_list, h]
    | some t => simp [cell_list, h]

/-- Third loop of `transpose` over present source rows no longer than the
number of destination rows. -/
theorem transpose_fill_steps (m : Nat) :
    ∀ (rs done : List VECTOR_ST) (d : TABLE_ST), (∀ r ∈ rs, r.cells_ok ∧ r.len ≤ m) →
      ColRep d m (fun j => (column j done).map some) →
      ∃ d1, fold_steps (fun (x : Option VECTOR_ST) (a : TABLE_ST) =>
            match x with
            | none => (.error .null_deref : Except Fault TABLE_ST)
            | some r => transpose_inner m r a) (rs.map some) d = .ok d1
        ∧ ColRep d1 m (fun j => (column j (done ++ rs)).map some) := by
  intro rs
  induction rs with
  | nil => intro done d _ hd; exact ⟨d, rfl, by simpa using hd⟩
  | cons r rs ih =>
    intro done d h hd
    obtain ⟨hok, hle⟩ := h r (List.mem_cons_self _ _)
    unfold VECTOR_ST.cells_ok at hok
    cases hs : r.strs with
    | none => simp [hs] at hok
    | some cells =>
      simp only [hs] at hok
      obtain ⟨d1, hr1, hrep1⟩ := transpose_inner_loop m r cells hs hok.1 hok.2 r.len 0 d _
        (by omega) (by omega) hd
      have hrep2 : ColRep d1 m (fun j => (column j (done ++ [r])).map some) := by
        refine hrep1.congr ?_
        intro j _
        rw [column_append]
        have helems : r.elems = cells.take r.len := by simp [VECTOR_ST.elems, hs]
        by_cases hj : j < r.len
        · have h1 : 0 ≤ j ∧ j < 0 + r.len := by omega
          rw [if_pos h1, helems, List.getElem?_take, if_pos hj]
        · have h1 : ¬ (0 ≤ j ∧ j < 0 + r.len) := by omega
          rw [if_neg h1, helems, List.getElem?_take, if_neg hj]
          simp [cell_list]
      obtain ⟨d2, hr2, hrep3⟩ := ih (done ++ [r]) d1
        (fun u hu => h u (List.mem_cons_of_mem _ hu)) hrep2
      refine ⟨d2, ?_, by simpa using hrep3⟩
      simp only [List.map_cons, fold_steps, transpose_inner, Nat.min_eq_right hle, hr1]
      exact hr2

/-! ## Table: transpose -/

theorem alloc_elems_length {v : VECTOR_ST} (h : v.alloc) : v.elems.length = v.len := by
  unfold VECTOR_ST.alloc at h
  cases hs : v.strs with
  | none => simp [hs] at h
  | some slots =>
    simp only [hs] at h
    simp only [VECTOR_ST.elems, hs, List.length_take]
    omega

theorem copy_slots_right {xs ys : List (Option STRING_ST)}
    (h : List.Forall₂ IsCopySlot xs ys) : ∀ y ∈ ys, ∃ c, y = some c ∧ c.alloc := by
  induction h with
  | nil => intro y hy; simp at hy
  | cons hab _ ih =>
    intro y hy
    rcases List.mem_cons.mp hy with h1 | h1
    · obtain ⟨t, c, _, hc, _, _, _, ha⟩ := hab
      exact ⟨c, by rw [h1, hc], ha⟩
    · exact ih y h1

/-- What `ColRep` says about the rows of the destination Table. -/
theorem ColRep.rows {d : TABLE_ST} {m : Nat} {f : Nat → List (Option STRING_ST)}
    (h : ColRep d m f) :
    d.rows_ok ∧ d.len = m ∧ d.rows.length = m
      ∧ ∀ j < m, ∃ row, d.rows[j]? = some row ∧ row.alloc ∧ row.len = (f j).length
          ∧ List.Forall₂ IsCopySlot (f j) row.elems := by
  obtain ⟨dslots, h1, h2, h3, h4, h5⟩ := h
  have hle : d.len ≤ dslots.length := by omega
  have hget : ∀ x ∈ dslots.take d.len, row_ok x := by
    intro x hx
    obtain ⟨j, hj, hxj⟩ := List.mem_take_iff_getElem.mp hx
    have hjm : j < m := by rw [Nat.min_eq_left hle] at hj; omega
    obtain ⟨row, hrow, hra, hrel⟩ := h5 j hjm
    have hjl : j < dslots.length := by omega
    rw [List.getElem?_eq_getElem hjl] at hrow
    have hx2 : x = some row := by rw [← hxj]; exact Option.some.inj hrow
    rw [hx2]
    show row.cells_ok
    have hra2 := hra
    unfold VECTOR_ST.alloc at hra2
    unfold VECTOR_ST.cells_ok
    cases hs : row.strs with
    | none => simp [hs] at hra2
    | some cells =>
      simp only [hs] at hra2 ⊢
      refine ⟨by omega, ?_⟩
      intro y hy
      have hy2 : y ∈ row.elems := by simpa [VECTOR_ST.elems, hs] using hy
      obtain ⟨c, hyc, hca⟩ := copy_slots_right hrel y hy2
      rw [hyc]; exact hca
  have hrok : d.rows_ok := by
    simp only [TABLE_ST.rows_ok, h1]
    exact ⟨hle, hget⟩
  obtain ⟨slots, hs, _, htake, hrl, _⟩ := rows_ok_rows hrok
  rw [h1] at hs
  cases hs
  refine ⟨hrok, h2, by rw [hrl, h2], ?_⟩
  intro j hj
  obtain ⟨row, hrow, hra, hrel⟩ := h5 j hj
  refine ⟨row, ?_, hra, ?_, hrel⟩
  · have h6 : (dslots.take d.len)[j]? = some (some row) := by
      rw [List.getElem?_take, if_pos (by omega)]; exact hrow
    rw [htake, List.getElem?_map] at h6
    cases hx : d.rows[j]? with
    | none => rw [hx] at h6; cases h6
    | some r => rw [hx] at h6; simp at h6; rw [h6]
  · rw [← alloc_elems_length hra, List.Forall₂.length_eq hrel]

/-- The run of `transpose` on a Table whose rows are all present. -/
theorem transpose_cols (t : TABLE_ST) (h : t.rows_ok) :
    ∃ d, transpose (some t) = .ok (some d)
      ∧ ColRep d (max_len t.rows) (fun j => (column j t.rows).map some) := by
  obtain ⟨slots, hs, hlen, htake, hrl, hrows⟩ := rows_ok_rows h
  obtain ⟨d0, hr0, hrep0⟩ := transpose_rows_ok (max_len t.rows)
  have hloop := for_loop_load slots (fun (x : Option VECTOR_ST) (a : TABLE_ST) =>
      match x with
      | none => (.error .null_deref : Except Fault TABLE_ST)
      | some r => transpose_inner (max_len t.rows) r a)
    (fun i a =>
      match load slots i with
      | .error e => .error e
      | .ok none => .error .null_deref
      | .ok (some r) => transpose_inner (max_len t.rows) r a)
    (by
      intro j a
      beta_reduce
      cases load slots j with
      | error e => rfl
      | ok x => cases x <;> rfl)
    t.len 0 d0 (by omega)
  rw [List.drop_zero, htake] at hloop
  obtain ⟨d1, hr1, hrep1⟩ := transpose_fill_steps (max_len t.rows) t.rows [] d0
    (fun r hr => ⟨hrows r hr, le_max_len hr⟩) (by simpa [column] using hrep0)
  rw [hr1] at hloop
  refine ⟨d1, ?_, by simpa using hrep1⟩
  have hmax : max_length_loop (some slots) t.len = .ok (max_len t.rows) := by
    rw [← hs]; exact max_length_loop_ok h
  have hdel := del_table_ok t h
  simp only [transpose, check_table, hs, hmax, hr0, transpose_fill, hloop]
  rw [hdel]

/-- C5: for every Table whose rows are all present (each with its slot array
holding `len` slots, a present cell being a Text with an allocated buffer),
`transpose` returns a Table with exactly `max_len` rows, all present, where
`max_len` is the greatest row length (the value `t_get_max_vector_len`
returns, 0 for no rows); its row `j` holds, in source row order, one copy (same
length, capacity and bytes) of each present cell `(i, j)` with
`j < length (row i)`, and nothing else. -/
theorem transpose_spec (t : TABLE_ST) (h : t.rows_ok) :
    ∃ d, transpose (some t) = .ok (some d)
      ∧ t_get_max_vector_len (some t) = .ok (max_len t.rows)
      ∧ d.len = max_len t.rows ∧ d.rows.length = max_len t.rows
      ∧ ∀ j < max_len t.rows, ∃ row, d.rows[j]? = some row
          ∧ row.len = (column j t.rows).length
          ∧ List.Forall₂ IsCopySlot ((column j t.rows).map some) row.elems := by
  obtain ⟨d, hr, hrep⟩ := transpose_cols t h
  obtain ⟨_, hlen, hrl, hcols⟩ := hrep.rows
  refine ⟨d, hr, ?_, hlen, hrl, ?_⟩
  · simp only [t_get_max_vector_len]; exact max_length_loop_ok h
  · intro j hj
    obtain ⟨row, h1, _, h2, h3⟩ := hcols j hj
    exact ⟨row, h1, by rw [h2, List.length_map], h3⟩

/-- C5 on the Table with the rows `["a","b","c"]`, `["d"]`, `["e","f"]` (row
lengths 3, 1, 2): the result has three rows, of lengths 3, 2, 1, holding copies
of `a, d, e`, of `b, f` and of `c`. -/
theorem transpose_spec_witness :
    ∃ d r0 r1 r2, transpose (some ⟨some [
          some ⟨some [some ⟨some [97, 0], 1, 2⟩, some ⟨some [98, 0], 1, 2⟩,
            some ⟨some [99, 0], 1, 2⟩], 3, 3⟩,
          some ⟨some [some ⟨some [100, 0], 1, 2⟩], 1, 1⟩,
          some ⟨some [some ⟨some [101, 0], 1, 2⟩, some ⟨some [102, 0], 1, 2⟩], 2, 2⟩],
          3, 3⟩) = .ok (some d)
      ∧ d.len = 3 ∧ d.rows = [r0, r1, r2] ∧ r0.len = 3 ∧ r1.len = 2 ∧ r2.len = 1
      ∧ List.Forall₂ IsCopySlot [some ⟨some [97, 0], 1, 2⟩, some ⟨some [100, 0], 1, 2⟩,
          some ⟨some [101, 0], 1, 2⟩] r0.elems
      ∧ List.Forall₂ IsCopySlot [some ⟨some [98, 0], 1, 2⟩, some ⟨some [102, 0], 1, 2⟩]
          r1.elems
      ∧ List.Forall₂ IsCopySlot [some ⟨some [99, 0], 1, 2⟩] r2.elems := by
  obtain ⟨d, hr, _, hlen, hrl, hcol⟩ := transpose_spec ⟨some [
      some ⟨some [some ⟨some [97, 0], 1, 2⟩, some ⟨some [98, 0], 1, 2⟩,
        some ⟨some [99, 0], 1, 2⟩], 3, 3⟩,
      some ⟨some [some ⟨some [100, 0], 1, 2⟩], 1, 1⟩,
      some ⟨some [some ⟨some [101, 0], 1, 2⟩, some ⟨some [102, 0], 1, 2⟩], 2, 2⟩],
      3, 3⟩ (by decide)
  have hrl3 : d.rows.length = 3 := hrl
  obtain ⟨r0, h0, l0, f0⟩ := hcol 0 (by decide)
  obtain ⟨r1, h1, l1, f1⟩ := hcol 1 (by decide)
  obtain ⟨r2, h2, l2, f2⟩ := hcol 2 (by decide)
  refine ⟨d, r0, r1, r2, hr, hlen, ?_, l0, l1, l2, f0, f1, f2⟩
  generalize d.rows = l at hrl3 h0 h1 h2
  rcases l with _ | ⟨a, _ | ⟨b, _ | ⟨c, _ | ⟨e, l⟩⟩⟩⟩ <;> simp at hrl3 h0 h1 h2
  rw [h0, h1, h2]

/-! ## Table: transpose twice -/

theorem forall₂_getElem? {α β : Type} {R : α → β → Prop} {xs : List α} {ys : List β}
    (h : List.Forall₂ R xs ys) :
    ∀ (i : Nat) (x : α), xs[i]? = some x → ∃ y, ys[i]? = some y ∧ R x y := by
  induction h with
  | nil => intro i x hx; simp at hx
  | cons hab _ ih =>
    intro i x hx
    cases i with
    | zero => simp at hx; subst hx; exact ⟨_, by simp, hab⟩
    | succ i => simp at hx; simpa using ih i x hx

theorem forall₂_of_getElem? {α β : Type} {R : α → β → Prop} :
    ∀ (xs : List α) (ys : List β), xs.length = ys.length →
      (∀ (i : Nat) (x : α) (y : β), xs[i]? = some x → ys[i]? = some y → R x y) →
      List.Forall₂ R xs ys := by
  intro xs
  induction xs with
  | nil =>
    intro ys hl _
    cases ys with
    | nil => exact List.Forall₂.nil
    | cons y ys => simp at hl
  | cons x xs ih =>
    intro ys hl h
    cases ys with
    | nil => simp at hl
    | cons y ys =>
      refine List.Forall₂.cons (h 0 x y (by simp) (by simp)) (ih ys (by simpa using hl) ?_)
      intro i a b ha hb
      exact h (i + 1) a b (by simpa using ha) (by simpa using hb)

theorem column_full (j : Nat) :
    ∀ (rs : List VECTOR_ST), (∀ r ∈ rs, ∃ a, r.elems[j]? = some (some a)) →
      (column j rs).map some = rs.map (fun r => r.elems[j]?.join) := by
  intro rs
  induction rs with
  | nil => intro _; rfl
  | cons r rs ih =>
    intro h
    obtain ⟨a, ha⟩ := h r (List.mem_cons_self _ _)
    have ih1 := ih (fun u hu => h u (List.mem_cons_of_mem _ hu))
    unfold column at ih1 ⊢
    simp only [List.map_cons]
    rw [List.filterMap_cons_some (by rw [ha]; rfl), List.map_cons, ih1, ha]
    rfl

theorem max_len_const (n : Nat) :
    ∀ (rs : List VECTOR_ST), rs ≠ [] → (∀ r ∈ rs, r.len = n) → max_len rs = n := by
  intro rs
  induction rs with
  | nil => intro h _; exact absurd rfl h
  | cons r rs ih =>
    intro _ h
    have hr := h r (List.mem_cons_self _ _)
    by_cases hrs : rs = []
    · subst hrs; simp [max_len, hr]
    · have := ih hrs (fun u hu => h u (List.mem_cons_of_mem _ hu))
      unfold max_len at this ⊢
      simp only [List.map_cons, List.foldr_cons, this, hr]
      omega

/-- One column of the result of `transpose` when every source row has a
present cell in that column. -/
theorem transpose_cell (t d : TABLE_ST) (j : Nat)
    (hrep : ColRep d (max_len t.rows) (fun j => (column j t.rows).map some))
    (hj : j < max_len t.rows) (hfull : ∀ r ∈ t.rows, ∃ a, r.elems[j]? = some (some a)) :
    ∃ row, d.rows[j]? = some row ∧ row.len = t.rows.length ∧ row.alloc
      ∧ ∀ (i : Nat) (r : VECTOR_ST) (a : STRING_ST), t.rows[i]? = some r →
          r.elems[j]? = some (some a) →
          ∃ c, row.elems[i]? = some (some c) ∧ IsCopySlot (some a) (some c) := by
  obtain ⟨_, _, _, hcols⟩ := hrep.rows
  obtain ⟨row, h1, h2, h3, h4⟩ := hcols j hj
  simp only [column_full j t.rows hfull] at h3 h4
  refine ⟨row, h1, by rw [h3, List.length_map], h2, ?_⟩
  intro i r a hr ha
  have hx : (t.rows.map (fun r => r.elems[j]?.join))[i]? = some (some a) := by
    rw [List.getElem?_map, hr, Option.map_some', ha]; rfl
  obtain ⟨y, hy, hrel⟩ := forall₂_getElem? h4 i _ hx
  have hrel2 := hrel
  obtain ⟨a1, c, ha1, hc, _⟩ := hrel2
  refine ⟨c, by rw [hy, hc], ?_⟩
  rw [← hc]; exact hrel

theorem content_eq_bytes_take (t : STRING_ST) (h : t.len ≤ t.mlen) :
    t.content = t.bytes.take t.len := by
  unfold STRING_ST.content STRING_ST.bytes
  cases t.l with
  | none => simp
  | some buf => simp only [List.take_take, Nat.min_eq_left h]

theorem rect_rows {t : TABLE_ST} {k : Nat} (h : t.rect k) :
    t.rows_ok ∧ ∀ r ∈ t.rows, r.len = k ∧ r.elems.length = k
      ∧ ∀ x ∈ r.elems, text_valid x := by
  unfold TABLE_ST.rect at h
  cases hs : t.vs with
  | none => simp [hs] at h
  | some slots =>
    simp only [hs] at h
    have hrow : ∀ r, rect_slot k (some r) → r.cells_ok ∧ r.len = k ∧ r.elems.length = k
        ∧ ∀ x ∈ r.elems, text_valid x := by
      intro r hr
      have hr2 : r.rect_row k := hr
      unfold VECTOR_ST.rect_row at hr2
      unfold VECTOR_ST.cells_ok VECTOR_ST.elems
      cases hc : r.strs with
      | none => simp [hc] at hr2
      | some cells =>
        simp only [hc] at hr2 ⊢
        obtain ⟨h1, h2, h3⟩ := hr2
        rw [h1]
        refine ⟨⟨h2, ?_⟩, rfl, by rw [List.length_take]; omega, h3⟩
        intro x hx
        have := h3 x hx
        cases x with
        | none => exact this.elim
        | some a => exact this.1
    have hok : t.rows_ok := by
      simp only [TABLE_ST.rows_ok, hs]
      refine ⟨h.1, ?_⟩
      intro x hx
      have := h.2 x hx
      cases x with
      | none => exact this.elim
      | some r => exact (hrow r this).1
    refine ⟨hok, ?_⟩
    intro r hr
    obtain ⟨slots1, hs1, _, htake, _, _⟩ := rows_ok_rows hok
    rw [hs] at hs1
    cases hs1
    have hmem : some r ∈ slots.take t.len := by
      rw [htake]; exact List.mem_map_of_mem _ hr
    exact (hrow r (h.2 _ hmem)).2

/-- C4, as amended: for every Table with `n` rows that all have the same
length `k`, every row and every cell present (cells being valid Texts), with
`k ≥ 1` or `n = 0`, both calls of `transpose` return, and
`transpose(transpose(T))` is a Table with `n` present rows of length `k` whose
cell `(i, j)` has the same length, capacity, bytes and content as cell `(i, j)`
of `T`. -/
theorem transpose_transpose (t : TABLE_ST) (k : Nat) (h : t.rect k)
    (hk : 1 ≤ k ∨ t.len = 0) :
    ∃ d1 d2, transpose (some t) = .ok (some d1) ∧ transpose (some d1) = .ok (some d2)
      ∧ d2.len = t.len ∧ d2.rows.length = t.len
      ∧ ∀ i < t.len, ∃ r r2, t.rows[i]? = some r ∧ d2.rows[i]? = some r2 ∧ r2.len = k
          ∧ List.Forall₂ SameText r.elems r2.elems := by
  obtain ⟨hok, hrows⟩ := rect_rows h
  obtain ⟨slots, hs, _, _, hrl, _⟩ := rows_ok_rows hok
  obtain ⟨d1, hr1, hrep1⟩ := transpose_cols t hok
  obtain ⟨hok1, hlen1, hrl1, hcols1⟩ := hrep1.rows
  obtain ⟨d2, hr2, hrep2⟩ := transpose_cols d1 hok1
  obtain ⟨_, hlen2, hrl2, _⟩ := hrep2.rows
  by_cases hn : t.len = 0
  · have hR : t.rows = [] := List.eq_nil_of_length_eq_zero (hrl.trans hn)
    have hM1 : max_len t.rows = 0 := by rw [hR]; rfl
    have hD1 : d1.rows = [] := List.eq_nil_of_length_eq_zero (hrl1.trans hM1)
    have hM2 : max_len d1.rows = 0 := by rw [hD1]; rfl
    refine ⟨d1, d2, hr1, hr2, by rw [hlen2, hM2, hn], by rw [hrl2, hM2, hn], ?_⟩
    intro i hi; omega
  · have hk1 : 1 ≤ k := by
      rcases hk with h1 | h1
      · exact h1
      · exact absurd h1 hn
    have hRne : t.rows ≠ [] := by
      intro h0; rw [h0] at hrl; simp at hrl; omega
    have hM1 : max_len t.rows = k := max_len_const k _ hRne (fun r hr => (hrows r hr).1)
    have hcell : ∀ j < k, ∀ r ∈ t.rows,
        ∃ a, r.elems[j]? = some (some a) ∧ text_valid (some a) := by
      intro j hj r hr
      obtain ⟨_, hel, hval⟩ := hrows r hr
      have hjl : j < r.elems.length := by omega
      have hx := hval r.elems[j] (List.getElem_mem hjl)
      cases hc : r.elems[j] with
      | none => rw [hc] at hx; exact hx.elim
      | some a =>
        exact ⟨a, by rw [List.getElem?_eq_getElem hjl, hc], by rw [hc] at hx; exact hx⟩
    have hd1 : ∀ j < k, ∃ row, d1.rows[j]? = some row ∧ row.len = t.len ∧ row.alloc
        ∧ ∀ (i : Nat) (r : VECTOR_ST) (a : STRING_ST), t.rows[i]? = some r →
            r.elems[j]? = some (some a) →
            ∃ c, row.elems[i]? = some (some c) ∧ IsCopySlot (some a) (some c) := by
      intro j hj
      obtain ⟨row, h1, h2, h3, h4⟩ := transpose_cell t d1 j hrep1 (by rw [hM1]; exact hj)
        (fun r hr => (hcell j hj r hr).imp (fun a ha => ha.1))
      exact ⟨row, h1, by rw [h2, hrl], h3, h4⟩
    have hD1len : d1.rows.length = k := by rw [hrl1, hM1]
    have hD1ne : d1.rows ≠ [] := by
      intro h0; rw [h0] at hD1len; simp at hD1len; omega
    have hD1rows : ∀ row ∈ d1.rows, row.len = t.len
        ∧ ∀ i < t.len, ∃ c, row.elems[i]? = some (some c) := by
      intro row hrow
      obtain ⟨j, hj, hrj⟩ := List.mem_iff_getElem.mp hrow
      obtain ⟨row1, h1, h2, h3, h4⟩ := hd1 j (by omega)
      have hrr : row1 = row := by
        rw [List.getElem?_eq_getElem hj, hrj] at h1
        exact (Option.some.inj h1).symm
      subst hrr
      refine ⟨h2, ?_⟩
      intro i hi
      have hil : i < t.rows.length := by omega
      obtain ⟨a, ha, _⟩ := hcell j (by omega) t.rows[i] (List.getElem_mem hil)
      obtain ⟨c, hc, _⟩ := h4 i t.rows[i] a (List.getElem?_eq_getElem hil) ha
      exact ⟨c, hc⟩
    have hM2 : max_len d1.rows = t.len :=
      max_len_const _ _ hD1ne (fun r hr => (hD1rows r hr).1)
    refine ⟨d1, d2, hr1, hr2, by rw [hlen2, hM2], by rw [hrl2, hM2], ?_⟩
    intro i hi
    have hil : i < t.rows.length := by omega
    obtain ⟨r2, h1, h2, h3, h4⟩ := transpose_cell d1 d2 i hrep2 (by rw [hM2]; exact hi)
      (fun row hrow => (hD1rows row hrow).2 i hi)
    refine ⟨t.rows[i], r2, List.getElem?_eq_getElem hil, h1, by rw [h2, hD1len], ?_⟩
    obtain ⟨_, hel, hval⟩ := hrows t.rows[i] (List.getElem_mem hil)
    apply forall₂_of_getElem?
    · rw [hel, alloc_elems_length h3, h2, hD1len]
    · intro j x y hx hy
      have hjk : j < k := by
        by_contra hge
        rw [List.getElem?_eq_none (by omega)] at hx
        cases hx
      obtain ⟨a, ha, hav⟩ := hcell j hjk t.rows[i] (List.getElem_mem hil)
      obtain ⟨row, hrow1, _, _, hrow4⟩ := hd1 j hjk
      obtain ⟨c, hc, hac⟩ := hrow4 i t.rows[i] a (List.getElem?_eq_getElem hil) ha
      obtain ⟨b, hb, hcb⟩ := h4 j row c hrow1 hc
      rw [ha] at hx
      rw [hb] at hy
      cases hx
      cases hy
      obtain ⟨a1, c1, e1, e2, l1, m1, b1, _⟩ := hac
      obtain ⟨c2, b2, e3, e4, l2, m2, b3, _⟩ := hcb
      cases e1
      cases e2
      cases e3
      cases e4
      have hav2 : a.len ≤ a.mlen := hav.2
      refine ⟨a, b, rfl, rfl, by rw [l2, l1], by rw [m2, m1], by rw [b3, b1], ?_⟩
      rw [content_eq_bytes_take b (by rw [l2, l1, m2, m1]; exact hav2),
        content_eq_bytes_take a hav2, b3, b1, l2, l1]

/-- C4 as amended, on the 2 × 2 Table with the rows `["a","b"]`, `["c","d"]`. -/
theorem transpose_transpose_witness :
    ∃ d1 d2, transpose (some ⟨some [
          some ⟨some [some ⟨some [97, 0], 1, 2⟩, some ⟨some [98, 0], 1, 2⟩], 2, 2⟩,
          some ⟨some [some ⟨some [99, 0], 1, 2⟩, some ⟨some [100, 0], 1, 2⟩], 2, 2⟩],
          2, 2⟩) = .ok (some d1)
      ∧ transpose (some d1) = .ok (some d2)
      ∧ d2.len = 2 ∧ d2.rows.length = 2
      ∧ ∀ i < 2, ∃ r r2, (⟨some [
            some ⟨some [some ⟨some [97, 0], 1, 2⟩, some ⟨some [98, 0], 1, 2⟩], 2, 2⟩,
            some ⟨some [some ⟨some [99, 0], 1, 2⟩, some ⟨some [100, 0], 1, 2⟩], 2, 2⟩],
            2, 2⟩ : TABLE_ST).rows[i]? = some r
          ∧ d2.rows[i]? = some r2 ∧ r2.len = 2
          ∧ List.Forall₂ SameText r.elems r2.elems :=
  transpose_transpose ⟨some [
      some ⟨some [some ⟨some [97, 0], 1, 2⟩, some ⟨some [98, 0], 1, 2⟩], 2, 2⟩,
      some ⟨some [some ⟨some [99, 0], 1, 2⟩, some ⟨some [100, 0], 1, 2⟩], 2, 2⟩],
      2, 2⟩ 2 (by decide) (Or.inl (by decide))

/-- C4 fails as stated for `k = 0`: the Table with two empty rows (`n = 2`,
`k = 0`) transposes to the Table without rows, and that one transposes to the
Table without rows again, so `transpose(transpose(T))` has 0 rows, not 2. -/
theorem transpose_transpose_empty_rows :
    (⟨some [some ⟨some [], 0, 0⟩, some ⟨some [], 0, 0⟩], 2, 2⟩ : TABLE_ST).rect 0
    ∧ transpose (some ⟨some [some ⟨some [], 0, 0⟩, some ⟨some [], 0, 0⟩], 2, 2⟩)
        = .ok (some new_table)
    ∧ transpose (some new_table) = .ok (some new_table)
    ∧ new_table.len = 0 ∧ new_table.rows = [] :=
  ⟨by decide, rfl, rfl, rfl, rfl⟩

/-! ## Text and Row: exact effect of one append, and the constructors -/

/-- C13: for every Text with an allocated buffer and `capacity ≥ length + 1`
(the capacity being a `size_t` value) and every byte `b`, `s_append_c` yields a
Text with length `len + 1`, content the old content followed by `b`, the zero
sentinel at the new length (part of `inv`), and capacity `mlen + 256` when
`len = mlen − 1` and `mlen` otherwise. -/
theorem s_append_c_exact (t : STRING_ST) (b : Nat) (ha : t.alloc)
    (hcap : t.len + 1 ≤ t.mlen) (hsz : t.mlen < SIZE_MOD) :
    ∃ t1, s_append_c (some t) b = .ok (some t1)
      ∧ t1.len = t.len + 1
      ∧ t1.content = t.content ++ [b]
      ∧ t1.inv
      ∧ t1.mlen = if t.len = t.mlen - 1 then t.mlen + DEFAULT_MEMORY_LEN else t.mlen := by
  obtain ⟨t1, hr, h1, h2, h3, h4⟩ := s_append_c_spec t b ha hcap (by omega)
  exact ⟨t1, hr, h1, h2, h3, h4 (by omega)⟩

/-- C13 on the full Text `"hi"` of capacity 3 (growth by 256) and the
byte `'a'`. -/
theorem s_append_c_exact_witness :
    ∃ t1, s_append_c (some ⟨some [104, 105, 0], 2, 3⟩) 97 = .ok (some t1)
      ∧ t1.len = 2 + 1
      ∧ t1.content = [104, 105] ++ [97]
      ∧ t1.inv
      ∧ t1.mlen = 3 + 256 :=
  s_append_c_exact ⟨some [104, 105, 0], 2, 3⟩ 97 (by decide) (by decide) (by decide)

/-- C14: for every Text with an allocated buffer and `capacity ≥ length + 1`
and every literal of `n` non-zero bytes `bs` (followed by its terminator),
`s_append_l` yields a Text with length `len + n`, content the old content
followed by `bs`, the zero sentinel at the new length (part of `inv`), and
capacity `len + n + 1` when `len + n ≥ mlen` and `mlen` otherwise. -/
theorem s_append_l_exact (t : STRING_ST) (bs rest : List Nat) (ha : t.alloc)
    (hcap : t.len + 1 ≤ t.mlen) (h0 : 0 ∉ bs) :
    ∃ t1, s_append_l (some t) (bs ++ 0 :: rest) = .ok (some t1)
      ∧ t1.len = t.len + bs.length
      ∧ t1.content = t.content ++ bs
      ∧ t1.inv
      ∧ t1.mlen
          = if t.len + bs.length ≥ t.mlen then t.len + bs.length + 1 else t.mlen := by
  obtain ⟨t1, hr, h1, h2, h3, h4⟩ := s_append_l_spec t bs rest ha (by omega) h0
  exact ⟨t1, hr, h1, h3, h4, h2⟩

/-- C14 on the Text `"hi"` of capacity 4 and the literal `"abc"` (tight fit:
capacity 6). -/
theorem s_append_l_exact_witness :
    ∃ t1, s_append_l (some ⟨some [104, 105, 0, 0], 2, 4⟩) ([97, 98, 99] ++ 0 :: [])
        = .ok (some t1)
      ∧ t1.len = 2 + 3
      ∧ t1.content = [104, 105] ++ [97, 98, 99]
      ∧ t1.inv
      ∧ t1.mlen = 2 + 3 + 1 :=
  s_append_l_exact ⟨some [104, 105, 0, 0], 2, 4⟩ [97, 98, 99] [] (by decide) (by decide)
    (by decide)

theorem take_succ_parts {α : Type} (l l0 : List α) (n : Nat) (x : α) (hn : n ≤ l0.length)
    (h : l.take (n + 1) = l0.take n ++ [x]) : l[n]? = some x ∧ l.take n = l0.take n := by
  have hlen : (l0.take n).length = n := by rw [List.length_take]; omega
  refine ⟨?_, ?_⟩
  · have h1 : (l.take (n + 1))[n]? = some x := by
      rw [h, List.getElem?_append_right (by omega), hlen]; simp
    rw [List.getElem?_take] at h1
    simpa using h1
  · have h1 := congrArg (List.take n) h
    rw [List.take_take, Nat.min_eq_left (Nat.le_succ n), List.take_append_eq_append_take,
      hlen, Nat.sub_self] at h1
    simpa [List.take_take] using h1

/-- C15: for every Row with a present slot array of at least `mlen` slots and
`length ≤ capacity`, and every Text-or-absent `x`, `v_append` yields a Row with
length `len + 1`, slot `len` equal to `x`, the slots below `len` unchanged, and
capacity `len + 1` when `len + 1 > mlen` and `mlen` otherwise; `t_append`
follows the same rule for a Table and a Row-or-absent. -/
theorem append_exact :
    (∀ (v : VECTOR_ST) (slots : List (Option STRING_ST)) (x : Option STRING_ST),
      v.strs = some slots → v.len ≤ v.mlen → v.mlen ≤ slots.length →
      ∃ slots1, v_append (some v) x
          = .ok ⟨some slots1, v.len + 1, if v.len + 1 > v.mlen then v.len + 1 else v.mlen⟩
        ∧ slots1[v.len]? = some x ∧ slots1.take v.len = slots.take v.len)
    ∧ (∀ (t : TABLE_ST) (slots : List (Option VECTOR_ST)) (x : Option VECTOR_ST),
      t.vs = some slots → t.len ≤ t.mlen → t.mlen ≤ slots.length →
      ∃ slots1, t_append (some t) x
          = .ok ⟨some slots1, t.len + 1, if t.len + 1 > t.mlen then t.len + 1 else t.mlen⟩
        ∧ slots1[t.len]? = some x ∧ slots1.take t.len = slots.take t.len) := by
  refine ⟨?_, ?_⟩
  · intro v slots x hs h1 h2
    obtain ⟨slots1, hr, htake, _, _⟩ := v_append_ok v slots x hs h1 h2
    obtain ⟨e1, e2⟩ := take_succ_parts slots1 slots v.len x (by omega) htake
    exact ⟨slots1, hr, e1, e2⟩
  · intro t slots x hs h1 h2
    obtain ⟨slots1, hr, htake, _, _⟩ := t_append_ok t slots x hs h1 h2
    obtain ⟨e1, e2⟩ := take_succ_parts slots1 slots t.len x (by omega) htake
    exact ⟨slots1, hr, e1, e2⟩

/-- C15 on the full Row `["a"]` of capacity 1 with the Text `"b"` appended
(capacity becomes 2) and on the empty Table of capacity 2 with an absent Row
appended (capacity stays 2). -/
theorem append_exact_witness :
    (∃ slots1, v_append (some ⟨some [some ⟨some [97, 0], 1, 2⟩], 1, 1⟩)
          (some ⟨some [98, 0], 1, 2⟩) = .ok ⟨some slots1, 1 + 1, 1 + 1⟩
        ∧ slots1[1]? = some (some ⟨some [98, 0], 1, 2⟩)
        ∧ slots1.take 1 = [some ⟨some [97, 0], 1, 2⟩])
    ∧ (∃ slots1, t_append (some ⟨some [none, none], 0, 2⟩) none = .ok ⟨some slots1, 0 + 1, 2⟩
        ∧ slots1[0]? = some none ∧ slots1.take 0 = []) :=
  ⟨append_exact.1 ⟨some [some ⟨some [97, 0], 1, 2⟩], 1, 1⟩ [some ⟨some [97, 0], 1, 2⟩]
      (some ⟨some [98, 0], 1, 2⟩) rfl (by decide) (by decide),
   append_exact.2 ⟨some [none, none], 0, 2⟩ [none, none] none rfl (by decide) (by decide)⟩

/-- C18, evaluated: `del_str(NULL)` dereferences its argument (`str->l` is
read before `str` is tested), while `del_vector(NULL)` and `del_table(NULL)`
return `STRING_FAILURE`; with a present handle whose buffer or slot array is
absent all three return `STRING_FAILURE`, otherwise `STRING_SUCCESS`. -/
theorem del_root_checks :
    del_str none = .error .null_deref
    ∧ del_vector none = .ok STRING_FAILURE
    ∧ del_table none = .ok STRING_FAILURE
    ∧ del_str (some ⟨none, 0, 0⟩) = .ok STRING_FAILURE
    ∧ del_vector (some ⟨none, 0, 0⟩) = .ok STRING_FAILURE
    ∧ del_table (some ⟨none, 0, 0⟩) = .ok STRING_FAILURE
    ∧ del_str (some ⟨some [97, 0], 1, 2⟩) = .ok STRING_SUCCESS
    ∧ del_vector (some ⟨some [some ⟨some [97, 0], 1, 2⟩], 1, 1⟩) = .ok STRING_SUCCESS
    ∧ del_table (some ⟨some [some ⟨some [some ⟨some [97, 0], 1, 2⟩], 1, 1⟩], 1, 1⟩)
        = .ok STRING_SUCCESS :=
  ⟨rfl, rfl, rfl, rfl, rfl, rfl, rfl, rfl, rfl⟩

/-! ## Tokenizer: inputs of any length -/

theorem tok_flush_flush (toks : List (List Nat)) (a y : List Nat) (ap : Bool) :
    tok_flush (tok_flush toks a ap) y true = tok_flush toks (a ++ y) ap := by
  cases ap with
  | false => simp [tok_flush]
  | true => simp [tok_flush]

/-- Without a delimiter in the input the scan extends one token, skipping the
byte read at each full scratch buffer. -/
theorem tok_loop_no_delim (d : Nat) :
    ∀ (cs : List Nat) (toks : List (List Nat)) (acc : List Nat) (ap : Bool), d ∉ cs →
      tok_loop d cs toks acc ap = tok_flush toks (acc ++ keep_bytes acc.length cs) ap := by
  intro cs
  induction cs with
  | nil => intro toks acc ap _; simp [tok_loop, keep_bytes]
  | cons c cs ih =>
    intro toks acc ap hd
    have hcd : ¬ c = d := by
      intro h; apply hd; simp [h]
    have hd1 : d ∉ cs := by
      intro h; apply hd; simp [h]
    by_cases h255 : acc.length = DEFAULT_MEMORY_LEN - 1
    · simp only [tok_loop, h255, or_true, if_true, keep_bytes, decide_True]
      rw [ih _ _ _ hd1, List.nil_append, List.length_nil, tok_flush_flush]
    · simp only [tok_loop, hcd, h255, or_self, if_false, keep_bytes]
      rw [ih _ _ _ hd1, List.length_append, List.length_singleton, List.append_assoc,
        List.singleton_append]

theorem keep_bytes_enum :
    ∀ (cs : List Nat) (q : Nat),
      keep_bytes (q % 256) cs
        = ((cs.enumFrom q).filter (fun p => decide (p.1 % 256 ≠ 255))).map Prod.snd := by
  intro cs
  induction cs with
  | nil => intro q; rfl
  | cons c cs ih =>
    intro q
    have hd255 : DEFAULT_MEMORY_LEN - 1 = 255 := rfl
    by_cases h : q % 256 = 255
    · have h1 : (q + 1) % 256 = 0 := by omega
      simp only [keep_bytes, hd255, h, if_true, List.enumFrom_cons]
      rw [List.filter_cons_of_neg (by simp [h]), ← ih (q + 1), h1]
    · have h1 : (q + 1) % 256 = q % 256 + 1 := by omega
      simp only [keep_bytes, hd255, h, if_false, List.enumFrom_cons]
      rw [List.filter_cons_of_pos (by simp [h]), List.map_cons, ← ih (q + 1), h1]

theorem keep_bytes_length :
    ∀ (cs : List Nat) (i : Nat), i ≤ 255 →
      (keep_bytes i cs).length + (i + cs.length) / 256 = cs.length := by
  intro cs
  induction cs with
  | nil => intro i hi; simp [keep_bytes]; omega
  | cons c cs ih =>
    intro i hi
    have hd255 : DEFAULT_MEMORY_LEN - 1 = 255 := rfl
    by_cases h : i = 255
    · have := ih 0 (by omega)
      simp only [keep_bytes, hd255, h, if_true, List.length_cons]
      omega
    · have := ih (i + 1) (by omega)
      simp only [keep_bytes, hd255, h, if_false, List.length_cons]
      omega

theorem inv_content_length {t : STRING_ST} (h : t.inv) : t.content.length = t.len := by
  unfold STRING_ST.inv at h
  cases hb : t.l with
  | none => simp [hb] at h
  | some buf =>
    simp only [hb] at h
    simp only [STRING_ST.content, hb, List.length_take]
    omega

/-- C19: for every Text (satisfying the Text invariant) of length `L` whose
content holds neither the delimiter `d` nor a zero byte, `parse_delimited_c`
returns a Row of exactly one element, present, whose content is the content of
the Text without the bytes at the 0-based positions `p` with
`p mod 256 = 255`; that content has length `L − ⌊L / 256⌋`. -/
theorem parse_delimited_c_no_delim (t : STRING_ST) (d : Nat) (hinv : t.inv)
    (h0 : 0 ∉ t.content) (hd : d ∉ t.content) :
    ∃ v, parse_delimited_c (some t) d = .ok v
      ∧ v.len = 1
      ∧ v.contents = some [drop_boundary_bytes t.content]
      ∧ (drop_boundary_bytes t.content).length = t.len - t.len / 256 := by
  obtain ⟨rest, hl⟩ := inv_buffer hinv
  have hkeep : keep_bytes 0 t.content = drop_boundary_bytes t.content :=
    keep_bytes_enum t.content 0
  have hbound : ([] : List STRING_ST).length + t.content.count d
      + (if false = true then 0 else 1) ≤ SIZE_MOD := by
    rw [List.count_eq_zero_of_not_mem hd]
    decide
  obtain ⟨v, ts, hr, hrep, hc⟩ := parse_loop_sim d rest t.content
    { v := new_vector, l := List.replicate DEFAULT_MEMORY_LEN 0, i := 0, append := false }
    [] [] h0 new_vector_rep (by simp) rfl (by simp) (by simp) (by simp) (Or.inl hbound)
  rw [tok_loop_no_delim d _ _ _ _ hd] at hc
  simp only [List.map_nil, List.nil_append, List.length_nil, hkeep, tok_flush,
    Bool.false_eq_true, if_false] at hc
  refine ⟨v, ?_, ?_, ?_, ?_⟩
  · simp only [parse_delimited_c, hl]
    exact hr
  · rw [hrep.len_eq, ← List.length_map ts STRING_ST.content, hc]; rfl
  · rw [hrep.contents_eq, hc]
  · have := keep_bytes_length t.content 0 (by omega)
    rw [← hkeep, ← inv_content_length hinv]
    omega

theorem text_300 :
    (⟨some (List.replicate 300 97 ++ [0]), 300, 301⟩ : STRING_ST).inv
    ∧ (⟨some (List.replicate 300 97 ++ [0]), 300, 301⟩ : STRING_ST).content
        = List.replicate 300 97 := by
  have hlen : (List.replicate 300 97).length = 300 := List.length_replicate _ _
  refine ⟨?_, ?_⟩
  · simp only [STRING_ST.inv]
    refine ⟨by decide, by rw [List.length_append, hlen]; decide, ?_⟩
    rw [List.getElem?_append_right (by rw [hlen]), hlen]
    rfl
  · show (List.replicate 300 97 ++ [0]).take 300 = List.replicate 300 97
    exact List.take_left' hlen

/-- C19 on the Text `"abc"` (nothing removed) and on the Text of 300 bytes
`'a'` (one element of 299 bytes), both with the delimiter `','`. -/
theorem parse_delimited_c_no_delim_witness :
    (∃ v, parse_delimited_c (some ⟨some [97, 98, 99, 0], 3, 4⟩) 44 = .ok v
        ∧ v.len = 1
        ∧ v.contents = some [[97, 98, 99]]
        ∧ (drop_boundary_bytes [97, 98, 99]).length = 3)
    ∧ (∃ v, parse_delimited_c (some ⟨some (List.replicate 300 97 ++ [0]), 300, 301⟩) 44
          = .ok v
        ∧ v.len = 1
        ∧ v.contents = some [drop_boundary_bytes
            (⟨some (List.replicate 300 97 ++ [0]), 300, 301⟩ : STRING_ST).content]
        ∧ (drop_boundary_bytes
            (⟨some (List.replicate 300 97 ++ [0]), 300, 301⟩ : STRING_ST).content).length
            = 299) :=
  ⟨parse_delimited_c_no_delim ⟨some [97, 98, 99, 0], 3, 4⟩ 44 (by decide) (by decide)
      (by decide),
   parse_delimited_c_no_delim ⟨some (List.replicate 300 97 ++ [0]), 300, 301⟩ 44
      text_300.1
      (by rw [text_300.2]; intro h; have := List.eq_of_mem_replicate h; omega)
      (by rw [text_300.2]; intro h; have := List.eq_of_mem_replicate h; omega)⟩

theorem getLastD_mem_cons {α : Type} :
    ∀ (xs : List α) (x : α), (x :: xs).getLastD x ∈ x :: xs := by
  intro xs
  induction xs with
  | nil => intro x; simp
  | cons y ys ih =>
    intro x
    have h := ih y
    rw [List.getLastD_cons] at h ⊢
    rw [List.getLastD_cons]
    exact List.mem_cons_of_mem _ h

theorem tok_flush_free (d : Nat) (toks : List (List Nat)) (acc : List Nat) (ap : Bool)
    (ht : ∀ tok ∈ toks, d ∉ tok) (ha : d ∉ acc) : ∀ tok ∈ tok_flush toks acc ap, d ∉ tok := by
  intro tok htok
  cases ap with
  | false =>
    simp only [tok_flush, Bool.false_eq_true, if_false] at htok
    rcases List.mem_append.mp htok with h | h
    · exact ht tok h
    · simp at h; rw [h]; exact ha
  | true =>
    simp only [tok_flush, if_true] at htok
    rcases List.mem_append.mp htok with h | h
    · exact ht tok (List.mem_of_mem_dropLast h)
    · simp only [List.mem_singleton] at h
      rw [h]
      intro hmem
      rcases List.mem_append.mp hmem with h1 | h1
      · cases toks with
        | nil => simp at h1
        | cons x xs => exact ht _ (getLastD_mem_cons xs x) h1
      · exact ha h1

/-- No token that `tok_loop` produces holds the delimiter. -/
theorem tok_loop_free (d : Nat) :
    ∀ (cs : List Nat) (toks : List (List Nat)) (acc : List Nat) (ap : Bool),
      (∀ tok ∈ toks, d ∉ tok) → d ∉ acc → ∀ tok ∈ tok_loop d cs toks acc ap, d ∉ tok := by
  intro cs
  induction cs with
  | nil => intro toks acc ap ht ha; exact tok_flush_free d toks acc ap ht ha
  | cons c cs ih =>
    intro toks acc ap ht ha
    by_cases hcond : c = d ∨ acc.length = DEFAULT_MEMORY_LEN - 1
    · simp only [tok_loop, hcond, if_true]
      exact ih _ _ _ (tok_flush_free d toks acc ap ht ha) (by simp)
    · simp only [tok_loop, hcond, if_false]
      refine ih _ _ _ ht ?_
      intro h
      rcases List.mem_append.mp h with h1 | h1
      · exact ha h1
      · simp at h1; exact hcond (Or.inl h1.symm)

theorem tok_loop_ne_nil (d : Nat) :
    ∀ (cs : List Nat) (toks : List (List Nat)) (acc : List Nat) (ap : Bool),
      tok_loop d cs toks acc ap ≠ [] := by
  intro cs
  induction cs with
  | nil => intro toks acc ap; cases ap <;> simp [tok_loop, tok_flush]
  | cons c cs ih =>
    intro toks acc ap
    simp only [tok_loop]
    split
    · exact ih _ _ _
    · exact ih _ _ _

theorem size_pred_zero : size_pred 0 = SIZE_MOD - 1 := by decide

theorem parse_flush_empty (v : VECTOR_ST) (slots : List (Option STRING_ST)) (l : List Nat)
    (hs : v.strs = some slots) (h0 : v.len = 0) (hlen : slots.length ≤ SIZE_MOD - 1) :
    parse_flush v l true = .error .out_of_bounds := by
  have hidx : size_pred (v_get_len (some v)) = SIZE_MOD - 1 := by
    simp only [v_get_len, h0]
    exact size_pred_zero
  have hload : load slots (SIZE_MOD - 1) = .error .out_of_bounds := by
    unfold load
    rw [List.getElem?_eq_none hlen]
  simp only [parse_flush, if_true, hidx, v_get_str, hs, hload]

/-- On every Text that satisfies the Text invariant (its length a `size_t`
value) `parse_delimited_c` returns a Row of present Texts, holding the tokens
that `tok_loop` computes from the bytes in front of the first zero byte. -/
theorem parse_delimited_c_tokens (t : STRING_ST) (d : Nat) (hinv : t.inv)
    (hsz : t.len < SIZE_MOD) :
    ∃ v ts bs, parse_delimited_c (some t) d = .ok v ∧ RowRep v ts
      ∧ ts.map STRING_ST.content = tok_loop d bs [] [] false := by
  have hinv2 := hinv
  unfold STRING_ST.inv at hinv2
  cases hl : t.l with
  | none => simp [hl] at hinv2
  | some buf =>
    simp only [hl] at hinv2
    obtain ⟨_, hm, hz⟩ := hinv2
    have hlt : t.len < buf.length := by omega
    have hmem : 0 ∈ buf := by
      rw [List.getElem?_eq_getElem hlt] at hz
      have := List.getElem_mem hlt
      rw [Option.some.inj hz] at this
      exact this
    obtain ⟨bs, rest, hbuf, h0⟩ := List.eq_append_cons_of_mem hmem
    have hbl : bs.length ≤ t.len := by
      by_contra hgt
      have h1 : buf[t.len]? = bs[t.len]? := by
        rw [hbuf, List.getElem?_append_left (by omega)]
      rw [hz, List.getElem?_eq_getElem (by omega)] at h1
      apply h0
      have := List.getElem_mem (show t.len < bs.length by omega)
      rw [← Option.some.inj h1] at this
      exact this
    have hcnt := List.count_le_length d bs
    have hbound : ([] : List STRING_ST).length + bs.count d
        + (if false = true then 0 else 1) ≤ SIZE_MOD := by
      show 0 + bs.count d + 1 ≤ SIZE_MOD
      omega
    obtain ⟨v, ts, hr, hrep, hc⟩ := parse_loop_sim d rest bs
      { v := new_vector, l := List.replicate DEFAULT_MEMORY_LEN 0, i := 0, append := false }
      [] [] h0 new_vector_rep (by simp) rfl (by simp) (by simp) (by simp) (Or.inl hbound)
    simp only [List.map_nil] at hc
    refine ⟨v, ts, bs, ?_, hrep, hc⟩
    simp only [parse_delimited_c, hl, hbuf]
    exact hr

/-- C20: for every input Text (satisfying the Text invariant, its length a
`size_t` value) and every delimiter `d`, `parse_delimited_c` returns a Row with
at least one element, whose slots below its length are all present Texts
(each satisfying the Text invariant) that do not hold the byte `d`.  The call
never faults, although the continuation flush faults on the empty Row: it
reads slot `v_get_len(v) - 1`, which for length 0 is slot `2 ^ 64 - 1`. -/
theorem parse_delimited_c_row (t : STRING_ST) (d : Nat) (hinv : t.inv)
    (hsz : t.len < SIZE_MOD) :
    (∃ v, parse_delimited_c (some t) d = .ok v
      ∧ 1 ≤ v.len ∧ v.elems.length = v.len
      ∧ ∀ x ∈ v.elems, ∃ s, x = some s ∧ s.inv ∧ d ∉ s.content)
    ∧ ∀ l, parse_flush new_vector l true = .error .out_of_bounds := by
  refine ⟨?_, ?_⟩
  · obtain ⟨v, ts, bs, hr, hrep, hc⟩ := parse_delimited_c_tokens t d hinv hsz
    have hne : ts ≠ [] := by
      intro h
      rw [h] at hc
      exact tok_loop_ne_nil d bs [] [] false hc.symm
    refine ⟨v, hr, ?_, ?_, ?_⟩
    · rw [hrep.len_eq]
      exact List.length_pos.mpr hne
    · rw [hrep.2.1, List.length_map, hrep.len_eq]
    · intro x hx
      rw [hrep.2.1] at hx
      obtain ⟨s, hs, hxs⟩ := List.mem_map.mp hx
      refine ⟨s, hxs.symm, hrep.2.2 s hs, ?_⟩
      apply tok_loop_free d bs [] [] false (by simp) (by simp)
      rw [← hc]
      exact List.mem_map_of_mem _ hs
  · intro l
    exact parse_flush_empty new_vector _ l rfl rfl
      (by rw [List.length_replicate]; decide)

/-- C20 on the Text `"a,b"` with the delimiter `','`. -/
theorem parse_delimited_c_row_witness :
    (∃ v, parse_delimited_c (some ⟨some [97, 44, 98, 0], 3, 4⟩) 44 = .ok v
      ∧ 1 ≤ v.len ∧ v.elems.length = v.len
      ∧ ∀ x ∈ v.elems, ∃ s, x = some s ∧ s.inv ∧ 44 ∉ s.content)
    ∧ ∀ l, parse_flush new_vector l true = .error .out_of_bounds :=
  parse_delimited_c_row ⟨some [97, 44, 98, 0], 3, 4⟩ 44 (by decide) (by decide)

/-! ## Text invariant of produced Texts -/

theorem strlen_inv :
    ∀ (lit : List Nat) (n : Nat), strlen lit = .ok n →
      ∃ bs rest, lit = bs ++ 0 :: rest ∧ 0 ∉ bs := by
  intro lit
  induction lit with
  | nil => intro n h; simp [strlen] at h
  | cons c cs ih =>
    intro n h
    by_cases hc : c = 0
    · exact ⟨[], cs, by simp [hc], by simp⟩
    · simp only [strlen, hc, if_false] at h
      cases hs : strlen cs with
      | error e => rw [hs] at h; cases h
      | ok m =>
        obtain ⟨bs, rest, e1, e2⟩ := ih m hs
        refine ⟨c :: bs, rest, by rw [e1]; rfl, ?_⟩
        intro hmem
        rcases List.mem_cons.mp hmem with h1 | h1
        · exact hc h1.symm
        · exact e2 h1

/-- A returning `s_append_l` leaves the Text invariant in place. -/
theorem s_append_l_inv_of_ok (s t : STRING_ST) (lit : List Nat) (ha : s.alloc)
    (hle : s.len ≤ s.mlen) (h : s_append_l (some s) lit = .ok (some t)) : t.inv := by
  have hstr : ∃ n, strlen lit = .ok n := by
    unfold STRING_ST.alloc at ha
    cases hl : s.l with
    | none => simp [hl] at ha
    | some buf =>
      cases hs : strlen lit with
      | error e => simp [s_append_l, hl, hs] at h
      | ok n => exact ⟨n, rfl⟩
  obtain ⟨n, hn⟩ := hstr
  obtain ⟨bs, rest, e1, e2⟩ := strlen_inv lit n hn
  obtain ⟨t1, hr, _, _, _, hinv⟩ := s_append_l_spec s bs rest ha hle e2
  rw [← e1, h] at hr
  cases hr
  exact hinv

theorem inv_first_zero {t : STRING_ST} (h : t.inv) :
    ∃ bs rest, t.l = some (bs ++ 0 :: rest) ∧ 0 ∉ bs := by
  unfold STRING_ST.inv at h
  cases hl : t.l with
  | none => simp [hl] at h
  | some buf =>
    simp only [hl] at h
    obtain ⟨_, hm, hz⟩ := h
    have hlt : t.len < buf.length := by omega
    have hmem : 0 ∈ buf := by
      rw [List.getElem?_eq_getElem hlt] at hz
      have := List.getElem_mem hlt
      rw [Option.some.inj hz] at this
      exact this
    obtain ⟨bs, rest, hbuf, h0⟩ := List.eq_append_cons_of_mem hmem
    exact ⟨bs, rest, by rw [hbuf], h0⟩

/-- Second loop of `s_concat` on sources that satisfy the Text invariant: it
returns, and the result satisfies the invariant as soon as one append ran. -/
theorem s_concat_loop_inv :
    ∀ (srcs : List (Option STRING_ST)) (acc : STRING_ST), acc.alloc → acc.len ≤ acc.mlen →
      (∀ x ∈ srcs.filterMap id, x.inv) →
      ∃ r, s_concat_loop srcs (some acc) = .ok (some r) ∧ r.alloc ∧ r.len ≤ r.mlen
        ∧ ((acc.inv ∨ srcs.filterMap id ≠ []) → r.inv) := by
  intro srcs
  induction srcs with
  | nil =>
    intro acc ha hle _
    refine ⟨acc, rfl, ha, hle, ?_⟩
    intro h
    rcases h with h | h
    · exact h
    · exact absurd rfl h
  | cons x srcs ih =>
    intro acc ha hle h
    cases x with
    | none =>
      obtain ⟨r, hr, h1, h2, h3⟩ := ih acc ha hle (by simpa using h)
      exact ⟨r, by simpa [s_concat_loop] using hr, h1, h2, by simpa using h3⟩
    | some t =>
      have hrest : ∀ x ∈ srcs.filterMap id, x.inv := by
        intro y hy
        apply h y
        simp only [List.filterMap_cons_some (rfl : id (some t) = some t)]
        exact List.mem_cons_of_mem _ hy
      have hinv : t.inv := h t (by simp)
      obtain ⟨bs, rest, hl, h0⟩ := inv_first_zero hinv
      obtain ⟨t1, hr1, _, _, _, h5⟩ := s_append_l_spec acc bs rest ha hle h0
      obtain ⟨ha1, hcap1⟩ := inv_alloc h5
      obtain ⟨r, hr, h1, h2, h3⟩ := ih t1 ha1 (by omega) hrest
      refine ⟨r, ?_, h1, h2, fun _ => h3 (Or.inl h5)⟩
      simp only [s_concat_loop, hl, hr1]
      exact hr

theorem new_empty_str_s_inv (sz : Nat) (h : 1 ≤ sz) : (new_empty_str_s sz).inv := by
  show 0 + 1 ≤ sz ∧ sz ≤ (List.replicate (sz * SIZEOF_SIZE_T) 0).length
    ∧ (List.replicate (sz * SIZEOF_SIZE_T) 0)[0]? = some 0
  have h8 : SIZEOF_SIZE_T = 8 := rfl
  rw [List.length_replicate, h8]
  refine ⟨by omega, by omega, ?_⟩
  rw [List.getElem?_replicate]
  simp
  omega

/-- C11, as amended: every Text produced by `new_empty_str`, by
`new_empty_str_s` with a requested capacity of at least 1, by `new_str` or
`new_str_s`, by `s_concat` with at least one present source, by `s_copy`, and
by any sequence of `s_append_c` / `s_append_l` applied to such a Text satisfies
`capacity ≥ length + 1` and has the zero sentinel at buffer index `length`
(first part, `inv` being these two facts on an allocated buffer); and these
operations do return a Text on such Texts and on zero-terminated literals
(second part), a length passed to `s_append_c` being a `size_t` value. -/
theorem text_produced_inv :
    (∀ t, TextProduced t → t.inv)
    ∧ (∀ (bs rest : List Nat), 0 ∉ bs → ∃ t, new_str (bs ++ 0 :: rest) = .ok (some t))
    ∧ (∀ (bs rest : List Nat) (h : Nat), 0 ∉ bs →
        ∃ t, new_str_s (bs ++ 0 :: rest) h = .ok (some t))
    ∧ (∀ (srcs : List (Option STRING_ST)), (∀ x ∈ srcs.filterMap id, x.inv) →
        ∃ t, s_concat srcs = .ok (some t))
    ∧ (∀ (s : STRING_ST), s.inv → ∃ t, s_copy (some s) = .ok (some t))
    ∧ (∀ (s : STRING_ST) (b : Nat), s.inv → s.len < SIZE_MOD →
        ∃ t, s_append_c (some s) b = .ok (some t))
    ∧ (∀ (s : STRING_ST) (bs rest : List Nat), s.inv → 0 ∉ bs →
        ∃ t, s_append_l (some s) (bs ++ 0 :: rest) = .ok (some t)) := by
  refine ⟨?_, ?_, ?_, ?_, ?_, ?_, ?_⟩
  · intro t h
    induction h with
    | empty => exact new_empty_str_s_inv DEFAULT_MEMORY_LEN (by decide)
    | empty_s sz h => exact new_empty_str_s_inv sz h
    | str lit t h =>
      obtain ⟨ha, hle, _, _⟩ := new_empty_str_alloc
      rw [new_str_eq] at h
      exact s_append_l_inv_of_ok new_empty_str t lit ha hle h
    | str_s lit n t h =>
      obtain ⟨ha, hl, _⟩ := new_empty_str_s_alloc ((n + 1) % SIZE_MOD)
      rw [new_str_s_eq] at h
      exact s_append_l_inv_of_ok (new_empty_str_s ((n + 1) % SIZE_MOD)) t lit ha
        (by rw [hl]; exact Nat.zero_le _) h
    | concat srcs t _ hne h ih =>
      obtain ⟨ha, hl, _⟩ := new_empty_str_s_alloc (s_concat_total srcs)
      obtain ⟨r, hr, _, _, hinv⟩ := s_concat_loop_inv srcs
        (new_empty_str_s (s_concat_total srcs)) ha (by rw [hl]; exact Nat.zero_le _) ih
      have hrt : s_concat srcs = .ok (some r) := hr
      rw [h] at hrt
      cases hrt
      exact hinv (Or.inr hne)
    | copy s t _ h ih =>
      obtain ⟨c, hc, _, _, _, _, _, hci⟩ := s_copy_spec s (inv_alloc ih).1
      rw [h] at hc
      cases hc
      exact hci ih
    | append_c s b t _ hsz h ih =>
      obtain ⟨ha, hcap⟩ := inv_alloc ih
      obtain ⟨t1, hr, _, _, hinv, _⟩ := s_append_c_spec s b ha hcap hsz
      rw [h] at hr
      cases hr
      exact hinv
    | append_l s lit t _ h ih =>
      obtain ⟨ha, hcap⟩ := inv_alloc ih
      exact s_append_l_inv_of_ok s t lit ha (by omega) h
  · intro bs rest h0
    rw [new_str_eq]
    obtain ⟨ha, hle, _, _⟩ := new_empty_str_alloc
    obtain ⟨t, hr, _⟩ := s_append_l_spec new_empty_str bs rest ha hle h0
    exact ⟨t, hr⟩
  · intro bs rest n h0
    rw [new_str_s_eq]
    obtain ⟨ha, hl, _⟩ := new_empty_str_s_alloc ((n + 1) % SIZE_MOD)
    obtain ⟨t, hr, _⟩ := s_append_l_spec (new_empty_str_s ((n + 1) % SIZE_MOD)) bs rest ha
      (by rw [hl]; exact Nat.zero_le _) h0
    exact ⟨t, hr⟩
  · intro srcs h
    obtain ⟨ha, hl, _⟩ := new_empty_str_s_alloc (s_concat_total srcs)
    obtain ⟨r, hr, _⟩ := s_concat_loop_inv srcs
      (new_empty_str_s (s_concat_total srcs)) ha (by rw [hl]; exact Nat.zero_le _) h
    exact ⟨r, hr⟩
  · intro s hinv
    obtain ⟨c, hc, _⟩ := s_copy_spec s (inv_alloc hinv).1
    exact ⟨c, hc⟩
  · intro s b hinv hsz
    obtain ⟨ha, hcap⟩ := inv_alloc hinv
    obtain ⟨t1, hr, _⟩ := s_append_c_spec s b ha hcap hsz
    exact ⟨t1, hr⟩
  · intro s bs rest hinv h0
    obtain ⟨ha, hcap⟩ := inv_alloc hinv
    obtain ⟨t1, hr, _⟩ := s_append_l_spec s bs rest ha (by omega) h0
    exact ⟨t1, hr⟩

/-- C11 as amended, on the Text that `s_append_c` with the byte `'a'` makes of
`new_empty_str_s(4)`, and on `s_copy` of the Text `"a"`. -/
theorem text_produced_inv_witness :
    (⟨some (97 :: List.replicate 31 0), 1, 4⟩ : STRING_ST).inv
    ∧ ∃ t, s_copy (some ⟨some [97, 0], 1, 2⟩) = .ok (some t) :=
  ⟨text_produced_inv.1 ⟨some (97 :: List.replicate 31 0), 1, 4⟩
      (TextProduced.append_c (new_empty_str_s 4) 97 _
        (TextProduced.empty_s 4 (by decide)) (by decide) rfl),
   text_produced_inv.2.2.2.2.1 ⟨some [97, 0], 1, 2⟩ (by decide)⟩

/-- C11 fails as stated: `new_empty_str_s(0)` has capacity 0 and length 0, and
an empty buffer without a sentinel byte; `s_concat` of no source, or of an
absent source only, returns exactly this Text. -/
theorem zero_capacity_text :
    (new_empty_str_s 0).mlen = 0 ∧ (new_empty_str_s 0).len = 0
    ∧ (new_empty_str_s 0).l = some []
    ∧ ¬ (new_empty_str_s 0).inv
    ∧ s_concat [] = .ok (some (new_empty_str_s 0))
    ∧ s_concat [none] = .ok (some (new_empty_str_s 0)) :=
  ⟨rfl, rfl, rfl, by decide, rfl, rfl⟩

/-! ## Row and Table: length and capacity -/

theorem v_append_le (dst : Option VECTOR_ST) (x : Option STRING_ST) (r : VECTOR_ST)
    (h : v_append dst x = .ok r) : r.len ≤ r.mlen := by
  cases dst with
  | none => simp [v_append] at h
  | some v =>
    cases hs : v.strs with
    | none => simp [v_append, hs] at h
    | some slots =>
      simp only [v_append, hs] at h
      by_cases hg : v.len + 1 > v.mlen
      · simp only [hg, if_true] at h
        cases hm : memcpy (List.replicate (v.len + 1 + 1) none) slots v.mlen with
        | error e => simp [hm] at h
        | ok tmp =>
          simp only [hm] at h
          cases hst : store tmp v.len x with
          | error e => simp [hst] at h
          | ok s2 =>
            simp [hst] at h
            rw [← h]
      · simp only [hg, if_false] at h
        cases hst : store slots v.len x with
        | error e => simp [hst] at h
        | ok s2 =>
          simp [hst] at h
          rw [← h]
          show v.len + 1 ≤ v.mlen
          omega

theorem parse_flush_le (v v1 : VECTOR_ST) (l : List Nat) (ap : Bool)
    (hv : v.len ≤ v.mlen) (h : parse_flush v l ap = .ok v1) : v1.len ≤ v1.mlen := by
  cases ap with
  | false =>
    simp only [parse_flush, Bool.false_eq_true, if_false] at h
    split at h
    · cases h
    · exact v_append_le _ _ _ h
  | true =>
    simp only [parse_flush, if_true] at h
    split at h
    · cases h
    · split at h
      · cases h
      · cases h; exact hv
      · split at h
        · cases h; exact hv
        · cases h; exact hv

theorem parse_loop_le (d : Nat) :
    ∀ (sl : List Nat) (st st1 : ParseState), st.v.len ≤ st.v.mlen →
      parse_loop d sl st = .ok st1 → st1.v.len ≤ st1.v.mlen := by
  intro sl
  induction sl with
  | nil => intro st st1 _ h; simp [parse_loop] at h
  | cons c sl ih =>
    intro st st1 hv h
    simp only [parse_loop] at h
    split at h
    · cases h; exact hv
    · split at h
      · split at h
        · cases h
        · rename_i v1 hf
          refine ih _ _ ?_ h
          exact parse_flush_le _ _ _ _ hv hf
      · split at h
        · cases h
        · refine ih _ _ ?_ h
          exact hv

theorem parse_delimited_c_le (s : Option STRING_ST) (d : Nat) (r : VECTOR_ST)
    (h : parse_delimited_c s d = .ok r) : r.len ≤ r.mlen := by
  simp only [parse_delimited_c] at h
  split at h
  · cases h
  · split at h
    · cases h
    · split at h
      · cases h
      · rename_i st hl
        have h0 : new_vector.len ≤ new_vector.mlen := Nat.zero_le _
        exact parse_flush_le _ _ _ _ (parse_loop_le d _ _ _ h0 hl) h

theorem t_append_le (dst : Option TABLE_ST) (x : Option VECTOR_ST) (r : TABLE_ST)
    (h : t_append dst x = .ok r) : r.len ≤ r.mlen := by
  cases dst with
  | none => simp [t_append] at h
  | some v =>
    cases hs : v.vs with
    | none => simp [t_append, hs] at h
    | some slots =>
      simp only [t_append, hs] at h
      by_cases hg : v.len + 1 > v.mlen
      · simp only [hg, if_true] at h
        cases hm : memcpy (List.replicate (v.len + 1 + 1) none) slots v.mlen with
        | error e => simp [hm] at h
        | ok tmp =>
          simp only [hm] at h
          cases hst : store tmp v.len x with
          | error e => simp [hst] at h
          | ok s2 =>
            simp [hst] at h
            rw [← h]
      · simp only [hg, if_false] at h
        cases hst : store slots v.len x with
        | error e => simp [hst] at h
        | ok s2 =>
          simp [hst] at h
          rw [← h]
          show v.len + 1 ≤ v.mlen
          omega

/-- A property that every step of a counted loop keeps holds after the loop. -/
theorem for_loop_preserve {σ : Type} (P : σ → Prop) (body : Nat → σ → Except Fault σ)
    (hbody : ∀ j s s1, P s → body j s = .ok s1 → P s1) :
    ∀ (k i : Nat) (s s1 : σ), P s → for_loop body k i s = .ok s1 → P s1 := by
  intro k
  induction k with
  | zero =>
    intro i s s1 hp h
    simp only [for_loop] at h
    cases h
    exact hp
  | succ k ih =>
    intro i s s1 hp h
    simp only [for_loop] at h
    split at h
    · cases h
    · rename_i s2 hb
      exact ih (i + 1) s2 s1 (hbody i s s2 hp hb) h

theorem v_concat_loop_le :
    ∀ (srcs : List (Option VECTOR_ST)) (acc r : VECTOR_ST), acc.len ≤ acc.mlen →
      v_concat_loop srcs acc = .ok r → r.len ≤ r.mlen := by
  intro srcs
  induction srcs with
  | nil => intro acc r hp h; simp only [v_concat_loop] at h; cases h; exact hp
  | cons x srcs ih =>
    intro acc r hp h
    cases x with
    | none => simp [v_concat_loop] at h
    | some tmp =>
      simp only [v_concat_loop] at h
      split at h
      · cases h
      · rename_i acc1 hin
        refine ih acc1 r ?_ h
        refine for_loop_preserve (fun (a : VECTOR_ST) => a.len ≤ a.mlen) _ ?_ _ _ _ _ hp hin
        intro j s s1 _ hb
        beta_reduce at hb
        split at hb
        · cases hb
        · split at hb
          · cases hb
          · split at hb
            · cases hb
            · exact v_append_le _ _ _ hb

theorem v_copy_le (v r : VECTOR_ST) (hv : v.len ≤ v.mlen) (h : v_copy (some v) = .ok r) :
    r.len ≤ r.mlen := by
  simp only [v_copy, new_vector_s] at h
  split at h
  · cases h
  · cases h; exact hv

theorem t_concat_loop_le :
    ∀ (srcs : List (Option TABLE_ST)) (acc r : TABLE_ST), acc.len ≤ acc.mlen →
      t_concat_loop srcs acc = .ok r → r.len ≤ r.mlen := by
  intro srcs
  induction srcs with
  | nil => intro acc r hp h; simp only [t_concat_loop] at h; cases h; exact hp
  | cons x srcs ih =>
    intro acc r hp h
    cases x with
    | none => simp [t_concat_loop] at h
    | some tmp =>
      simp only [t_concat_loop] at h
      split at h
      · cases h
      · rename_i acc1 hin
        refine ih acc1 r ?_ h
        refine for_loop_preserve (fun (a : TABLE_ST) => a.len ≤ a.mlen) _ ?_ _ _ _ _ hp hin
        intro j s s1 _ hb
        beta_reduce at hb
        split at hb
        · cases hb
        · split at hb
          · cases hb
          · split at hb
            · cases hb
            · exact t_append_le _ _ _ hb

theorem t_copy_le (t r : TABLE_ST) (ht : t.len ≤ t.mlen) (h : t_copy (some t) = .ok r) :
    r.len ≤ r.mlen := by
  simp only [t_copy, new_table_s] at h
  split at h
  · cases h
  · cases h; exact ht

theorem transpose_inner_le (m : Nat) (r : VECTOR_ST) (d d1 : TABLE_ST)
    (hd : d.len ≤ d.mlen) (h : transpose_inner m r d = .ok d1) : d1.len ≤ d1.mlen := by
  refine for_loop_preserve (fun (a : TABLE_ST) => a.len ≤ a.mlen) _ ?_ _ _ _ _ hd h
  intro j s s1 hs hb
  beta_reduce at hb
  split at hb
  · cases hb
  · split at hb
    · cases hb
    · cases hb; exact hs
    · split at hb
      · cases hb
      · split at hb
        · cases hb
        · split at hb
          · cases hb
          · split at hb
            · cases hb
            · cases hb; exact hs

theorem transpose_le (t : Option TABLE_ST) (d : TABLE_ST)
    (h : transpose t = .ok (some d)) : d.len ≤ d.mlen := by
  simp only [transpose] at h
  split at h
  · cases h
  · split at h
    · cases h
    · split at h
      · cases h
      · split at h
        · cases h
        · rename_i dst0 hrows
          split at h
          · cases h
          · rename_i dst hfill
            split at h
            · cases h
            · cases h
              have h0 : dst0.len ≤ dst0.mlen := by
                refine for_loop_preserve (fun (a : TABLE_ST) => a.len ≤ a.mlen) _ ?_ _ _ _ _
                  (Nat.zero_le _ : new_table.len ≤ new_table.mlen) hrows
                intro j s s1 _ hb
                exact t_append_le _ _ _ hb
              refine for_loop_preserve (fun (a : TABLE_ST) => a.len ≤ a.mlen) _ ?_ _ _ _ _
                h0 hfill
              intro j s s1 hs hb
              beta_reduce at hb
              split at hb
              · cases hb
              · cases hb
              · exact transpose_inner_le _ _ _ _ hs hb

theorem take_mem_getElem {α : Type} (l : List α) (n i : Nat) (hn : n ≤ l.length) (hi : i < n) :
    ∃ x, l[i]? = some x ∧ x ∈ l.take n := by
  have hil : i < l.length := by omega
  refine ⟨l[i], List.getElem?_eq_getElem hil, ?_⟩
  rw [List.mem_take_iff_getElem]
  exact ⟨i, by rw [Nat.min_eq_left hn]; exact hi, rfl⟩

/-- The loop of `v_copy` on a Row whose slots below its length are present
Texts with an allocated buffer. -/
theorem v_copy_loop_ok (cells : List (Option STRING_ST)) (len : Nat)
    (hlen : len ≤ cells.length) (hfull : ∀ x ∈ cells.take len, slot_full x) :
    ∀ (k i : Nat) (d : List (Option STRING_ST)), i + k ≤ len → len ≤ d.length →
      ∃ d1, for_loop (fun i d =>
            match (some cells : Option (List (Option STRING_ST))) with
            | none => .error .null_deref
            | some slots =>
              match load slots i with
              | .error e => .error e
              | .ok x =>
                match s_copy x with
                | .error e => .error e
                | .ok c => store d i c) k i d = .ok d1
        ∧ d1.length = d.length := by
  intro k
  induction k with
  | zero => intro i d _ _; exact ⟨d, rfl, rfl⟩
  | succ k ih =>
    intro i d hik hd
    obtain ⟨x, hx, hmem⟩ := take_mem_getElem cells len i hlen (by omega)
    have hsf := hfull x hmem
    cases x with
    | none => exact hsf.elim
    | some t =>
      obtain ⟨c, hc, _⟩ := s_copy_spec t hsf
      obtain ⟨d1, hr, hl⟩ := ih (i + 1) (d.set i (some c)) (by omega)
        (by rw [List.length_set]; exact hd)
      refine ⟨d1, ?_, by rw [hl, List.length_set]⟩
      simp only [for_loop, load_ok hx, hc, store_ok (some c) (show i < d.length by omega)]
      exact hr

theorem v_copy_ok (v : VECTOR_ST) (hf : v.full) (hle : v.len ≤ v.mlen) :
    ∃ r, v_copy (some v) = .ok r ∧ r.len = v.len ∧ r.mlen = v.mlen := by
  unfold VECTOR_ST.full at hf
  cases hs : v.strs with
  | none => simp [hs] at hf
  | some cells =>
    simp only [hs] at hf
    obtain ⟨d1, hr, _⟩ := v_copy_loop_ok cells v.len hf.1 hf.2 v.len 0
      (List.replicate v.mlen none) (by omega) (by rw [List.length_replicate]; exact hle)
    refine ⟨⟨some d1, v.len, v.mlen⟩, ?_, rfl, rfl⟩
    simp only [v_copy, new_vector_s, v_copy_loop, hs, hr]

/-- The loop of `t_copy` on a Table whose rows can all be copied. -/
theorem t_copy_loop_ok (rows : List (Option VECTOR_ST)) (len : Nat)
    (hlen : len ≤ rows.length) (hrows : ∀ x ∈ rows.take len, copy_row_ok x) :
    ∀ (k i : Nat) (d : List (Option VECTOR_ST)), i + k ≤ len → len ≤ d.length →
      ∃ d1, for_loop (fun i d =>
            match (some rows : Option (List (Option VECTOR_ST))) with
            | none => .error .null_deref
            | some slots =>
              match load slots i with
              | .error e => .error e
              | .ok x =>
                match v_copy x with
                | .error e => .error e
                | .ok c => store d i (some c)) k i d = .ok d1
        ∧ d1.length = d.length := by
  intro k
  induction k with
  | zero => intro i d _ _; exact ⟨d, rfl, rfl⟩
  | succ k ih =>
    intro i d hik hd
    obtain ⟨x, hx, hmem⟩ := take_mem_getElem rows len i hlen (by omega)
    have hok := hrows x hmem
    cases x with
    | none => exact hok.elim
    | some r =>
      obtain ⟨c, hc, _⟩ := v_copy_ok r hok.1 hok.2
      obtain ⟨d1, hr, hl⟩ := ih (i + 1) (d.set i (some c)) (by omega)
        (by rw [List.length_set]; exact hd)
      refine ⟨d1, ?_, by rw [hl, List.length_set]⟩
      simp only [for_loop, load_ok hx, hc, store_ok (some c) (show i < d.length by omega)]
      exact hr

theorem t_copy_ok (t : TABLE_ST) (h : t.copyable) : ∃ r, t_copy (some t) = .ok r := by
  unfold TABLE_ST.copyable at h
  cases hs : t.vs with
  | none => simp [hs] at h
  | some rows =>
    simp only [hs] at h
    obtain ⟨d1, hr, _⟩ := t_copy_loop_ok rows t.len h.2.1 h.2.2 t.len 0
      (List.replicate t.mlen none) (by omega) (by rw [List.length_replicate]; exact h.1)
    refine ⟨⟨some d1, t.len, t.mlen⟩, ?_⟩
    simp only [t_copy, new_table_s, t_copy_loop, hs, hr]

theorem t_append_alloc (t : TABLE_ST) (x : Option VECTOR_ST) (ha : t.alloc) :
    ∃ r, t_append (some t) x = .ok r ∧ r.alloc := by
  unfold TABLE_ST.alloc at ha
  cases hs : t.vs with
  | none => simp [hs] at ha
  | some rows =>
    simp only [hs] at ha
    obtain ⟨slots1, hr, _, hcap, _⟩ := t_append_ok t rows x hs ha.1 ha.2
    refine ⟨_, hr, ?_⟩
    simp only [TABLE_ST.alloc]
    exact ⟨by split <;> omega, hcap⟩

/-- Inner loop of `t_concat` on a source whose rows can all be copied. -/
theorem t_concat_inner_ok (tmp : TABLE_ST) (rows : List (Option VECTOR_ST))
    (hs : tmp.vs = some rows) (hlen : tmp.len ≤ rows.length)
    (hrows : ∀ x ∈ rows.take tmp.len, copy_row_ok x) :
    ∀ (k i : Nat) (acc : TABLE_ST), i + k ≤ tmp.len → acc.alloc →
      ∃ acc1, for_loop (fun j a =>
            match tmp.vs with
            | none => .error .null_deref
            | some slots =>
              match load slots j with
              | .error e => .error e
              | .ok x =>
                match v_copy x with
                | .error e => .error e
                | .ok c => t_append (some a) (some c)) k i acc = .ok acc1
        ∧ acc1.alloc := by
  intro k
  induction k with
  | zero => intro i acc _ ha; exact ⟨acc, rfl, ha⟩
  | succ k ih =>
    intro i acc hik ha
    obtain ⟨x, hx, hmem⟩ := take_mem_getElem rows tmp.len i hlen (by omega)
    have hok := hrows x hmem
    cases x with
    | none => exact hok.elim
    | some r =>
      obtain ⟨c, hc, _⟩ := v_copy_ok r hok.1 hok.2
      obtain ⟨acc1, hr1, ha1⟩ := t_append_alloc acc (some c) ha
      obtain ⟨acc2, hr2, ha2⟩ := ih (i + 1) acc1 (by omega) ha1
      refine ⟨acc2, ?_, ha2⟩
      simp only [for_loop, hs, load_ok hx, hc, hr1]
      simp only [hs] at hr2
      exact hr2

theorem t_concat_loop_ok :
    ∀ (srcs : List TABLE_ST) (acc : TABLE_ST), (∀ t ∈ srcs, t.copyable) → acc.alloc →
      ∃ r, t_concat_loop (srcs.map some) acc = .ok r := by
  intro srcs
  induction srcs with
  | nil => intro acc _ _; exact ⟨acc, rfl⟩
  | cons t srcs ih =>
    intro acc h ha
    have ht := h t (List.mem_cons_self _ _)
    unfold TABLE_ST.copyable at ht
    cases hs : t.vs with
    | none => simp [hs] at ht
    | some rows =>
      simp only [hs] at ht
      obtain ⟨acc1, hr1, ha1⟩ := t_concat_inner_ok t rows hs ht.2.1 ht.2.2 t.len 0 acc
        (by omega) ha
      obtain ⟨r, hr⟩ := ih acc1 (fun u hu => h u (List.mem_cons_of_mem _ hu)) ha1
      refine ⟨r, ?_⟩
      simp only [List.map_cons, t_concat_loop, t_concat_inner, hr1]
      exact hr

theorem new_table_s_alloc (sz : Nat) : (new_table_s sz).alloc := by
  show 0 ≤ sz ∧ sz ≤ (List.replicate sz (none : Option VECTOR_ST)).length
  rw [List.length_replicate]
  exact ⟨Nat.zero_le _, Nat.le_refl _⟩

/-- C17: `length ≤ capacity` holds for the Rows and Tables the library
produces.  It holds for the results of the constructors (first part); every
container that `v_append`, `v_concat`, `parse_delimited_c`, `t_append`,
`t_concat` or `transpose` returns satisfies it, and so does every container
that `v_copy` or `t_copy` returns for an argument that satisfies it (second
part); and these calls do return a container on well-formed arguments (third
part: slot arrays allocated, sources, rows and slots present, a Text argument
satisfying the Text invariant with a `size_t` length). -/
theorem len_le_mlen :
    ((∀ sz, (new_vector_s sz).len ≤ (new_vector_s sz).mlen)
      ∧ new_vector.len ≤ new_vector.mlen
      ∧ (∀ sz, (new_table_s sz).len ≤ (new_table_s sz).mlen)
      ∧ new_table.len ≤ new_table.mlen)
    ∧ ((∀ (v : Option VECTOR_ST) (x : Option STRING_ST) (r : VECTOR_ST),
          v_append v x = .ok r → r.len ≤ r.mlen)
      ∧ (∀ (srcs : List (Option VECTOR_ST)) (r : VECTOR_ST),
          v_concat srcs = .ok r → r.len ≤ r.mlen)
      ∧ (∀ (v r : VECTOR_ST), v.len ≤ v.mlen → v_copy (some v) = .ok r → r.len ≤ r.mlen)
      ∧ (∀ (s : Option STRING_ST) (d : Nat) (r : VECTOR_ST),
          parse_delimited_c s d = .ok r → r.len ≤ r.mlen)
      ∧ (∀ (t : Option TABLE_ST) (x : Option VECTOR_ST) (r : TABLE_ST),
          t_append t x = .ok r → r.len ≤ r.mlen)
      ∧ (∀ (srcs : List (Option TABLE_ST)) (r : TABLE_ST),
          t_concat srcs = .ok r → r.len ≤ r.mlen)
      ∧ (∀ (t r : TABLE_ST), t.len ≤ t.mlen → t_copy (some t) = .ok r → r.len ≤ r.mlen)
      ∧ (∀ (t : Option TABLE_ST) (r : TABLE_ST),
          transpose t = .ok (some r) → r.len ≤ r.mlen))
    ∧ ((∀ (v : VECTOR_ST) (x : Option STRING_ST), v.alloc → ∃ r, v_append (some v) x = .ok r)
      ∧ (∀ (srcs : List VECTOR_ST), (∀ v ∈ srcs, v.full) →
          ∃ r, v_concat (srcs.map some) = .ok r)
      ∧ (∀ (v : VECTOR_ST), v.full → v.len ≤ v.mlen → ∃ r, v_copy (some v) = .ok r)
      ∧ (∀ (s : STRING_ST) (d : Nat), s.inv → s.len < SIZE_MOD →
          ∃ r, parse_delimited_c (some s) d = .ok r)
      ∧ (∀ (t : TABLE_ST) (x : Option VECTOR_ST), t.alloc → ∃ r, t_append (some t) x = .ok r)
      ∧ (∀ (srcs : List TABLE_ST), (∀ t ∈ srcs, t.copyable) →
          ∃ r, t_concat (srcs.map some) = .ok r)
      ∧ (∀ (t : TABLE_ST), t.copyable → ∃ r, t_copy (some t) = .ok r)
      ∧ (∀ (t : TABLE_ST), t.rows_ok → ∃ r, transpose (some t) = .ok (some r))) := by
  refine ⟨⟨fun sz => Nat.zero_le _, Nat.zero_le _, fun sz => Nat.zero_le _, Nat.zero_le _⟩,
    ⟨v_append_le, ?_, v_copy_le, parse_delimited_c_le, t_append_le, ?_, t_copy_le,
      transpose_le⟩,
    ⟨?_, ?_, ?_, ?_, ?_, ?_, t_copy_ok, ?_⟩⟩
  · intro srcs r h
    exact v_concat_loop_le srcs _ r (Nat.zero_le _) h
  · intro srcs r h
    exact t_concat_loop_le srcs _ r (Nat.zero_le _) h
  · intro v x ha
    obtain ⟨r, hr, _⟩ := v_append_elems v x ha
    exact ⟨r, hr⟩
  · intro srcs h
    obtain ⟨aslots1, cs, hr, _⟩ := v_concat_loop_spec srcs
      (new_vector_s (v_concat_total (srcs.map some)))
      (List.replicate (v_concat_total (srcs.map some)) none) h rfl
      (by rw [v_concat_total_map_some]; simp [new_vector_s])
      (by simp [new_vector_s])
    exact ⟨_, hr⟩
  · intro v hf hle
    obtain ⟨r, hr, _⟩ := v_copy_ok v hf hle
    exact ⟨r, hr⟩
  · intro s d hinv hsz
    obtain ⟨v, _, _, hr, _⟩ := parse_delimited_c_tokens s d hinv hsz
    exact ⟨v, hr⟩
  · intro t x ha
    obtain ⟨r, hr, _⟩ := t_append_alloc t x ha
    exact ⟨r, hr⟩
  · intro srcs h
    exact t_concat_loop_ok srcs _ h (new_table_s_alloc _)
  · intro t h
    obtain ⟨d, hr, _⟩ := transpose_cols t h
    exact ⟨d, hr⟩

/-- C17 on the Row `["a"]` of capacity 1: `v_append` of an absent Text returns
a Row with `length ≤ capacity`, and so does `v_copy`. -/
theorem len_le_mlen_witness :
    (∃ r, v_append (some ⟨some [some ⟨some [97, 0], 1, 2⟩], 1, 1⟩) none = .ok r
      ∧ r.len ≤ r.mlen)
    ∧ (∃ r, v_copy (some ⟨some [some ⟨some [97, 0], 1, 2⟩], 1, 1⟩) = .ok r
      ∧ r.len ≤ r.mlen) :=
  ⟨(len_le_mlen.2.2.1 ⟨some [some ⟨some [97, 0], 1, 2⟩], 1, 1⟩ none (by decide)).elim
      (fun r hr => ⟨r, hr, len_le_mlen.2.1.1 _ _ r hr⟩),
   (len_le_mlen.2.2.2.2.1 ⟨some [some ⟨some [97, 0], 1, 2⟩], 1, 1⟩ (by decide)
      (by decide)).elim
      (fun r hr => ⟨r, hr, len_le_mlen.2.1.2.2.1 _ r (by decide) hr⟩)⟩

/-! ## Accessors -/

theorem spare_slot {α : Type} (slots : List (Option α)) (len i : Nat)
    (h : ∀ x ∈ slots.drop len, x = none) (h1 : len ≤ i) (h2 : i < slots.length) :
    slots[i]? = some none := by
  have hx : slots[i] ∈ slots.drop len := by
    rw [List.mem_drop_iff_getElem]
    exact ⟨i - len, by omega, by simp [Nat.add_sub_cancel' h1]⟩
  rw [List.getElem?_eq_getElem h2, h _ hx]

theorem v_get_str_spare (v : VECTOR_ST) (i : Nat) (h : v.spare_absent) (h1 : v.len ≤ i)
    (h2 : i < v.mlen) :
    v_get_str (some v) i = .ok none ∧ v_get_str_l (some v) i = .ok none := by
  unfold VECTOR_ST.spare_absent at h
  cases hs : v.strs with
  | none => simp [hs] at h
  | some slots =>
    simp only [hs] at h
    have hslot := spare_slot slots v.len i h.2.2 h1 (by omega)
    simp only [v_get_str, v_get_str_l, hs, load_ok hslot, and_self]

theorem v_get_str_stored (v : VECTOR_ST) (i : Nat) (x : Option STRING_ST)
    (h : v.elems[i]? = some x) :
    v_get_str (some v) i = .ok x ∧ v_get_str_l (some v) i = .ok (s_get_str_l x) := by
  unfold VECTOR_ST.elems at h
  cases hs : v.strs with
  | none => simp [hs] at h
  | some slots =>
    simp only [hs] at h
    rw [List.getElem?_take] at h
    have hslot : slots[i]? = some x := by
      split at h
      · exact h
      · cases h
    simp only [v_get_str, v_get_str_l, hs, load_ok hslot, true_and]
    cases x <;> rfl

/-! ## Spare slots -/

/-- A store below `m` leaves the slots from `m` on as they are. -/
theorem store_drop {α : Type} (blk s2 : List α) (i m : Nat) (x : α)
    (h : store blk i x = .ok s2) (hi : i < m) :
    s2.length = blk.length ∧ s2.drop m = blk.drop m ∧ ∀ y ∈ s2, y ∈ blk ∨ y = x := by
  unfold store at h
  split at h
  · cases h
    exact ⟨List.length_set _ _ _, List.drop_set_of_lt x blk hi,
      fun y hy => List.mem_or_eq_of_mem_set hy⟩
  · cases h

/-- The block `v_append` and `t_append` allocate when the capacity is
exceeded: the old slots, then absent slots. -/
theorem memcpy_grow {α : Type} (slots tmp : List (Option α)) (n mlen : Nat)
    (h : memcpy (List.replicate n none) slots mlen = .ok tmp) :
    tmp.length = n ∧ mlen ≤ slots.length
    ∧ (∀ m, mlen ≤ m → ∀ y ∈ tmp.drop m, y = none)
    ∧ ∀ y ∈ tmp, y ∈ slots ∨ y = none := by
  unfold memcpy at h
  split at h
  · rename_i hc
    cases h
    rw [List.length_replicate] at hc
    refine ⟨?_, hc.1, ?_, ?_⟩
    · rw [List.length_append, List.length_take, List.length_drop, List.length_replicate]
      omega
    · intro m hm y hy
      rw [List.drop_append_eq_append_drop, List.drop_eq_nil_of_le, List.nil_append] at hy
      · exact List.eq_of_mem_replicate (List.mem_of_mem_drop (List.mem_of_mem_drop hy))
      · rw [List.length_take]; omega
    · intro y hy
      rw [List.mem_append] at hy
      cases hy with
      | inl h1 => exact Or.inl (List.mem_of_mem_take h1)
      | inr h1 => exact Or.inr (List.eq_of_mem_replicate (List.mem_of_mem_drop h1))
  · cases h

theorem mem_drop_succ {α : Type} (l : List α) (n : Nat) (y : α) (h : y ∈ l.drop (n + 1)) :
    y ∈ l.drop n := by
  rw [← List.drop_drop] at h
  exact List.mem_of_mem_drop h

theorem new_vector_s_spare (sz : Nat) : (new_vector_s sz).spare_absent := by
  show 0 ≤ sz ∧ sz ≤ (List.replicate sz (none : Option STRING_ST)).length
    ∧ ∀ x ∈ (List.replicate sz (none : Option STRING_ST)).drop 0, x = none
  rw [List.length_replicate]
  exact ⟨Nat.zero_le _, Nat.le_refl _, fun x hx => List.eq_of_mem_replicate hx⟩

theorem new_table_s_spare (sz : Nat) : (new_table_s sz).spare_absent := by
  show 0 ≤ sz ∧ sz ≤ (List.replicate sz (none : Option VECTOR_ST)).length
    ∧ ∀ x ∈ (List.replicate sz (none : Option VECTOR_ST)).drop 0, x = none
  rw [List.length_replicate]
  exact ⟨Nat.zero_le _, Nat.le_refl _, fun x hx => List.eq_of_mem_replicate hx⟩

/-- The Row `v_append` returns has its spare slots absent when the Row it was
given has. -/
theorem v_append_spare (v r : VECTOR_ST) (x : Option STRING_ST) (hv : v.spare_absent)
    (h : v_append (some v) x = .ok r) : r.spare_absent := by
  unfold VECTOR_ST.spare_absent at hv
  cases hs : v.strs with
  | none => simp [hs] at hv
  | some slots =>
    simp only [hs] at hv
    simp only [v_append, hs] at h
    by_cases hg : v.len + 1 > v.mlen
    · simp only [hg, if_true] at h
      cases hm : memcpy (List.replicate (v.len + 1 + 1) none) slots v.mlen with
      | error e => simp [hm] at h
      | ok tmp =>
        simp only [hm] at h
        cases hst : store tmp v.len x with
        | error e => simp [hst] at h
        | ok s2 =>
          simp [hst] at h
          rw [← h]
          obtain ⟨hl, _, htail, _⟩ := memcpy_grow slots tmp _ _ hm
          obtain ⟨hl2, hd, _⟩ := store_drop tmp s2 v.len (v.len + 1) x hst (Nat.lt_succ_self _)
          show v.len + 1 ≤ v.len + 1 ∧ v.len + 1 ≤ s2.length ∧ ∀ y ∈ s2.drop (v.len + 1), y = none
          refine ⟨Nat.le_refl _, by omega, ?_⟩
          rw [hd]
          exact htail (v.len + 1) (by omega)
    · simp only [hg, if_false] at h
      cases hst : store slots v.len x with
      | error e => simp [hst] at h
      | ok s2 =>
        simp [hst] at h
        rw [← h]
        obtain ⟨hl2, hd, _⟩ := store_drop slots s2 v.len (v.len + 1) x hst (Nat.lt_succ_self _)
        show v.len + 1 ≤ v.mlen ∧ v.mlen ≤ s2.length ∧ ∀ y ∈ s2.drop (v.len + 1), y = none
        refine ⟨by omega, by omega, ?_⟩
        rw [hd]
        intro y hy
        exact hv.2.2 y (mem_drop_succ _ _ _ hy)

/-- A property that the steps `j < n` of a counted loop keep holds after a
loop that stays below `n`. -/
theorem for_loop_preserve_lt {σ : Type} (P : σ → Prop) (body : Nat → σ → Except Fault σ)
    (n : Nat) (hbody : ∀ j s s1, j < n → P s → body j s = .ok s1 → P s1) :
    ∀ (k i : Nat) (s s1 : σ), i + k ≤ n → P s → for_loop body k i s = .ok s1 → P s1 := by
  intro k
  induction k with
  | zero =>
    intro i s s1 _ hp h
    simp only [for_loop] at h
    cases h
    exact hp
  | succ k ih =>
    intro i s s1 hik hp h
    simp only [for_loop] at h
    split at h
    · cases h
    · rename_i s2 hb
      exact ih (i + 1) s2 s1 (by omega) (hbody i s s2 (by omega) hp hb) h

/-- A counted loop whose step `j` writes cell `j` of a block returns only when
all the cells it writes lie inside the block. -/
theorem for_loop_store_bound {α : Type} (body : Nat → List α → Except Fault (List α))
    (hbody : ∀ j s s1, body j s = .ok s1 → j < s.length ∧ s1.length = s.length) :
    ∀ (k i : Nat) (s s1 : List α), for_loop body k i s = .ok s1 →
      s1.length = s.length ∧ (k = 0 ∨ i + k ≤ s.length) := by
  intro k
  induction k with
  | zero =>
    intro i s s1 h
    simp only [for_loop] at h
    cases h
    exact ⟨rfl, Or.inl rfl⟩
  | succ k ih =>
    intro i s s1 h
    simp only [for_loop] at h
    split at h
    · cases h
    · rename_i s2 hb
      obtain ⟨h1, h2⟩ := hbody i s s2 hb
      obtain ⟨h3, h4⟩ := ih (i + 1) s2 s1 h
      refine ⟨by omega, Or.inr ?_⟩
      cases h4 with
      | inl h0 => omega
      | inr h5 => omega

/-- The Row `v_copy` returns has its spare slots absent: they are the slots of
the new block that the loop does not write. -/
theorem v_copy_spare (x : Option VECTOR_ST) (r : VECTOR_ST) (h : v_copy x = .ok r) :
    r.spare_absent := by
  cases x with
  | none => simp [v_copy] at h
  | some v =>
    simp only [v_copy, new_vector_s, v_copy_loop] at h
    split at h
    · cases h
    · rename_i d hd
      cases h
      have hb := for_loop_store_bound _ (by
        intro j s s1 hj
        split at hj
        · cases hj
        · split at hj
          · cases hj
          · split at hj
            · cases hj
            · obtain ⟨e, _, _⟩ := store_drop _ _ j (j + 1) _ hj (Nat.lt_succ_self _)
              unfold store at hj
              split at hj
              · rename_i hlt
                exact ⟨hlt, e⟩
              · cases hj) _ _ _ _ hd
      rw [List.length_replicate] at hb
      have hsp : ∀ y ∈ d.drop v.len, y = none := by
        refine for_loop_preserve_lt
          (fun (s : List (Option STRING_ST)) => ∀ y ∈ s.drop v.len, y = none) _ v.len ?_
          _ _ _ _ (by omega) ?_ hd
        · intro j s s1 hj hp hs
          beta_reduce at hs
          split at hs
          · cases hs
          · split at hs
            · cases hs
            · split at hs
              · cases hs
              · obtain ⟨_, e, _⟩ := store_drop _ _ j v.len _ hs hj
                rw [e]
                exact hp
        · intro y hy
          exact List.eq_of_mem_replicate (List.mem_of_mem_drop hy)
      show v.len ≤ v.mlen ∧ v.mlen ≤ d.length ∧ ∀ y ∈ d.drop v.len, y = none
      refine ⟨?_, by omega, hsp⟩
      cases hb.2 with
      | inl h0 => omega
      | inr h1 => omega

theorem v_concat_loop_spare :
    ∀ (srcs : List (Option VECTOR_ST)) (acc r : VECTOR_ST), acc.spare_absent →
      v_concat_loop srcs acc = .ok r → r.spare_absent := by
  intro srcs
  induction srcs with
  | nil => intro acc r hp h; simp only [v_concat_loop] at h; cases h; exact hp
  | cons x srcs ih =>
    intro acc r hp h
    cases x with
    | none => simp [v_concat_loop] at h
    | some tmp =>
      simp only [v_concat_loop] at h
      split at h
      · cases h
      · rename_i acc1 hin
        refine ih acc1 r ?_ h
        refine for_loop_preserve (fun (a : VECTOR_ST) => a.spare_absent) _ ?_ _ _ _ _ hp hin
        intro j s s1 hs hb
        beta_reduce at hb
        split at hb
        · cases hb
        · split at hb
          · cases hb
          · split at hb
            · cases hb
            · exact v_append_spare _ _ _ hs hb

theorem load_inv {α : Type} (blk : List α) (i : Nat) (x : α) (h : load blk i = .ok x) :
    blk[i]? = some x := by
  unfold load at h
  split at h
  · rename_i y hy
    cases h
    exact hy
  · cases h

/-- A present slot of a block whose slots from `len` on are absent lies below
`len`. -/
theorem present_lt {α : Type} (slots : List (Option α)) (len i : Nat) (a : α)
    (hsp : ∀ y ∈ slots.drop len, y = none) (h : slots[i]? = some (some a)) : i < len := by
  by_contra hge
  have hlt : i < slots.length := by
    by_contra hn
    rw [List.getElem?_eq_none (by omega)] at h
    cases h
  have := spare_slot slots len i hsp (by omega) hlt
  rw [this] at h
  cases h

theorem parse_flush_spare (v v1 : VECTOR_ST) (l : List Nat) (ap : Bool)
    (hv : v.spare_absent) (h : parse_flush v l ap = .ok v1) : v1.spare_absent := by
  cases ap with
  | false =>
    simp only [parse_flush, Bool.false_eq_true, if_false] at h
    split at h
    · cases h
    · exact v_append_spare _ _ _ hv h
  | true =>
    simp only [parse_flush, if_true] at h
    split at h
    · cases h
    · rename_i p hp
      split at h
      · cases h
      · cases h; exact hv
      · rename_i t ht
        split at h
        · cases h; exact hv
        · rename_i slots hs
          cases h
          cases p with
          | none => simp [s_append_l] at ht
          | some pt =>
            simp only [v_get_str, hs] at hp
            have hidx := load_inv _ _ _ hp
            unfold VECTOR_ST.spare_absent at hv
            simp only [hs] at hv
            have hlt := present_lt slots v.len _ pt hv.2.2 hidx
            show v.len ≤ v.mlen ∧ v.mlen ≤ (slots.set _ (some t)).length
              ∧ ∀ y ∈ (slots.set _ (some t)).drop v.len, y = none
            rw [List.length_set, List.drop_set_of_lt _ _ hlt]
            exact hv

theorem parse_loop_spare (d : Nat) :
    ∀ (sl : List Nat) (st st1 : ParseState), st.v.spare_absent →
      parse_loop d sl st = .ok st1 → st1.v.spare_absent := by
  intro sl
  induction sl with
  | nil => intro st st1 _ h; simp [parse_loop] at h
  | cons c sl ih =>
    intro st st1 hv h
    simp only [parse_loop] at h
    split at h
    · cases h; exact hv
    · split at h
      · split at h
        · cases h
        · rename_i v1 hf
          refine ih _ _ ?_ h
          exact parse_flush_spare _ _ _ _ hv hf
      · split at h
        · cases h
        · refine ih _ _ ?_ h
          exact hv

/-- The Row `parse_delimited_c` returns has its spare slots absent. -/
theorem parse_delimited_c_spare (s : Option STRING_ST) (d : Nat) (r : VECTOR_ST)
    (h : parse_delimited_c s d = .ok r) : r.spare_absent := by
  simp only [parse_delimited_c] at h
  split at h
  · cases h
  · split at h
    · cases h
    · split at h
      · cases h
      · rename_i st hl
        exact parse_flush_spare _ _ _ _
          (parse_loop_spare d _ _ _ (new_vector_s_spare _) hl) h

theorem rows_spare_of_mem (t : TABLE_ST) (slots : List (Option VECTOR_ST))
    (hs : t.vs = some slots) (hsp : t.spare_absent)
    (hm : ∀ row, some row ∈ slots → row.spare_absent) : t.rows_spare_absent := by
  refine ⟨hsp, ?_⟩
  intro r hr
  simp only [TABLE_ST.rows, hs, List.mem_filterMap, id] at hr
  obtain ⟨a, ha, e⟩ := hr
  rw [e] at ha
  exact hm r (List.mem_of_mem_take ha)

theorem mem_spare_of_rows (t : TABLE_ST) (slots : List (Option VECTOR_ST))
    (hs : t.vs = some slots) (h : t.rows_spare_absent) :
    ∀ row, some row ∈ slots → row.spare_absent := by
  intro row hrow
  obtain ⟨hsp, hr⟩ := h
  unfold TABLE_ST.spare_absent at hsp
  simp only [hs] at hsp
  apply hr
  simp only [TABLE_ST.rows, hs, List.mem_filterMap, id]
  refine ⟨some row, ?_, rfl⟩
  rw [← List.take_append_drop t.len slots, List.mem_append] at hrow
  cases hrow with
  | inl h1 => exact h1
  | inr h1 => cases hsp.2.2 _ h1

theorem new_table_s_rows_spare (sz : Nat) : (new_table_s sz).rows_spare_absent :=
  ⟨new_table_s_spare sz, fun r hr => by simp [TABLE_ST.rows, new_table_s] at hr⟩

/-- The Table `t_append` returns has its spare slots and those of its rows
absent when the Table and the Row it was given have. -/
theorem t_append_spare (t r : TABLE_ST) (x : Option VECTOR_ST) (ht : t.rows_spare_absent)
    (hx : ∀ row, x = some row → row.spare_absent)
    (h : t_append (some t) x = .ok r) : r.rows_spare_absent := by
  have hv := ht.1
  unfold TABLE_ST.spare_absent at hv
  cases hs : t.vs with
  | none => simp [hs] at hv
  | some slots =>
    simp only [hs] at hv
    have hmem := mem_spare_of_rows t slots hs ht
    simp only [t_append, hs] at h
    by_cases hg : t.len + 1 > t.mlen
    · simp only [hg, if_true] at h
      cases hm : memcpy (List.replicate (t.len + 1 + 1) none) slots t.mlen with
      | error e => simp [hm] at h
      | ok tmp =>
        simp only [hm] at h
        cases hst : store tmp t.len x with
        | error e => simp [hst] at h
        | ok s2 =>
          simp [hst] at h
          rw [← h]
          obtain ⟨hl, _, htail, hin⟩ := memcpy_grow slots tmp _ _ hm
          obtain ⟨hl2, hd, hin2⟩ :=
            store_drop tmp s2 t.len (t.len + 1) x hst (Nat.lt_succ_self _)
          refine rows_spare_of_mem _ s2 rfl ?_ ?_
          · show t.len + 1 ≤ t.len + 1 ∧ t.len + 1 ≤ s2.length
              ∧ ∀ y ∈ s2.drop (t.len + 1), y = none
            refine ⟨Nat.le_refl _, by omega, ?_⟩
            rw [hd]
            exact htail (t.len + 1) (by omega)
          · intro row hrow
            cases hin2 _ hrow with
            | inl h1 =>
              cases hin _ h1 with
              | inl h2 => exact hmem row h2
              | inr h2 => cases h2
            | inr h1 => exact hx row h1.symm
    · simp only [hg, if_false] at h
      cases hst : store slots t.len x with
      | error e => simp [hst] at h
      | ok s2 =>
        simp [hst] at h
        rw [← h]
        obtain ⟨hl2, hd, hin2⟩ :=
          store_drop slots s2 t.len (t.len + 1) x hst (Nat.lt_succ_self _)
        refine rows_spare_of_mem _ s2 rfl ?_ ?_
        · show t.len + 1 ≤ t.mlen ∧ t.mlen ≤ s2.length ∧ ∀ y ∈ s2.drop (t.len + 1), y = none
          refine ⟨by omega, by omega, ?_⟩
          rw [hd]
          intro y hy
          exact hv.2.2 y (mem_drop_succ _ _ _ hy)
        · intro row hrow
          cases hin2 _ hrow with
          | inl h1 => exact hmem row h1
          | inr h1 => exact hx row h1.symm

/-- The Table `t_copy` returns has its spare slots absent, and its rows, made
by `v_copy`, have theirs absent. -/
theorem t_copy_spare (x : Option TABLE_ST) (r : TABLE_ST) (h : t_copy x = .ok r) :
    r.rows_spare_absent := by
  cases x with
  | none => simp [t_copy] at h
  | some t =>
    simp only [t_copy, new_table_s, t_copy_loop] at h
    split at h
    · cases h
    · rename_i d hd
      cases h
      have hb := for_loop_store_bound _ (by
        intro j s s1 hj
        split at hj
        · cases hj
        · split at hj
          · cases hj
          · split at hj
            · cases hj
            · obtain ⟨e, _, _⟩ := store_drop _ _ j (j + 1) _ hj (Nat.lt_succ_self _)
              unfold store at hj
              split at hj
              · rename_i hlt
                exact ⟨hlt, e⟩
              · cases hj) _ _ _ _ hd
      rw [List.length_replicate] at hb
      have hsp : (∀ y ∈ d.drop t.len, y = none)
          ∧ ∀ row, some row ∈ d → row.spare_absent := by
        refine for_loop_preserve_lt
          (fun (s : List (Option VECTOR_ST)) => (∀ y ∈ s.drop t.len, y = none)
            ∧ ∀ row, some row ∈ s → row.spare_absent) _ t.len ?_
          _ _ _ _ (by omega) ?_ hd
        · intro j s s1 hj hp hs
          beta_reduce at hs
          split at hs
          · cases hs
          · split at hs
            · cases hs
            · split at hs
              · cases hs
              · rename_i c hc
                obtain ⟨_, e, hin⟩ := store_drop _ _ j t.len _ hs hj
                rw [e]
                refine ⟨hp.1, ?_⟩
                intro row hrow
                cases hin _ hrow with
                | inl h1 => exact hp.2 row h1
                | inr h1 =>
                  cases h1
                  exact v_copy_spare _ _ hc
        · refine ⟨?_, ?_⟩
          · intro y hy
            exact List.eq_of_mem_replicate (List.mem_of_mem_drop hy)
          · intro row hrow
            cases List.eq_of_mem_replicate hrow
      refine rows_spare_of_mem _ d rfl ?_ hsp.2
      show t.len ≤ t.mlen ∧ t.mlen ≤ d.length ∧ ∀ y ∈ d.drop t.len, y = none
      refine ⟨?_, by omega, hsp.1⟩
      cases hb.2 with
      | inl h0 => omega
      | inr h1 => omega

theorem t_concat_loop_spare :
    ∀ (srcs : List (Option TABLE_ST)) (acc r : TABLE_ST), acc.rows_spare_absent →
      t_concat_loop srcs acc = .ok r → r.rows_spare_absent := by
  intro srcs
  induction srcs with
  | nil => intro acc r hp h; simp only [t_concat_loop] at h; cases h; exact hp
  | cons x srcs ih =>
    intro acc r hp h
    cases x with
    | none => simp [t_concat_loop] at h
    | some tmp =>
      simp only [t_concat_loop] at h
      split at h
      · cases h
      · rename_i acc1 hin
        refine ih acc1 r ?_ h
        refine for_loop_preserve (fun (a : TABLE_ST) => a.rows_spare_absent) _ ?_ _ _ _ _
          hp hin
        intro j s s1 hs hb
        beta_reduce at hb
        split at hb
        · cases hb
        · split at hb
          · cases hb
          · split at hb
            · cases hb
            · rename_i c hc
              refine t_append_spare _ _ _ hs ?_ hb
              intro row hrow
              cases hrow
              exact v_copy_spare _ _ hc

theorem transpose_inner_spare (m : Nat) (r : VECTOR_ST) (d d1 : TABLE_ST)
    (hd : d.rows_spare_absent) (h : transpose_inner m r d = .ok d1) :
    d1.rows_spare_absent := by
  refine for_loop_preserve (fun (a : TABLE_ST) => a.rows_spare_absent) _ ?_ _ _ _ _ hd h
  intro j s s1 hs hb
  beta_reduce at hb
  split at hb
  · cases hb
  · split at hb
    · cases hb
    · cases hb; exact hs
    · split at hb
      · cases hb
      · split at hb
        · cases hb
        · rename_i dslots hds
          split at hb
          · cases hb
          · rename_i drow hld
            split at hb
            · cases hb
            · rename_i drow1 hap
              cases hb
              cases drow with
              | none => simp [v_append] at hap
              | some dr =>
                have hidx := load_inv _ _ _ hld
                have hsp := hs.1
                unfold TABLE_ST.spare_absent at hsp
                simp only [hds] at hsp
                have hlt := present_lt dslots s.len j dr hsp.2.2 hidx
                have hmem := mem_spare_of_rows s dslots hds hs
                have hdr : dr.spare_absent := hmem dr (List.getElem?_mem hidx)
                refine rows_spare_of_mem _ (dslots.set j (some drow1)) rfl ?_ ?_
                · show s.len ≤ s.mlen ∧ s.mlen ≤ (dslots.set j (some drow1)).length
                    ∧ ∀ y ∈ (dslots.set j (some drow1)).drop s.len, y = none
                  rw [List.length_set, List.drop_set_of_lt _ _ hlt]
                  exact hsp
                · intro row hrow
                  cases List.mem_or_eq_of_mem_set hrow with
                  | inl h1 => exact hmem row h1
                  | inr h1 =>
                    cases h1
                    exact v_append_spare _ _ _ hdr hap

/-- The Table `transpose` returns has its spare slots absent, and so have its
rows. -/
theorem transpose_spare (t : Option TABLE_ST) (d : TABLE_ST)
    (h : transpose t = .ok (some d)) : d.rows_spare_absent := by
  simp only [transpose] at h
  split at h
  · cases h
  · split at h
    · cases h
    · split at h
      · cases h
      · split at h
        · cases h
        · rename_i dst0 hrows
          split at h
          · cases h
          · rename_i dst hfill
            split at h
            · cases h
            · cases h
              have h0 : dst0.rows_spare_absent := by
                refine for_loop_preserve (fun (a : TABLE_ST) => a.rows_spare_absent) _ ?_
                  _ _ _ _ (new_table_s_rows_spare _) hrows
                intro j s s1 hs hb
                refine t_append_spare _ _ _ hs ?_ hb
                intro row hrow
                cases hrow
                exact new_vector_s_spare _
              refine for_loop_preserve (fun (a : TABLE_ST) => a.rows_spare_absent) _ ?_
                _ _ _ _ h0 hfill
              intro j s s1 hs hb
              beta_reduce at hb
              split at hb
              · cases hb
              · cases hb
              · exact transpose_inner_spare _ _ _ _ hs hb

/-- C12, as amended.  First part: for every Row whose slots at and above its
length are absent and every index `i` with `length ≤ i < capacity`,
`v_get_str` and `v_get_str_l` return absent, and for `i < length` they return
the stored slot (for `v_get_str_l`: its buffer); likewise `t_get_str` and
`t_get_str_l` return absent for `length(t) ≤ i < capacity(t)` and, the row `i`
being present, for `length(row i) ≤ j < capacity(row i)`, and return the stored
slot for `i < length(t)` and `j < length(row i)`.  The library leaves the spare
slots absent: the constructors do (second part), every Row or Table an
operation returns has them absent, the Row or Table it was given having them
absent (third part), and the operations do return such a Row or Table on
well-formed arguments (fourth part). -/
theorem accessors_within_capacity :
    ((∀ (v : VECTOR_ST) (i : Nat), v.spare_absent → v.len ≤ i → i < v.mlen →
        v_get_str (some v) i = .ok none ∧ v_get_str_l (some v) i = .ok none)
      ∧ (∀ (v : VECTOR_ST) (i : Nat) (x : Option STRING_ST), v.elems[i]? = some x →
        v_get_str (some v) i = .ok x ∧ v_get_str_l (some v) i = .ok (s_get_str_l x))
      ∧ (∀ (t : TABLE_ST) (i j : Nat), t.spare_absent → t.len ≤ i → i < t.mlen →
        t_get_str (some t) i j = .ok none ∧ t_get_str_l (some t) i j = .ok none)
      ∧ (∀ (t : TABLE_ST) (rows : List (Option VECTOR_ST)) (r : VECTOR_ST) (i j : Nat),
        t.vs = some rows → i < t.len → rows[i]? = some (some r) →
        (∀ row ∈ t.rows, row.spare_absent) → r.len ≤ j → j < r.mlen →
        t_get_str (some t) i j = .ok none ∧ t_get_str_l (some t) i j = .ok none)
      ∧ (∀ (t : TABLE_ST) (rows : List (Option VECTOR_ST)) (r : VECTOR_ST) (i j : Nat)
          (x : Option STRING_ST),
        t.vs = some rows → i < t.len → rows[i]? = some (some r) → r.elems[j]? = some x →
        t_get_str (some t) i j = .ok x ∧ t_get_str_l (some t) i j = .ok (s_get_str_l x)))
    ∧ ((∀ sz, (new_vector_s sz).spare_absent) ∧ new_vector.spare_absent
      ∧ (∀ sz, (new_table_s sz).rows_spare_absent) ∧ new_table.rows_spare_absent)
    ∧ ((∀ (v : VECTOR_ST) (x : Option STRING_ST) (r : VECTOR_ST), v.spare_absent →
          v_append (some v) x = .ok r → r.spare_absent)
      ∧ (∀ (srcs : List (Option VECTOR_ST)) (r : VECTOR_ST),
          v_concat srcs = .ok r → r.spare_absent)
      ∧ (∀ (v : Option VECTOR_ST) (r : VECTOR_ST), v_copy v = .ok r → r.spare_absent)
      ∧ (∀ (s : Option STRING_ST) (d : Nat) (r : VECTOR_ST),
          parse_delimited_c s d = .ok r → r.spare_absent)
      ∧ (∀ (t : TABLE_ST) (x : Option VECTOR_ST) (r : TABLE_ST), t.rows_spare_absent →
          (∀ row, x = some row → row.spare_absent) →
          t_append (some t) x = .ok r → r.rows_spare_absent)
      ∧ (∀ (srcs : List (Option TABLE_ST)) (r : TABLE_ST),
          t_concat srcs = .ok r → r.rows_spare_absent)
      ∧ (∀ (t : Option TABLE_ST) (r : TABLE_ST), t_copy t = .ok r → r.rows_spare_absent)
      ∧ (∀ (t : Option TABLE_ST) (r : TABLE_ST),
          transpose t = .ok (some r) → r.rows_spare_absent))
    ∧ ((∀ (v : VECTOR_ST) (x : Option STRING_ST), v.spare_absent →
          ∃ r, v_append (some v) x = .ok r ∧ r.spare_absent)
      ∧ (∀ (srcs : List VECTOR_ST), (∀ v ∈ srcs, v.full) →
          ∃ r, v_concat (srcs.map some) = .ok r ∧ r.spare_absent)
      ∧ (∀ (v : VECTOR_ST), v.full → v.len ≤ v.mlen →
          ∃ r, v_copy (some v) = .ok r ∧ r.spare_absent)
      ∧ (∀ (s : STRING_ST) (d : Nat), s.inv → s.len < SIZE_MOD →
          ∃ r, parse_delimited_c (some s) d = .ok r ∧ r.spare_absent)
      ∧ (∀ (t : TABLE_ST) (x : Option VECTOR_ST), t.rows_spare_absent →
          (∀ row, x = some row → row.spare_absent) →
          ∃ r, t_append (some t) x = .ok r ∧ r.rows_spare_absent)
      ∧ (∀ (srcs : List TABLE_ST), (∀ t ∈ srcs, t.copyable) →
          ∃ r, t_concat (srcs.map some) = .ok r ∧ r.rows_spare_absent)
      ∧ (∀ (t : TABLE_ST), t.copyable → ∃ r, t_copy (some t) = .ok r ∧ r.rows_spare_absent)
      ∧ (∀ (t : TABLE_ST), t.rows_ok →
          ∃ r, transpose (some t) = .ok (some r) ∧ r.rows_spare_absent)) := by
  refine ⟨⟨v_get_str_spare, v_get_str_stored, ?_, ?_, ?_⟩,
    ⟨new_vector_s_spare, new_vector_s_spare _, new_table_s_rows_spare,
      new_table_s_rows_spare _⟩,
    ⟨fun v x r hv h => v_append_spare v r x hv h, ?_, v_copy_spare, parse_delimited_c_spare,
      fun t x r ht hx h => t_append_spare t r x ht hx h, ?_, t_copy_spare, transpose_spare⟩,
    ⟨?_, ?_, ?_, ?_, ?_, ?_, ?_, ?_⟩⟩
  · intro t i j h h1 h2
    unfold TABLE_ST.spare_absent at h
    cases hs : t.vs with
    | none => simp [hs] at h
    | some rows =>
      simp only [hs] at h
      have hslot := spare_slot rows t.len i h.2.2 h1 (by omega)
      simp only [t_get_str, t_get_str_l, hs, load_ok hslot, and_self]
  · intro t rows r i j hs hi hrow hrows h1 h2
    have hr : r.spare_absent := by
      apply hrows
      simp only [TABLE_ST.rows, hs, List.mem_filterMap, id]
      refine ⟨some r, ?_, rfl⟩
      have hget : (rows.take t.len)[i]? = some (some r) := by
        rw [List.getElem?_take, if_pos hi]
        exact hrow
      exact List.getElem?_mem hget
    obtain ⟨e1, e2⟩ := v_get_str_spare r j hr h1 h2
    unfold VECTOR_ST.spare_absent at hr
    cases hc : r.strs with
    | none => simp [hc] at hr
    | some cells =>
      simp only [hc] at hr
      have hslot := spare_slot cells r.len j hr.2.2 h1 (by omega)
      simp only [t_get_str, t_get_str_l, hs, load_ok hrow, hc, load_ok hslot, and_self]
  · intro t rows r i j x hs _ hrow hx
    obtain ⟨e1, e2⟩ := v_get_str_stored r j x hx
    unfold VECTOR_ST.elems at hx
    cases hc : r.strs with
    | none => simp [hc] at hx
    | some cells =>
      simp only [hc] at hx
      rw [List.getElem?_take] at hx
      have hslot : cells[j]? = some x := by
        split at hx
        · exact hx
        · cases hx
      simp only [t_get_str, t_get_str_l, hs, load_ok hrow, hc, load_ok hslot, true_and]
      cases x with
      | none => rfl
      | some s => exact e2
  · intro srcs r h
    exact v_concat_loop_spare srcs _ r (new_vector_s_spare _) h
  · intro srcs r h
    exact t_concat_loop_spare srcs _ r (new_table_s_rows_spare _) h
  · intro v x hv
    have ha : v.alloc := by
      unfold VECTOR_ST.spare_absent at hv
      unfold VECTOR_ST.alloc
      split
      · rename_i hs; simp [hs] at hv
      · rename_i slots hs; simp only [hs] at hv; exact ⟨hv.1, hv.2.1⟩
    obtain ⟨r, hr, _⟩ := v_append_elems v x ha
    exact ⟨r, hr, v_append_spare v r x hv hr⟩
  · intro srcs h
    obtain ⟨aslots1, cs, hr, _⟩ := v_concat_loop_spec srcs
      (new_vector_s (v_concat_total (srcs.map some)))
      (List.replicate (v_concat_total (srcs.map some)) none) h rfl
      (by rw [v_concat_total_map_some]; simp [new_vector_s])
      (by simp [new_vector_s])
    exact ⟨_, hr, v_concat_loop_spare _ _ _ (new_vector_s_spare _) hr⟩
  · intro v hf hle
    obtain ⟨r, hr, _⟩ := v_copy_ok v hf hle
    exact ⟨r, hr, v_copy_spare _ _ hr⟩
  · intro s d hinv hsz
    obtain ⟨v, _, _, hr, _⟩ := parse_delimited_c_tokens s d hinv hsz
    exact ⟨v, hr, parse_delimited_c_spare _ _ _ hr⟩
  · intro t x ht hx
    have ha : t.alloc := by
      have hv := ht.1
      unfold TABLE_ST.spare_absent at hv
      unfold TABLE_ST.alloc
      split
      · rename_i hs; simp [hs] at hv
      · rename_i slots hs; simp only [hs] at hv; exact ⟨hv.1, hv.2.1⟩
    obtain ⟨r, hr, _⟩ := t_append_alloc t x ha
    exact ⟨r, hr, t_append_spare t r x ht hx hr⟩
  · intro srcs h
    obtain ⟨r, hr⟩ := t_concat_loop_ok srcs _ h (new_table_s_alloc _)
    exact ⟨r, hr, t_concat_loop_spare _ _ _ (new_table_s_rows_spare _) hr⟩
  · intro t h
    obtain ⟨r, hr⟩ := t_copy_ok t h
    exact ⟨r, hr, t_copy_spare _ _ hr⟩
  · intro t h
    obtain ⟨d, hr, _⟩ := transpose_cols t h
    exact ⟨d, hr, transpose_spare _ _ hr⟩

/-- C12 as amended, on the Row that `v_append` makes of `new_vector_s(2)` and
the Text `"a"` (index 1 is a spare slot, index 0 holds `"a"`) and on the Table
of capacity 2 that holds this Row. -/
theorem accessors_within_capacity_witness :
    (v_get_str (some ⟨some [some ⟨some [97, 0], 1, 2⟩, none], 1, 2⟩) 1 = .ok none
      ∧ v_get_str_l (some ⟨some [some ⟨some [97, 0], 1, 2⟩, none], 1, 2⟩) 1 = .ok none)
    ∧ (v_get_str (some ⟨some [some ⟨some [97, 0], 1, 2⟩, none], 1, 2⟩) 0
        = .ok (some ⟨some [97, 0], 1, 2⟩)
      ∧ v_get_str_l (some ⟨some [some ⟨some [97, 0], 1, 2⟩, none], 1, 2⟩) 0
        = .ok (some [97, 0]))
    ∧ (t_get_str (some ⟨some [some ⟨some [some ⟨some [97, 0], 1, 2⟩, none], 1, 2⟩, none],
          1, 2⟩) 1 0 = .ok none
      ∧ t_get_str_l (some ⟨some [some ⟨some [some ⟨some [97, 0], 1, 2⟩, none], 1, 2⟩, none],
          1, 2⟩) 1 0 = .ok none)
    ∧ (t_get_str (some ⟨some [some ⟨some [some ⟨some [97, 0], 1, 2⟩, none], 1, 2⟩, none],
          1, 2⟩) 0 1 = .ok none
      ∧ t_get_str_l (some ⟨some [some ⟨some [some ⟨some [97, 0], 1, 2⟩, none], 1, 2⟩, none],
          1, 2⟩) 0 1 = .ok none)
    ∧ (t_get_str (some ⟨some [some ⟨some [some ⟨some [97, 0], 1, 2⟩, none], 1, 2⟩, none],
          1, 2⟩) 0 0 = .ok (some ⟨some [97, 0], 1, 2⟩)
      ∧ t_get_str_l (some ⟨some [some ⟨some [some ⟨some [97, 0], 1, 2⟩, none], 1, 2⟩, none],
          1, 2⟩) 0 0 = .ok (some [97, 0])) :=
  ⟨accessors_within_capacity.1.1 ⟨some [some ⟨some [97, 0], 1, 2⟩, none], 1, 2⟩ 1
      (accessors_within_capacity.2.2.1.1 (new_vector_s 2) (some ⟨some [97, 0], 1, 2⟩)
        ⟨some [some ⟨some [97, 0], 1, 2⟩, none], 1, 2⟩
        (accessors_within_capacity.2.1.1 2) rfl)
      (by decide) (by decide),
   accessors_within_capacity.1.2.1 ⟨some [some ⟨some [97, 0], 1, 2⟩, none], 1, 2⟩ 0
      (some ⟨some [97, 0], 1, 2⟩) rfl,
   accessors_within_capacity.1.2.2.1
      ⟨some [some ⟨some [some ⟨some [97, 0], 1, 2⟩, none], 1, 2⟩, none], 1, 2⟩ 1 0
      (accessors_within_capacity.2.2.1.2.2.2.2.1 (new_table_s 2)
        (some ⟨some [some ⟨some [97, 0], 1, 2⟩, none], 1, 2⟩)
        ⟨some [some ⟨some [some ⟨some [97, 0], 1, 2⟩, none], 1, 2⟩, none], 1, 2⟩
        (accessors_within_capacity.2.1.2.2.1 2) (by decide) rfl).1
      (by decide) (by decide),
   accessors_within_capacity.1.2.2.2.1
      ⟨some [some ⟨some [some ⟨some [97, 0], 1, 2⟩, none], 1, 2⟩, none], 1, 2⟩
      [some ⟨some [some ⟨some [97, 0], 1, 2⟩, none], 1, 2⟩, none]
      ⟨some [some ⟨some [97, 0], 1, 2⟩, none], 1, 2⟩ 0 1 rfl (by decide) rfl
      (accessors_within_capacity.2.2.1.2.2.2.2.1 (new_table_s 2)
        (some ⟨some [some ⟨some [97, 0], 1, 2⟩, none], 1, 2⟩)
        ⟨some [some ⟨some [some ⟨some [97, 0], 1, 2⟩, none], 1, 2⟩, none], 1, 2⟩
        (accessors_within_capacity.2.1.2.2.1 2) (by decide) rfl).2
      (by decide) (by decide),
   accessors_within_capacity.1.2.2.2.2
      ⟨some [some ⟨some [some ⟨some [97, 0], 1, 2⟩, none], 1, 2⟩, none], 1, 2⟩
      [some ⟨some [some ⟨some [97, 0], 1, 2⟩, none], 1, 2⟩, none]
      ⟨some [some ⟨some [97, 0], 1, 2⟩, none], 1, 2⟩ 0 0 (some ⟨some [97, 0], 1, 2⟩)
      rfl (by decide) rfl rfl⟩

/-- C12 fails as stated for an index at or above the capacity: on the empty Row
and the empty Table of capacity 1 (`new_vector_s(1)`, `new_table_s(1)`) the
accessors read slot 1, which lies outside the one-slot array, and so does the
column index 1 on a Row of capacity 1 inside a Table. -/
theorem accessors_outside_block :
    v_get_str (some (new_vector_s 1)) 1 = .error .out_of_bounds
    ∧ v_get_str_l (some (new_vector_s 1)) 1 = .error .out_of_bounds
    ∧ t_get_str (some (new_table_s 1)) 1 0 = .error .out_of_bounds
    ∧ t_get_str_l (some (new_table_s 1)) 1 0 = .error .out_of_bounds
    ∧ t_get_str (some ⟨some [some (new_vector_s 1)], 1, 1⟩) 0 1 = .error .out_of_bounds
    ∧ t_get_str_l (some ⟨some [some (new_vector_s 1)], 1, 1⟩) 0 1 = .error .out_of_bounds :=
  ⟨rfl, rfl, rfl, rfl, rfl, rfl⟩

end Csvr
